import Mathlib

/-!
fibdrv: the bignum library `bn.c` and its fast-doubling Fibonacci engine

A shallow embedding of `src/bn.c`.

* A `bn` object is its limb array (least significant limb first) and its sign
  flag.  `size` is the length of the limb list: `bn_resize` zero-fills every
  limb between the old size and the capacity when it grows an object, so the
  limbs stored beyond `size` are never observed and `capacity` is not modelled.
* Limbs (`bn_data`, 64 bit) are natural numbers; every store into a limb is
  truncated with `% 2 ^ 64`.  The 128-bit accumulators (`bn_data_tmp`,
  `__int128`) hold at most the sum of three 64-bit quantities or the product of
  two, so they never wrap for limbs below `2 ^ 64` and are plain `Nat` / `Int`.
* `int` bit and limb counts (`bn_clz`, `bn_msb`, `d`) are plain naturals: they
  stay inside `int` as long as an operand has fewer than `2 ^ 31` bits.
* Functions that receive one `bn *` are functions on `bn`.  Functions that
  receive several pointers which may alias (`bn_add(a, b, a)`, ...) work on a
  heap of objects addressed by pointers of type `P`: a store through
  `c` is then visible through `a` exactly when `c = a`, as in C.
* Allocation never fails (`kmalloc` returning `NULL` is not modelled).
-/

namespace Fibdrv

/-- The `bn` structure of `bn.h`: `number` holds the `size` limbs, least
significant first; `sign` is set for a negative number. -/
structure bn where
  number : List Nat
  sign : Bool
deriving DecidableEq

/-- The field `size`: the number of limbs in use. -/
def bn.size (b : bn) : Nat := b.number.length

/-- A memory of `bn` objects addressed by pointers of type `P`: `h.get p` is
the object `*p`. -/
structure Heap (P : Type) where
  get : P → bn

/-- The memory after `*p = v`. -/
def Heap.set {P : Type} [DecidableEq P] (h : Heap P) (p : P) (v : bn) : Heap P :=
  ⟨Function.update h.get p v⟩

/-- The store `p->number[i] = v` (`v` truncated to 64 bits). -/
def setLimb {P : Type} [DecidableEq P] (h : Heap P) (p : P) (i v : Nat) : Heap P :=
  h.set p { h.get p with number := (h.get p).number.set i (v % 2 ^ 64) }

/-- The store `p->sign = s`. -/
def setSign {P : Type} [DecidableEq P] (h : Heap P) (p : P) (s : Bool) : Heap P :=
  h.set p { h.get p with sign := s }

/-- The read `p->number[i]`. -/
def limb (b : bn) (i : Nat) : Nat := b.number.getD i 0

/-- The builtin `__builtin_clzll` on a non-zero 64-bit word: the number of zero
bits above the most significant set bit. -/
def clzll (x : Nat) : Nat := 63 - Nat.log2 x

/-- The builtin `__builtin_clz` on a non-zero 32-bit word. -/
def clz32 (x : Nat) : Nat := 31 - Nat.log2 x

/-- The loop of `bn_clz`, on the limbs from the most significant one down:
a zero limb adds 64 to `cnt`, the first non-zero limb adds its own leading
zeros and returns. -/
def bn_clz_loop : List Nat → Nat → Nat
  | [], cnt => cnt
  | x :: rest, cnt => if x ≠ 0 then cnt + clzll x else bn_clz_loop rest (cnt + 64)

/-- `bn_clz`: count leading zeros of `src`. -/
def bn_clz (src : bn) : Nat := bn_clz_loop src.number.reverse 0

/-- `bn_msb`: the position of the most significant set bit. -/
def bn_msb (src : bn) : Nat := src.size * 64 - bn_clz src

/-- The innermost loop of `bn_to_string` (`j` from `len - 2` down to `0`) on
the characters of the buffer: every digit is doubled and takes the carry of the
digit to its right.  Returns the new buffer and the carry that leaves the
leftmost digit (which the C code drops). -/
def dbl_loop : List Nat → Nat → List Nat × Nat
  | [], carry => ([], carry)
  | c :: rest, carry =>
    let r := dbl_loop rest carry
    let v := c + (c - 48 + r.2)
    if v > 57 then ((v - 10) :: r.1, 1) else (v :: r.1, 0)

/-- The loop over the bits of one limb in `bn_to_string`: `d` runs over
`2 ^ 63, ..., 2, 1`; the first argument is the number of bits still to do. -/
def bit_loop (x : Nat) : Nat → List Nat → List Nat
  | 0, s => s
  | k + 1, s => bit_loop x k (dbl_loop s (if 2 ^ k &&& x ≠ 0 then 1 else 0)).1

/-- The loop over the limbs in `bn_to_string`, from the most significant limb
down. -/
def limb_loop : List Nat → List Nat → List Nat
  | [], s => s
  | x :: rest, s => limb_loop rest (bit_loop x 64 s)

/-- The loop `while (p[0] == '0' && p[1] != '\0') p++` of `bn_to_string`;
returns the index `p - s`. -/
def skip_zeros : List Nat → Nat
  | c0 :: c1 :: rest => if c0 = 48 then skip_zeros (c1 :: rest) + 1 else 0
  | _ => 0

/-- The digit buffer of `bn_to_string` after the conversion loops: `len - 1`
characters, all `'0'` at first. -/
def to_string_buf (src : bn) : List Nat :=
  let len := (8 * 8 * src.size) / 3 + 2 + (if src.sign then 1 else 0)
  limb_loop src.number.reverse (List.replicate (len - 1) 48)

/-- `bn_to_string`: the decimal string of `src`.  The result is `none` when the
`'-'` would be stored in front of the buffer (`p == s` when the sign is set),
which is undefined behaviour in C. -/
def bn_to_string (src : bn) : Option String :=
  let s := to_string_buf src
  let p := skip_zeros s
  if src.sign then
    if p = 0 then none
    else some (String.mk (((s.set (p - 1) 45).drop (p - 1)).map Char.ofNat))
  else some (String.mk ((s.drop p).map Char.ofNat))

/-- `bn_alloc`: a new object with `size` limbs, initialised to `+0`. -/
def bn_alloc (size : Nat) : bn := { number := List.replicate size 0, sign := false }

/-- `bn_resize`: shrinking drops the high limbs, growing appends zero limbs.
(`size = 0` releases the object in C; no caller in `bn.c` asks for it.) -/
def bn_resize (src : bn) (size : Nat) : bn :=
  if size = src.size then src
  else { src with number := src.number.take size ++ List.replicate (size - src.size) 0 }

/-- `bn_cpy`: copy the value of `src` to `dest`. -/
def bn_cpy {P : Type} [DecidableEq P] (dest src : P) (h : Heap P) : Heap P :=
  let h := h.set dest (bn_resize (h.get dest) (h.get src).size)
  let h := setSign h dest (h.get src).sign
  h.set dest
    { h.get dest with number := (h.get src).number ++ (h.get dest).number.drop (h.get src).size }

/-- `bn_swap`: exchange the contents of two objects. -/
def bn_swap {P : Type} [DecidableEq P] (a b : P) (h : Heap P) : Heap P :=
  let tmp := h.get a
  let h := h.set a (h.get b)
  h.set b tmp

/-- The loop of `bn_lshift2`, `i` from `src->size - 1` down to `1`; the first
argument is the value of `i` at entry. -/
def bn_lshift2_loop {P : Type} [DecidableEq P] (src dest : P) (shift : Nat) :
    Nat → Heap P → Heap P
  | 0, h => h
  | i + 1, h =>
    bn_lshift2_loop src dest shift i
      (setLimb h dest (i + 1)
        ((limb (h.get src) (i + 1) * 2 ^ shift) % 2 ^ 64 ||| limb (h.get src) i / 2 ^ (64 - shift)))

/-- `bn_lshift2`: `dest = src << shift`; `src` is resized too when the shift
needs one more limb. -/
def bn_lshift2 {P : Type} [DecidableEq P] (src : P) (shift : Nat) (dest : P)
    (h : Heap P) : Heap P :=
  let z := bn_clz (h.get src)
  let shift := shift % 64
  if shift = 0 then h
  else
    let h1 :=
      if shift > z then
        let h := h.set dest (bn_resize (h.get dest) ((h.get src).size + 1))
        h.set src (bn_resize (h.get src) ((h.get src).size + 1))
      else h.set dest (bn_resize (h.get dest) (h.get src).size)
    let h2 := bn_lshift2_loop src dest shift ((h1.get src).size - 1) h1
    setLimb h2 dest 0 (limb (h2.get src) 0 * 2 ^ shift)

/-- The loop of `bn_cmp` for equal sizes, on the limbs of both operands from
the most significant one down. -/
def bn_cmp_loop : List Nat → List Nat → Int
  | x :: xs, y :: ys => if x > y then 1 else if x < y then -1 else bn_cmp_loop xs ys
  | _, _ => 0

/-- `bn_cmp`: compare the magnitudes, first by size. -/
def bn_cmp (a b : bn) : Int :=
  if a.size > b.size then 1
  else if a.size < b.size then -1
  else bn_cmp_loop a.number.reverse b.number.reverse

/-- `DIV_ROUNDUP(d, 64) + !d`. -/
def limbs_for (d : Nat) : Nat := (d + 64 - 1) / 64 + (if d = 0 then 1 else 0)

/-- The loop of `bn_do_add`: the first argument counts the iterations left,
`i` is the limb index. -/
def bn_do_add_loop {P : Type} [DecidableEq P] (a b c : P) :
    Nat → Nat → Nat → Heap P → Heap P
  | 0, _, _, h => h
  | k + 1, i, carry, h =>
    let tmp1 := if i < (h.get a).size then limb (h.get a) i else 0
    let tmp2 := if i < (h.get b).size then limb (h.get b) i else 0
    let carry := carry + (tmp1 + tmp2)
    bn_do_add_loop a b c k (i + 1) (carry / 2 ^ 64) (setLimb h c i carry)

/-- `bn_do_add`: `|c| = |a| + |b|`. -/
def bn_do_add {P : Type} [DecidableEq P] (a b c : P) (h : Heap P) : Heap P :=
  let d := max (bn_msb (h.get a)) (bn_msb (h.get b)) + 1
  let d := limbs_for d
  let h := h.set c (bn_resize (h.get c) d)
  let h := bn_do_add_loop a b c (h.get c).size 0 0 h
  if limb (h.get c) ((h.get c).size - 1) = 0 ∧ (h.get c).size > 1 then
    h.set c (bn_resize (h.get c) ((h.get c).size - 1))
  else h

/-- The loop of `bn_do_sub`, with the borrow in `carry`. -/
def bn_do_sub_loop {P : Type} [DecidableEq P] (a b c : P) :
    Nat → Nat → Int → Heap P → Heap P
  | 0, _, _, h => h
  | k + 1, i, carry, h =>
    let tmp1 : Int := if i < (h.get a).size then limb (h.get a) i else 0
    let tmp2 : Int := if i < (h.get b).size then limb (h.get b) i else 0
    let carry := tmp1 - tmp2 - carry
    if carry < 0 then
      bn_do_sub_loop a b c k (i + 1) 1 (setLimb h c i (carry + 2 ^ 64).toNat)
    else
      bn_do_sub_loop a b c k (i + 1) 0 (setLimb h c i carry.toNat)

/-- `bn_do_sub`: `|c| = |a| - |b|`, for `|a| > |b|`. -/
def bn_do_sub {P : Type} [DecidableEq P] (a b c : P) (h : Heap P) : Heap P :=
  let d := max (h.get a).size (h.get b).size
  let h := h.set c (bn_resize (h.get c) d)
  let h := bn_do_sub_loop a b c (h.get c).size 0 0 h
  let d := bn_clz (h.get c) / 64
  let d := if d = (h.get c).size then d - 1 else d
  h.set c (bn_resize (h.get c) ((h.get c).size - d))

/-- `bn_add`: `c = a + b`. -/
def bn_add {P : Type} [DecidableEq P] (a b c : P) (h : Heap P) : Heap P :=
  if (h.get a).sign = (h.get b).sign then
    let h := bn_do_add a b c h
    setSign h c (h.get a).sign
  else
    let a1 := if (h.get a).sign then b else a
    let b1 := if (h.get a).sign then a else b
    let cmp := bn_cmp (h.get a1) (h.get b1)
    if cmp > 0 then setSign (bn_do_sub a1 b1 c h) c false
    else if cmp < 0 then setSign (bn_do_sub b1 a1 c h) c true
    else
      let h := h.set c (bn_resize (h.get c) 1)
      let h := setLimb h c 0 0
      setSign h c false

/-- The memory extended with one more object, addressed by `none`: a local
variable or a fresh allocation of the running function. -/
def Heap.push {P : Type} (h : Heap P) (v : bn) : Heap (Option P) :=
  ⟨fun p => match p with
    | none => v
    | some p => h.get p⟩

/-- The memory without the extra object, when the function returns. -/
def Heap.pop {P : Type} (h : Heap (Option P)) : Heap P := ⟨fun p => h.get (some p)⟩

/-- `bn_sub`: `c = a - b`, for `c` different from `b`: the local `tmp` is a
copy of `*b` with the sign flipped (it shares the limbs of `b`, which `bn_add`
does not write to unless `c` is `b`). -/
def bn_sub {P : Type} [DecidableEq P] (a b c : P) (h : Heap P) : Heap P :=
  let tmp : bn := { h.get b with sign := xor (h.get b).sign true }
  (bn_add (some a) none (some c) (h.push tmp)).pop

/-- The loop of `bn_mult_add` on the limbs of `c`: the first argument counts
the iterations left before `i` reaches `c->size`. -/
def bn_mult_add_loop : Nat → Nat → Nat → Nat → bn → bn
  | 0, _, _, _, c => c
  | k + 1, i, carry, x, c =>
    let carry := carry + (limb c i + x % 2 ^ 64)
    let c := { c with number := c.number.set i (carry % 2 ^ 64) }
    let carry := carry / 2 ^ 64
    let x := x / 2 ^ 64
    if x = 0 ∧ carry = 0 then c else bn_mult_add_loop k (i + 1) carry x c

/-- `bn_mult_add`: `c += x`, starting from limb `offset`. -/
def bn_mult_add (c : bn) (offset x : Nat) : bn :=
  bn_mult_add_loop (c.size - offset) offset 0 x c

/-- The inner loop of `bn_mult` over the limbs `j` of `b`. -/
def bn_mult_inner {P : Type} [DecidableEq P] (a b c : P) (i : Nat) :
    Nat → Nat → Heap P → Heap P
  | 0, _, h => h
  | k + 1, j, h =>
    if j < (h.get b).size then
      bn_mult_inner a b c i k (j + 1)
        (h.set c (bn_mult_add (h.get c) (i + j) (limb (h.get a) i * limb (h.get b) j)))
    else h

/-- The outer loop of `bn_mult` over the limbs `i` of `a`. -/
def bn_mult_outer {P : Type} [DecidableEq P] (a b c : P) :
    Nat → Nat → Heap P → Heap P
  | 0, _, h => h
  | k + 1, i, h =>
    if i < (h.get a).size then
      bn_mult_outer a b c k (i + 1) (bn_mult_inner a b c i (h.get b).size 0 h)
    else h

/-- The two loops of `bn_mult` and the store of the sign. -/
def bn_mult_loops {P : Type} [DecidableEq P] (a b c : P) (h : Heap P) : Heap P :=
  let h := bn_mult_outer a b c (h.get a).size 0 h
  setSign h c (xor (h.get a).sign (h.get b).sign)

/-- `bn_mult`: `c = a * b`.  When `c` is `a` or `b` the product is built in a
fresh object and swapped into `c`. -/
def bn_mult {P : Type} [DecidableEq P] (a b c : P) (h : Heap P) : Heap P :=
  let d := bn_msb (h.get a) + bn_msb (h.get b)
  let d := limbs_for d
  if c = a ∨ c = b then
    let g := h.push (bn_alloc d)
    let g := bn_mult_loops (some a) (some b) none g
    (bn_swap (some c) none g).pop
  else
    let h := h.set c
      { h.get c with number := List.replicate (h.get c).size 0 }
    let h := h.set c (bn_resize (h.get c) d)
    bn_mult_loops a b c h

/-- The objects of `bn_fib_fdoubling_nocpy`: `f1` is `dest`, the other three
are allocated by the function. -/
inductive FibVar where
  | f1
  | f2
  | k1
  | k2
deriving DecidableEq

/-- The body of the loop of `bn_fib_fdoubling_nocpy`; `bit` is `n & i`. -/
def fib_nocpy_body (bit : Bool) (h : Heap FibVar) : Heap FibVar :=
  let h := bn_lshift2 FibVar.f2 1 FibVar.k1 h
  let h := bn_sub FibVar.k1 FibVar.f1 FibVar.k1 h
  let h := bn_mult FibVar.k1 FibVar.f1 FibVar.k2 h
  let h := bn_mult FibVar.f1 FibVar.f1 FibVar.k1 h
  let h := bn_swap FibVar.f1 FibVar.k2 h
  let h := bn_mult FibVar.f2 FibVar.f2 FibVar.k2 h
  let h := bn_add FibVar.k1 FibVar.k2 FibVar.f2 h
  if bit then
    let h := bn_swap FibVar.f1 FibVar.f2 h
    bn_add FibVar.f1 FibVar.f2 FibVar.f2 h
  else h

/-- The loop `for (i = ...; i; i >>= 1)` of `bn_fib_fdoubling_nocpy`; the first
argument bounds the number of iterations (`i` is a 32-bit word). -/
def fib_nocpy_loop (n : Nat) : Nat → Nat → Heap FibVar → Heap FibVar
  | 0, _, h => h
  | fuel + 1, i, h =>
    if i ≠ 0 then fib_nocpy_loop n fuel (i / 2) (fib_nocpy_body (decide (n &&& i ≠ 0)) h)
    else h

/-- The memory of `bn_fib_fdoubling_nocpy` when the loop starts. -/
def fib_nocpy_init (dest : bn) : Heap FibVar :=
  ⟨fun p => match p with
    | FibVar.f1 => { dest with number := dest.number.set 0 0 }
    | FibVar.f2 => { bn_alloc 1 with number := (bn_alloc 1).number.set 0 1 }
    | FibVar.k1 => bn_alloc 1
    | FibVar.k2 => bn_alloc 1⟩

/-- `bn_fib_fdoubling_nocpy`: the contents of `dest` on return, from its
contents at the call and the 32-bit index `n`. -/
def bn_fib_fdoubling_nocpy (dest : bn) (n : Nat) : bn :=
  let dest := bn_resize dest 1
  if n < 2 then { dest with number := dest.number.set 0 n }
  else
    let i := 2 ^ (31 - clz32 n) % 2 ^ 32
    (fib_nocpy_loop n 32 i (fib_nocpy_init dest)).get FibVar.f1

/-- The magnitude of a limb list: the sum of `number[i] * 2 ^ (64 * i)`. -/
def mag : List Nat → Nat
  | [] => 0
  | x :: xs => x + 2 ^ 64 * mag xs

/-- The signed value of a `bn`. -/
def bn.value (b : bn) : Int := if b.sign then -(mag b.number : Int) else (mag b.number : Int)

/-- Every limb is a 64-bit word. -/
def bn.wf (b : bn) : Prop := ∀ x ∈ b.number, x < 2 ^ 64

/-- The Fibonacci numbers as the specification defines them. -/
def F : Nat → Nat
  | 0 => 0
  | 1 => 1
  | n + 2 => F (n + 1) + F n

/-- The limbs stored by `k` iterations of the loop of `bn_do_add`, when the
limbs of `a` and `b` from the current index on are `A` and `B`. -/
def addLimbs : Nat → List Nat → List Nat → Nat → List Nat
  | 0, _, _, _ => []
  | k + 1, A, B, carry =>
    (carry + (A.headD 0 + B.headD 0)) % 2 ^ 64 ::
      addLimbs k A.tail B.tail ((carry + (A.headD 0 + B.headD 0)) / 2 ^ 64)

/-- The limbs stored by `k` iterations of the loop of `bn_do_sub`. -/
def subLimbs : Nat → List Nat → List Nat → Int → List Nat
  | 0, _, _, _ => []
  | k + 1, A, B, carry =>
    if ((A.headD 0 : Nat) : Int) - ((B.headD 0 : Nat) : Int) - carry < 0 then
      (((A.headD 0 : Nat) : Int) - ((B.headD 0 : Nat) : Int) - carry + 2 ^ 64).toNat % 2 ^ 64 ::
        subLimbs k A.tail B.tail 1
    else
      (((A.headD 0 : Nat) : Int) - ((B.headD 0 : Nat) : Int) - carry).toNat % 2 ^ 64 ::
        subLimbs k A.tail B.tail 0

/-- The limbs that `bn_do_add(a, b, c)` leaves in `c`. -/
def do_add_res (a b : bn) : List Nat :=
  let d := limbs_for (max (bn_msb a) (bn_msb b) + 1)
  let L := addLimbs d a.number b.number 0
  if L.getD (d - 1) 0 = 0 ∧ d > 1 then L.take (d - 1) else L

/-- The limbs that `bn_do_sub(a, b, c)` leaves in `c`. -/
def do_sub_res (a b : bn) : List Nat :=
  let d := max a.size b.size
  let L := subLimbs d a.number b.number 0
  let z := bn_clz_loop L.reverse 0 / 64
  let z := if z = d then z - 1 else z
  L.take (d - z)

/-- The object that `bn_add(a, b, c)` leaves in `c`. -/
def add_res (a b : bn) : bn :=
  if a.sign = b.sign then ⟨do_add_res a b, a.sign⟩
  else
    let a1 := if a.sign then b else a
    let b1 := if a.sign then a else b
    if bn_cmp a1 b1 > 0 then ⟨do_sub_res a1 b1, false⟩
    else if bn_cmp a1 b1 < 0 then ⟨do_sub_res b1 a1, true⟩
    else ⟨[0], false⟩

/-- The different-sign branch of `bn_add`, for the non-negative operand `p` and
the negative operand `m`. -/
def add_mixed (p m : bn) : bn :=
  if bn_cmp p m > 0 then ⟨do_sub_res p m, false⟩
  else if bn_cmp p m < 0 then ⟨do_sub_res m p, true⟩
  else ⟨[0], false⟩

/-- The object that `bn_sub(a, b, c)` leaves in `c`. -/
def sub_res (a b : bn) : bn := add_res a { b with sign := xor b.sign true }

/-- The limbs of `c` from the offset on after `bn_mult_add`, when they were
`L`. -/
def maddLimbs : List Nat → Nat → Nat → List Nat
  | [], _, _ => []
  | ci :: rest, carry, x =>
    (carry + (ci + x % 2 ^ 64)) % 2 ^ 64 ::
      (if x / 2 ^ 64 = 0 ∧ (carry + (ci + x % 2 ^ 64)) / 2 ^ 64 = 0 then rest
       else maddLimbs rest ((carry + (ci + x % 2 ^ 64)) / 2 ^ 64) (x / 2 ^ 64))

/-- The limbs of `c` after `bn_mult_add(c, offset, x)`. -/
def maddAt (L : List Nat) (offset x : Nat) : List Nat :=
  L.take offset ++ maddLimbs (L.drop offset) 0 x

/-- The limbs of `c` after the inner loop of `bn_mult` for the limb `ai` of `a`
at index `i`, when `B` holds the limbs of `b` from index `j` on. -/
def multInner (ai i : Nat) : List Nat → Nat → List Nat → List Nat
  | [], _, C => C
  | bj :: rest, j, C => multInner ai i rest (j + 1) (maddAt C (i + j) (ai * bj))

/-- The limbs of `c` after the outer loop of `bn_mult`, when `A` holds the limbs
of `a` from index `i` on. -/
def multOuter : List Nat → Nat → List Nat → List Nat → List Nat
  | [], _, _, C => C
  | ai :: rest, i, B, C => multOuter rest (i + 1) B (multInner ai i B 0 C)

/-- The object that `bn_mult(a, b, c)` leaves in `c`. -/
def mult_res (a b : bn) : bn :=
  ⟨multOuter a.number 0 b.number (List.replicate (limbs_for (bn_msb a + bn_msb b)) 0),
    xor a.sign b.sign⟩

/-- The limbs that the loop and the last store of `bn_lshift2` leave in `dest`,
from the limbs of `src`; `prev` is the limb below the first one. -/
def shlLimbs (shift : Nat) : Nat → List Nat → List Nat
  | _, [] => []
  | prev, x :: xs =>
    ((x * 2 ^ shift) % 2 ^ 64 ||| prev / 2 ^ (64 - shift)) % 2 ^ 64 :: shlLimbs shift x xs

/-- The source object of `bn_lshift2` on return: one zero limb longer when the
shift does not fit. -/
def lshift2_src (b : bn) (shift : Nat) : bn :=
  if shift % 64 > bn_clz b then bn_resize b (b.size + 1) else b

/-- A limb list without a zero most significant limb, unless it is one limb. -/
def trimmed (L : List Nat) : Prop := L.length = 1 ∨ (1 ≤ L.length ∧ 2 ^ (64 * (L.length - 1)) ≤ mag L)

/-- The object `k1` after `bn_lshift2(f2, 1, k1)` in the Fibonacci loop, when
`f2` held `B` and `k1` held `K`. -/
def fibT (B K : bn) : bn := ⟨shlLimbs (1 % 64) 0 (lshift2_src B 1).number, K.sign⟩

/-- The object `k1` after `bn_sub(k1, f1, k1)`, when `f1` held `A`. -/
def fibU (A B K : bn) : bn := sub_res (fibT B K) A

/-- The product `F(2k)` that the loop body leaves in `f1`. -/
def fibV (A B K : bn) : bn := mult_res (fibU A B K) A

/-- The square that the loop body leaves in `k1`. -/
def fibW (A : bn) : bn := mult_res A A

/-- The square that the loop body leaves in `k2`. -/
def fibX (B : bn) : bn := mult_res (lshift2_src B 1) (lshift2_src B 1)

/-- The sum `F(2k+1)` that the loop body leaves in `f2`. -/
def fibY (A B : bn) : bn := add_res (fibW A) (fibX B)

/-- The sum `F(2k+2)` that the loop body leaves in `f2` when the bit is set. -/
def fibZ (A B K : bn) : bn := add_res (fibY A B) (fibV A B K)

/-- The object `b` is non-negative with magnitude `v`, 64-bit limbs, and at
most one zero limb on top (what `bn_mult` guarantees). -/
def holds_loose (b : bn) (v : Nat) : Prop :=
  b.wf ∧ 1 ≤ b.size ∧ b.sign = false ∧ mag b.number = v ∧
    (b.size = 1 ∨ 2 ^ (64 * (b.size - 1)) ≤ 2 * v)

/-- The object `b` is non-negative with magnitude `v`, 64-bit limbs, and
trimmed. -/
def holds_trim (b : bn) (v : Nat) : Prop :=
  b.wf ∧ 1 ≤ b.size ∧ b.sign = false ∧ mag b.number = v ∧ trimmed b.number

/-- The loop invariant of `bn_fib_fdoubling_nocpy` at index `k`. -/
def fib_inv (k : Nat) (h : Heap FibVar) : Prop :=
  holds_loose (h.get FibVar.f1) (Nat.fib k) ∧ holds_trim (h.get FibVar.f2) (Nat.fib (k + 1)) ∧
    (h.get FibVar.k1).sign = false

/-- Canonical form: at least one limb, 64-bit limbs, the most significant limb
non-zero unless the size is one, and no negative zero. -/
def bn.canonical (b : bn) : Prop :=
  b.wf ∧ 1 ≤ b.size ∧ (b.size = 1 ∨ b.number.getLast? ≠ some 0) ∧ (mag b.number = 0 → b.sign = false)

/-- The number written in decimal by a buffer of digit characters, most
significant digit first. -/
def dv : List Nat → Nat
  | [] => 0
  | c :: rest => (c - 48) * 10 ^ rest.length + dv rest

/-- Every character of the buffer is a decimal digit, `'0'` to `'9'`. -/
def isDigits (s : List Nat) : Prop := ∀ c ∈ s, 48 ≤ c ∧ c ≤ 57

/-- The base-10 digits of `m`, most significant first, without leading zeros;
the single digit `0` for zero. -/
def decimal (m : Nat) : List Char :=
  if m = 0 then ['0'] else (Nat.digits 10 m).reverse.map (fun d => Char.ofNat (48 + d))

/-- The string the specification asks of `bn_to_string`: the decimal digits of
the magnitude, after one `'-'` when the sign is set. -/
def render (b : bn) : String :=
  String.mk ((if b.sign then ['-'] else []) ++ decimal (mag b.number))

/-- A memory with three objects: `a` at address 0, `b` at address 1 and `c` at
every other address. -/
def heap3 (a b c : bn) : Heap Nat :=
  ⟨fun p => if p = 0 then a else if p = 1 then b else c⟩

instance (b : bn) : Decidable b.wf := by
  unfold bn.wf; infer_instance

instance (b : bn) : Decidable b.canonical := by
  unfold bn.canonical; infer_instance

/-- The loop of `bn_lshift`, `i` from `src->size - 1` down to `1`, storing into
`src` itself; the first argument is the value of `i` at entry. -/
def bn_lshift_loop (shift : Nat) : Nat → bn → bn
  | 0, src => src
  | i + 1, src =>
    bn_lshift_loop shift i
      { src with number := (src.number.set (i + 1)
          (((limb src (i + 1) * 2 ^ shift) % 2 ^ 64 ||| limb src i / 2 ^ (64 - shift)) % 2 ^ 64)) }

/-- `bn_lshift`: `src <<= shift % 64`, in place; one limb is added when the
shift exceeds the number of leading zero bits. -/
def bn_lshift (src : bn) (shift : Nat) : bn :=
  let z := bn_clz src
  let shift := shift % 64
  if shift = 0 then src
  else
    let src := if shift > z then bn_resize src (src.size + 1) else src
    let src := bn_lshift_loop shift (src.size - 1) src
    { src with number := src.number.set 0 ((limb src 0 * 2 ^ shift) % 2 ^ 64) }

/-- The body of the loop of `bn_fib_fdoubling_Q_Matrix` (here `f2` is `dest`
and `f1` is allocated by the function); `bit` is `n & i`. -/
def fib_qm_body (bit : Bool) (h : Heap FibVar) : Heap FibVar :=
  let h := bn_lshift2 FibVar.f1 1 FibVar.k1 h
  let h := bn_add FibVar.k1 FibVar.f2 FibVar.k1 h
  let h := bn_mult FibVar.k1 FibVar.f2 FibVar.k2 h
  let h := bn_mult FibVar.f2 FibVar.f2 FibVar.k1 h
  let h := bn_swap FibVar.f2 FibVar.k2 h
  let h := bn_mult FibVar.f1 FibVar.f1 FibVar.k2 h
  let h := bn_add FibVar.k2 FibVar.k1 FibVar.f1 h
  if bit then
    let h := bn_swap FibVar.f1 FibVar.f2 h
    bn_add FibVar.f1 FibVar.f2 FibVar.f2 h
  else h

/-- The loop `for (i = ...; i; i >>= 1)` of `bn_fib_fdoubling_Q_Matrix`; the
first argument bounds the number of iterations. -/
def fib_qm_loop (n : Nat) : Nat → Nat → Heap FibVar → Heap FibVar
  | 0, _, h => h
  | fuel + 1, i, h =>
    if i ≠ 0 then fib_qm_loop n fuel (i / 2) (fib_qm_body (decide (n &&& i ≠ 0)) h)
    else h

/-- The memory of `bn_fib_fdoubling_Q_Matrix` when the loop starts. -/
def fib_qm_init (dest : bn) : Heap FibVar :=
  ⟨fun p => match p with
    | FibVar.f1 => { bn_alloc 1 with number := (bn_alloc 1).number.set 0 0 }
    | FibVar.f2 => { dest with number := dest.number.set 0 1 }
    | FibVar.k1 => bn_alloc 1
    | FibVar.k2 => bn_alloc 1⟩

/-- `bn_fib_fdoubling_Q_Matrix`: the contents of `dest` on return. -/
def bn_fib_fdoubling_Q_Matrix (dest : bn) (n : Nat) : bn :=
  let dest := bn_resize dest 1
  if n < 2 then { dest with number := dest.number.set 0 n }
  else
    let i := 2 ^ (30 - clz32 n) % 2 ^ 32
    (fib_qm_loop n 32 i (fib_qm_init dest)).get FibVar.f2

/-- The body of the loop of `bn_fib_fdoubling` (`f1` is `dest`); `bit` is
`n & i`. -/
def fib_cpy_body (bit : Bool) (h : Heap FibVar) : Heap FibVar :=
  let h := bn_cpy FibVar.k1 FibVar.f2 h
  let h := h.set FibVar.k1 (bn_lshift (h.get FibVar.k1) 1)
  let h := bn_sub FibVar.k1 FibVar.f1 FibVar.k1 h
  let h := bn_mult FibVar.k1 FibVar.f1 FibVar.k1 h
  let h := bn_mult FibVar.f1 FibVar.f1 FibVar.f1 h
  let h := bn_mult FibVar.f2 FibVar.f2 FibVar.f2 h
  let h := bn_cpy FibVar.k2 FibVar.f1 h
  let h := bn_add FibVar.k2 FibVar.f2 FibVar.k2 h
  if bit then
    let h := bn_cpy FibVar.f1 FibVar.k2 h
    let h := bn_cpy FibVar.f2 FibVar.k1 h
    bn_add FibVar.f2 FibVar.k2 FibVar.f2 h
  else
    let h := bn_cpy FibVar.f1 FibVar.k1 h
    bn_cpy FibVar.f2 FibVar.k2 h

/-- The loop `for (i = 1U << 31; i; i >>= 1)` of `bn_fib_fdoubling`; the first
argument bounds the number of iterations. -/
def fib_cpy_loop (n : Nat) : Nat → Nat → Heap FibVar → Heap FibVar
  | 0, _, h => h
  | fuel + 1, i, h =>
    if i ≠ 0 then fib_cpy_loop n fuel (i / 2) (fib_cpy_body (decide (n &&& i ≠ 0)) h)
    else h

/-- `bn_fib_fdoubling`: the contents of `dest` on return. -/
def bn_fib_fdoubling (dest : bn) (n : Nat) : bn :=
  let dest := bn_resize dest 1
  if n < 2 then { dest with number := dest.number.set 0 n }
  else (fib_cpy_loop n 32 (2 ^ 31 % 2 ^ 32) (fib_nocpy_init dest)).get FibVar.f1

/-- The loop over the bits of one limb in `bn_to_string`, as `bit_loop`, with
the sum of the carries that left the leftmost digit. -/
def bit_loop_carry (x : Nat) : Nat → List Nat → Nat → List Nat × Nat
  | 0, s, c => (s, c)
  | k + 1, s, c =>
    bit_loop_carry x k (dbl_loop s (if 2 ^ k &&& x ≠ 0 then 1 else 0)).1
      (c + (dbl_loop s (if 2 ^ k &&& x ≠ 0 then 1 else 0)).2)

/-- The loop over the limbs in `bn_to_string`, as `limb_loop`, with the sum of
the carries that left the leftmost digit. -/
def limb_loop_carry : List Nat → List Nat → Nat → List Nat × Nat
  | [], s, c => (s, c)
  | x :: rest, s, c => limb_loop_carry rest (bit_loop_carry x 64 s c).1 (bit_loop_carry x 64 s c).2

/-- The digit buffer of `bn_to_string` after the conversion loops, and the
number of carries out of its leftmost digit that the loops dropped. -/
def to_string_carry (src : bn) : List Nat × Nat :=
  let len := (8 * 8 * src.size) / 3 + 2 + (if src.sign then 1 else 0)
  limb_loop_carry src.number.reverse (List.replicate (len - 1) 48) 0

/-- The object `b` is non-negative with magnitude `v`, 64-bit limbs and at
least one limb. -/
def holds_val (b : bn) (v : Nat) : Prop :=
  b.wf ∧ 1 ≤ b.size ∧ b.sign = false ∧ mag b.number = v

/-- The loop invariant of `bn_fib_fdoubling_Q_Matrix` at index `k`. -/
def qm_inv (k : Nat) (h : Heap FibVar) : Prop :=
  1 ≤ k ∧ holds_val (h.get FibVar.f1) (Nat.fib (k - 1)) ∧ holds_val (h.get FibVar.f2) (Nat.fib k) ∧
    (h.get FibVar.k1).sign = false

/-- The number of consecutive zero bits of `m` from bit position `k - 1`
downward, read off the binary digits of `m`. -/
def zero_bits_below (m : Nat) : Nat → Nat
  | 0 => 0
  | k + 1 => if m.testBit k then 0 else zero_bits_below m k + 1

/-- The number of leading zero bits of the `64 * size` bits that `b` holds, as
the specification words it: the zero bits counted from the most significant bit
of the most significant limb downward.  It is defined from the magnitude of `b`
alone, without `bn_clz`. -/
def leading_zero_bits (b : bn) : Nat := zero_bits_below (mag b.number) (64 * b.size)

/-! ## Lemmas and theorems -/

theorem Heap.ext_get {P : Type} {h g : Heap P} (hg : ∀ p, h.get p = g.get p) : h = g := by
  cases h; cases g; congr; funext p; exact hg p

section heap
variable {P : Type} [DecidableEq P]

@[simp] theorem Heap.get_set_same (h : Heap P) (p : P) (v : bn) : (h.set p v).get p = v := by
  simp [Heap.set]

@[simp] theorem Heap.get_set_ne (h : Heap P) {p q : P} (v : bn) (hne : q ≠ p) :
    (h.set p v).get q = h.get q := by
  simp [Heap.set, Function.update_noteq hne]

theorem Heap.get_set (h : Heap P) (p q : P) (v : bn) :
    (h.set p v).get q = if q = p then v else h.get q := by
  by_cases hq : q = p
  · subst hq; simp
  · simp [hq]

@[simp] theorem Heap.set_set (h : Heap P) (p : P) (v w : bn) :
    (h.set p v).set p w = h.set p w := by
  simp [Heap.set]

theorem Heap.set_get_self (h : Heap P) (p : P) : h.set p (h.get p) = h := by
  apply Heap.ext_get; intro q; rw [Heap.get_set]; split <;> simp_all

end heap

theorem mag_nil : mag [] = 0 := rfl

theorem mag_cons (x : Nat) (xs : List Nat) : mag (x :: xs) = x + 2 ^ 64 * mag xs := rfl

theorem mag_append (l1 l2 : List Nat) :
    mag (l1 ++ l2) = mag l1 + 2 ^ (64 * l1.length) * mag l2 := by
  induction l1 with
  | nil => simp [mag_nil]
  | cons x xs ih =>
    simp only [List.cons_append, mag_cons, ih, List.length_cons]
    rw [show 64 * (xs.length + 1) = 64 + 64 * xs.length by ring, pow_add]
    ring

theorem mag_replicate_zero (n : Nat) : mag (List.replicate n 0) = 0 := by
  induction n with
  | zero => rfl
  | succ n ih => simp [List.replicate_succ, mag_cons, ih]

theorem mag_lt (l : List Nat) (hl : ∀ x ∈ l, x < 2 ^ 64) : mag l < 2 ^ (64 * l.length) := by
  induction l with
  | nil => simp [mag_nil]
  | cons x xs ih =>
    have h1 := hl x (by simp)
    have h2 := ih (fun y hy => hl y (by simp [hy]))
    rw [mag_cons, List.length_cons, show 64 * (xs.length + 1) = 64 + 64 * xs.length by ring,
      pow_add]
    have : 2 ^ 64 * (mag xs + 1) ≤ 2 ^ 64 * 2 ^ (64 * xs.length) :=
      Nat.mul_le_mul_left _ h2
    linarith

theorem mag_take_add_drop (l : List Nat) (n : Nat) :
    mag l = mag (l.take n) + 2 ^ (64 * (l.take n).length) * mag (l.drop n) := by
  conv_lhs => rw [← List.take_append_drop n l]
  rw [mag_append]

theorem wf_take {l : List Nat} (hl : ∀ x ∈ l, x < 2 ^ 64) (n : Nat) :
    ∀ x ∈ l.take n, x < 2 ^ 64 := fun x hx => hl x (List.mem_of_mem_take hx)

theorem wf_drop {l : List Nat} (hl : ∀ x ∈ l, x < 2 ^ 64) (n : Nat) :
    ∀ x ∈ l.drop n, x < 2 ^ 64 := fun x hx => hl x (List.mem_of_mem_drop hx)

/-- The limbs above a bound on the magnitude are zero: dropping them keeps the
magnitude. -/
theorem mag_take_of_lt (l : List Nat) (n : Nat) (h : mag l < 2 ^ (64 * n)) :
    mag (l.take n) = mag l := by
  by_cases hn : n ≤ l.length
  · have h1 := mag_take_add_drop l n
    have hlen : (l.take n).length = n := by simp [hn]
    rw [hlen] at h1
    have : mag (l.drop n) = 0 := by
      by_contra hne
      have : 1 ≤ mag (l.drop n) := Nat.one_le_iff_ne_zero.mpr hne
      have : 2 ^ (64 * n) * 1 ≤ 2 ^ (64 * n) * mag (l.drop n) := Nat.mul_le_mul_left _ this
      omega
    rw [h1, this]; simp
  · rw [List.take_of_length_le (by omega)]

theorem mag_append_zeros (l : List Nat) (n : Nat) : mag (l ++ List.replicate n 0) = mag l := by
  rw [mag_append, mag_replicate_zero]; simp

theorem getLast_eq_mag_div (l : List Nat) (x : Nat) (hl : ∀ y ∈ l, y < 2 ^ 64) :
    mag (l ++ [x]) / 2 ^ (64 * l.length) = x := by
  rw [mag_append, mag_cons, mag_nil]
  have := mag_lt l hl
  rw [Nat.add_comm, Nat.mul_zero, Nat.add_zero, Nat.mul_add_div (by positivity),
    Nat.div_eq_of_lt this]
  simp

theorem headD_drop (L : List Nat) (i : Nat) : (L.drop i).headD 0 = L.getD i 0 := by
  simp [List.headD_eq_head?_getD, List.head?_drop]

theorem limb_guard (b : bn) (i : Nat) :
    (if i < b.size then limb b i else 0) = (b.number.drop i).headD 0 := by
  rw [headD_drop]
  unfold limb bn.size
  split
  · rfl
  · rw [List.getD_eq_getElem?_getD, List.getElem?_eq_none (by omega)]; rfl

theorem take_succ_set (C : List Nat) (i v : Nat) (hi : i < C.length) :
    (C.set i v).take (i + 1) = C.take i ++ [v] := by
  rw [List.set_eq_take_append_cons_drop, if_pos hi]
  have hl : (C.take i).length = i := by simp; omega
  rw [show C.take i ++ v :: C.drop (i + 1) = (C.take i ++ [v]) ++ C.drop (i + 1) by simp]
  exact List.take_left' (by simp [hl])

section heap
variable {P : Type} [DecidableEq P]

theorem setLimb_get (h : Heap P) (c x : P) (i v : Nat) :
    (setLimb h c i v).get x =
      if x = c then { h.get c with number := (h.get c).number.set i (v % 2 ^ 64) }
      else h.get x := by
  unfold setLimb; rw [Heap.get_set]

theorem setLimb_drop (h : Heap P) (c x : P) (i v : Nat) :
    ((setLimb h c i v).get x).number.drop (i + 1) = (h.get x).number.drop (i + 1) := by
  rw [setLimb_get]
  split
  · next hx => subst hx; simp [List.drop_set_of_lt]
  · rfl

theorem setLimb_size (h : Heap P) (c x : P) (i v : Nat) :
    ((setLimb h c i v).get x).size = (h.get x).size := by
  rw [setLimb_get]
  split
  · next hx => subst hx; simp [bn.size]
  · rfl

theorem setLimb_sign (h : Heap P) (c x : P) (i v : Nat) :
    ((setLimb h c i v).get x).sign = (h.get x).sign := by
  rw [setLimb_get]
  split
  · next hx => subst hx; rfl
  · rfl

theorem setLimb_set (h : Heap P) (c : P) (i v : Nat) (w : bn) :
    (setLimb h c i v).set c w = h.set c w := by
  unfold setLimb; simp

theorem do_add_loop_eq (a b c : P) : ∀ (k i carry : Nat) (h : Heap P),
    i + k = (h.get c).size →
    bn_do_add_loop a b c k i carry h =
      h.set c { h.get c with number := ((h.get c).number.take i ++
        addLimbs k ((h.get a).number.drop i) ((h.get b).number.drop i) carry) } := by
  intro k
  induction k with
  | zero =>
    intro i carry h hi
    simp only [bn_do_add_loop, addLimbs, List.append_nil]
    rw [List.take_of_length_le (by unfold bn.size at hi; omega)]
    exact (Heap.set_get_self h c).symm
  | succ k ih =>
    intro i carry h hi
    have hlt : i < (h.get c).number.length := by unfold bn.size at hi; omega
    simp only [bn_do_add_loop]
    rw [ih _ _ _ (by rw [setLimb_size]; omega), setLimb_drop, setLimb_drop, setLimb_set,
      limb_guard, limb_guard]
    congr 1
    rw [setLimb_get, if_pos rfl]
    simp only [addLimbs, List.tail_drop]
    rw [take_succ_set _ _ _ hlt]
    simp

theorem limb_guard_int (b : bn) (i : Nat) :
    (if i < b.size then ((limb b i : Nat) : Int) else 0) =
      (((b.number.drop i).headD 0 : Nat) : Int) := by
  rw [← limb_guard]; split <;> simp

theorem do_sub_loop_eq (a b c : P) : ∀ (k i : Nat) (carry : Int) (h : Heap P),
    i + k = (h.get c).size →
    bn_do_sub_loop a b c k i carry h =
      h.set c { h.get c with number := ((h.get c).number.take i ++
        subLimbs k ((h.get a).number.drop i) ((h.get b).number.drop i) carry) } := by
  intro k
  induction k with
  | zero =>
    intro i carry h hi
    simp only [bn_do_sub_loop, subLimbs, List.append_nil]
    rw [List.take_of_length_le (by unfold bn.size at hi; omega)]
    exact (Heap.set_get_self h c).symm
  | succ k ih =>
    intro i carry h hi
    have hlt : i < (h.get c).number.length := by unfold bn.size at hi; omega
    simp only [bn_do_sub_loop]
    rw [limb_guard_int, limb_guard_int]
    simp only [subLimbs]
    split
    · rw [ih _ _ _ (by rw [setLimb_size]; omega), setLimb_drop, setLimb_drop, setLimb_set]
      congr 1
      rw [setLimb_get, if_pos rfl]
      simp only [List.tail_drop]
      rw [take_succ_set _ _ _ hlt]
      simp
    · rw [ih _ _ _ (by rw [setLimb_size]; omega), setLimb_drop, setLimb_drop, setLimb_set]
      congr 1
      rw [setLimb_get, if_pos rfl]
      simp only [List.tail_drop]
      rw [take_succ_set _ _ _ hlt]
      simp

end heap

theorem resize_size (s : bn) (d : Nat) : (bn_resize s d).size = d := by
  unfold bn_resize
  split
  · next h => exact h.symm
  · simp only [bn.size, List.length_append, List.length_take, List.length_replicate]; omega

theorem resize_sign (s : bn) (d : Nat) : (bn_resize s d).sign = s.sign := by
  unfold bn_resize; split <;> rfl

theorem resize_number (s : bn) (d : Nat) :
    (bn_resize s d).number = s.number.take d ++ List.replicate (d - s.number.length) 0 := by
  unfold bn_resize
  split
  · next h => unfold bn.size at h; subst h; simp
  · rfl

theorem resize_wf (s : bn) (d : Nat) (hs : s.wf) : (bn_resize s d).wf := by
  unfold bn.wf; rw [resize_number]
  intro x hx
  rcases List.mem_append.mp hx with h | h
  · exact hs x (List.mem_of_mem_take h)
  · rw [(List.mem_replicate.mp h).2]; positivity

theorem addLimbs_length : ∀ (k : Nat) (A B : List Nat) (c : Nat), (addLimbs k A B c).length = k := by
  intro k
  induction k with
  | zero => intros; rfl
  | succ k ih => intros; simp [addLimbs, ih]

theorem subLimbs_length : ∀ (k : Nat) (A B : List Nat) (c : Int), (subLimbs k A B c).length = k := by
  intro k
  induction k with
  | zero => intros; rfl
  | succ k ih => intros; simp only [subLimbs]; split <;> simp [ih]

theorem addLimbs_comm : ∀ (k : Nat) (A B : List Nat) (c : Nat), addLimbs k A B c = addLimbs k B A c := by
  intro k
  induction k with
  | zero => intros; rfl
  | succ k ih => intro A B c; simp only [addLimbs]; rw [ih, Nat.add_comm (A.headD 0)]

theorem pad_head (A : List Nat) (n m : Nat) (hn : 0 < n) :
    (A.take n ++ List.replicate m 0).headD 0 = A.headD 0 := by
  cases A with
  | nil => cases m <;> simp [List.replicate_succ]
  | cons a A => cases n with
    | zero => omega
    | succ n => simp

theorem pad_tail (A : List Nat) (n m : Nat) :
    (A.take (n + 1) ++ List.replicate m 0).tail = A.tail.take n ++ List.replicate (if A = [] then m - 1 else m) 0 := by
  cases A with
  | nil => cases m <;> simp [List.replicate_succ]
  | cons a A => simp

theorem addLimbs_pad : ∀ (k n m : Nat) (A B : List Nat) (c : Nat), k ≤ n →
    addLimbs k (A.take n ++ List.replicate m 0) B c = addLimbs k A B c := by
  intro k
  induction k with
  | zero => intros; rfl
  | succ k ih =>
    intro n m A B c hk
    obtain ⟨n, rfl⟩ : ∃ n', n = n' + 1 := ⟨n - 1, by omega⟩
    simp only [addLimbs]
    rw [pad_head _ _ _ (by omega), pad_tail, ih _ _ _ _ _ (by omega)]

theorem subLimbs_pad_left : ∀ (k n m : Nat) (A B : List Nat) (c : Int), k ≤ n →
    subLimbs k (A.take n ++ List.replicate m 0) B c = subLimbs k A B c := by
  intro k
  induction k with
  | zero => intros; rfl
  | succ k ih =>
    intro n m A B c hk
    obtain ⟨n, rfl⟩ : ∃ n', n = n' + 1 := ⟨n - 1, by omega⟩
    simp only [subLimbs]
    rw [pad_head _ _ _ (by omega), pad_tail, ih _ _ _ _ _ (by omega), ih _ _ _ _ _ (by omega)]

theorem subLimbs_pad_right : ∀ (k n m : Nat) (A B : List Nat) (c : Int), k ≤ n →
    subLimbs k A (B.take n ++ List.replicate m 0) c = subLimbs k A B c := by
  intro k
  induction k with
  | zero => intros; rfl
  | succ k ih =>
    intro n m A B c hk
    obtain ⟨n, rfl⟩ : ∃ n', n = n' + 1 := ⟨n - 1, by omega⟩
    simp only [subLimbs]
    rw [pad_head _ _ _ (by omega), pad_tail, ih _ _ _ _ _ (by omega), ih _ _ _ _ _ (by omega)]

theorem resize_eq (s : bn) (d : Nat) :
    bn_resize s d = ⟨s.number.take d ++ List.replicate (d - s.number.length) 0, s.sign⟩ := by
  have h1 := resize_number s d
  have h2 := resize_sign s d
  cases hr : bn_resize s d with
  | mk n sg => rw [hr] at h1 h2; simp only at h1 h2; rw [h1, h2]

theorem resize_shrink (L : List Nat) (sg : Bool) (n : Nat) (hn : n ≤ L.length) :
    bn_resize ⟨L, sg⟩ n = ⟨L.take n, sg⟩ := by
  rw [resize_eq]; simp [Nat.sub_eq_zero_of_le hn]

section heap
variable {P : Type} [DecidableEq P]

theorem addLimbs_resized (h : Heap P) (c x y : P) (d cr : Nat) :
    addLimbs d ((h.set c (bn_resize (h.get c) d)).get x).number
      ((h.set c (bn_resize (h.get c) d)).get y).number cr =
    addLimbs d (h.get x).number (h.get y).number cr := by
  have key : ∀ z B, addLimbs d ((h.set c (bn_resize (h.get c) d)).get z).number B cr =
      addLimbs d (h.get z).number B cr := by
    intro z B
    rw [Heap.get_set]
    split
    · next hz => subst hz; rw [resize_number, addLimbs_pad _ _ _ _ _ _ (le_refl _)]
    · rfl
  rw [key, addLimbs_comm, key, addLimbs_comm]

theorem bn_do_add_eq (a b c : P) (h : Heap P) :
    bn_do_add a b c h =
      h.set c { h.get c with number := do_add_res (h.get a) (h.get b) } := by
  unfold bn_do_add do_add_res
  simp only []
  rw [do_add_loop_eq _ _ _ _ _ _ _ (by simp [resize_size])]
  simp only [Heap.get_set_same, resize_size, List.take_zero, List.nil_append, List.drop_zero,
    Heap.set_set]
  rw [addLimbs_resized]
  simp only [limb, bn.size, addLimbs_length, resize_sign]
  split
  · next hc =>
    rw [resize_shrink _ _ _ (by rw [addLimbs_length]; omega)]
  · rfl

theorem subLimbs_resized (h : Heap P) (c x y : P) (d : Nat) (cr : Int) :
    subLimbs d ((h.set c (bn_resize (h.get c) d)).get x).number
      ((h.set c (bn_resize (h.get c) d)).get y).number cr =
    subLimbs d (h.get x).number (h.get y).number cr := by
  have k1 : ∀ z B, subLimbs d ((h.set c (bn_resize (h.get c) d)).get z).number B cr =
      subLimbs d (h.get z).number B cr := by
    intro z B
    rw [Heap.get_set]
    split
    · next hz => subst hz; rw [resize_number, subLimbs_pad_left _ _ _ _ _ _ (le_refl _)]
    · rfl
  have k2 : ∀ z A, subLimbs d A ((h.set c (bn_resize (h.get c) d)).get z).number cr =
      subLimbs d A (h.get z).number cr := by
    intro z A
    rw [Heap.get_set]
    split
    · next hz => subst hz; rw [resize_number, subLimbs_pad_right _ _ _ _ _ _ (le_refl _)]
    · rfl
  rw [k1, k2]

theorem bn_do_sub_eq (a b c : P) (h : Heap P) :
    bn_do_sub a b c h =
      h.set c { h.get c with number := do_sub_res (h.get a) (h.get b) } := by
  unfold bn_do_sub do_sub_res
  simp only []
  rw [do_sub_loop_eq _ _ _ _ _ _ _ (by simp [resize_size])]
  simp only [Heap.get_set_same, resize_size, List.take_zero, List.nil_append, List.drop_zero,
    Heap.set_set]
  rw [subLimbs_resized, resize_shrink _ _ _ (by simp only [bn.size]; omega)]
  simp only [bn.size, bn_clz, subLimbs_length, resize_sign]

end heap

section heap
variable {P : Type} [DecidableEq P]

theorem setSign_set (h : Heap P) (c : P) (v : bn) (s : Bool) :
    setSign (h.set c v) c s = h.set c { v with sign := s } := by
  unfold setSign; simp

theorem setLimb_set_same (h : Heap P) (c : P) (v : bn) (i x : Nat) :
    setLimb (h.set c v) c i x = h.set c { v with number := v.number.set i (x % 2 ^ 64) } := by
  unfold setLimb; simp

theorem bn_add_eq (a b c : P) (h : Heap P) :
    bn_add a b c h = h.set c (add_res (h.get a) (h.get b)) := by
  unfold bn_add add_res
  by_cases hs : (h.get a).sign = (h.get b).sign
  · simp only [hs, if_true]
    rw [bn_do_add_eq, setSign_set, Heap.get_set]
    split
    · next hac => subst hac; simp [hs]
    · simp [hs]
  · simp only [hs, if_false]
    cases hsa : (h.get a).sign
    · simp only [Bool.false_eq_true, if_false]
      split
      · rw [bn_do_sub_eq, setSign_set]
      · split
        · rw [bn_do_sub_eq, setSign_set]
        · rw [setLimb_set_same, setSign_set, resize_number]
          congr 1
          cases hn : (h.get c).number <;> simp
    · simp only [if_true]
      split
      · rw [bn_do_sub_eq, setSign_set]
      · split
        · rw [bn_do_sub_eq, setSign_set]
        · rw [setLimb_set_same, setSign_set, resize_number]
          congr 1
          cases hn : (h.get c).number <;> simp

theorem bn_sub_eq (a b c : P) (h : Heap P) :
    bn_sub a b c h = h.set c (sub_res (h.get a) (h.get b)) := by
  unfold bn_sub sub_res
  simp only []
  rw [bn_add_eq]
  apply Heap.ext_get
  intro p
  simp only [Heap.pop, Heap.push]
  rw [Heap.get_set, Heap.get_set]
  by_cases hp : p = c
  · simp [hp]
  · simp [hp]

end heap

/-- The bit length computed by `bn_msb`, on the limb list. -/
theorem bn_msb_def (b : bn) : bn_msb b = b.number.length * 64 - bn_clz_loop b.number.reverse 0 := rfl

theorem clz_loop_cnt : ∀ (l : List Nat) (cnt : Nat), bn_clz_loop l cnt = cnt + bn_clz_loop l 0 := by
  intro l
  induction l with
  | nil => intro cnt; simp [bn_clz_loop]
  | cons x xs ih =>
    intro cnt
    simp only [bn_clz_loop]
    split
    · simp
    · rw [ih (cnt + 64), ih (0 + 64)]; omega

theorem clz_snoc (l : List Nat) (x : Nat) :
    bn_clz_loop (l ++ [x]).reverse 0 =
      if x ≠ 0 then clzll x else 64 + bn_clz_loop l.reverse 0 := by
  simp only [List.reverse_append, List.reverse_cons, List.reverse_nil, List.nil_append,
    List.singleton_append, bn_clz_loop]
  split
  · simp
  · rw [clz_loop_cnt]

theorem log2_lt_64 (x : Nat) (hx : x < 2 ^ 64) (h0 : x ≠ 0) : Nat.log2 x < 64 :=
  (Nat.log2_lt h0).mpr hx

theorem clz_le (l : List Nat) : bn_clz_loop l.reverse 0 ≤ 64 * l.length := by
  induction l using List.reverseRecOn with
  | nil => simp [bn_clz_loop]
  | append_singleton l x ih =>
    rw [clz_snoc]
    split
    · simp only [clzll, List.length_append, List.length_singleton]; omega
    · simp only [List.length_append, List.length_singleton]; omega

theorem msb_spec (l : List Nat) (hl : ∀ x ∈ l, x < 2 ^ 64) :
    mag l < 2 ^ (l.length * 64 - bn_clz_loop l.reverse 0) ∧
    (l.length * 64 - bn_clz_loop l.reverse 0 ≠ 0 →
      2 ^ (l.length * 64 - bn_clz_loop l.reverse 0 - 1) ≤ mag l) := by
  induction l using List.reverseRecOn with
  | nil => simp [bn_clz_loop, mag_nil]
  | append_singleton l x ih =>
    have hx : x < 2 ^ 64 := hl x (by simp)
    have hl' : ∀ y ∈ l, y < 2 ^ 64 := fun y hy => hl y (by simp [hy])
    have ih := ih hl'
    have hm := mag_lt l hl'
    rw [clz_snoc, mag_append, mag_cons, mag_nil]
    simp only [List.length_append, List.length_singleton, Nat.mul_zero, Nat.add_zero]
    by_cases h0 : x = 0
    · subst h0
      simp only [ne_eq, not_true_eq_false, if_false, Nat.mul_zero, Nat.add_zero]
      rw [show (l.length + 1) * 64 - (64 + bn_clz_loop l.reverse 0) =
        l.length * 64 - bn_clz_loop l.reverse 0 by omega]
      exact ih
    · simp only [ne_eq, h0, not_false_eq_true, if_true, clzll]
      have hlog := log2_lt_64 x hx h0
      rw [show (l.length + 1) * 64 - (63 - Nat.log2 x) = 64 * l.length + (Nat.log2 x + 1) by omega]
      have h1 : x < 2 ^ (Nat.log2 x + 1) := Nat.lt_log2_self
      have h2 : 2 ^ Nat.log2 x ≤ x := Nat.log2_self_le h0
      constructor
      · rw [pow_add]
        have : 2 ^ (64 * l.length) * (x + 1) ≤ 2 ^ (64 * l.length) * 2 ^ (Nat.log2 x + 1) :=
          Nat.mul_le_mul_left _ h1
        linarith
      · intro _
        rw [show 64 * l.length + (Nat.log2 x + 1) - 1 = 64 * l.length + Nat.log2 x by omega,
          pow_add]
        have : 2 ^ (64 * l.length) * 2 ^ Nat.log2 x ≤ 2 ^ (64 * l.length) * x :=
          Nat.mul_le_mul_left _ h2
        linarith

theorem msb_lt (b : bn) (hb : b.wf) : mag b.number < 2 ^ bn_msb b :=
  (msb_spec b.number hb).1

theorem msb_le (b : bn) (hb : b.wf) (h0 : bn_msb b ≠ 0) : 2 ^ (bn_msb b - 1) ≤ mag b.number :=
  (msb_spec b.number hb).2 h0

theorem msb_le_size (b : bn) : bn_msb b ≤ 64 * b.size := by
  rw [bn_msb_def]; unfold bn.size; omega

theorem msb_eq_zero (b : bn) (hb : b.wf) : bn_msb b = 0 ↔ mag b.number = 0 := by
  constructor
  · intro h; have := msb_lt b hb; rw [h] at this; omega
  · intro h; by_contra h0; have := msb_le b hb h0
    have : 0 < 2 ^ (bn_msb b - 1) := by positivity
    omega

/-- A bound on the magnitude bounds the bit length. -/
theorem msb_le_of_lt (b : bn) (hb : b.wf) (n : Nat) (h : mag b.number < 2 ^ n) : bn_msb b ≤ n := by
  by_contra hc
  have h0 : bn_msb b ≠ 0 := by omega
  have h1 := msb_le b hb h0
  have : 2 ^ n ≤ 2 ^ (bn_msb b - 1) := Nat.pow_le_pow_right (by norm_num) (by omega)
  omega

theorem limbs_for_spec (d : Nat) : 1 ≤ limbs_for d ∧ d ≤ 64 * limbs_for d ∧
    (d ≠ 0 → 64 * (limbs_for d - 1) < d) := by
  unfold limbs_for
  split <;> omega

theorem mag_take_succ (A : List Nat) (k : Nat) :
    mag (A.take (k + 1)) = A.headD 0 + 2 ^ 64 * mag (A.tail.take k) := by
  cases A with
  | nil => simp [mag_nil]
  | cons a A => simp [mag_cons]

theorem addLimbs_mag : ∀ (k : Nat) (A B : List Nat) (c : Nat),
    mag (addLimbs k A B c) = (c + mag (A.take k) + mag (B.take k)) % 2 ^ (64 * k) := by
  intro k
  induction k with
  | zero => intro A B c; simp [addLimbs, mag_nil, Nat.mod_one]
  | succ k ih =>
    intro A B c
    simp only [addLimbs, mag_cons, ih, mag_take_succ]
    rw [show 64 * (k + 1) = 64 + 64 * k by ring, pow_add, Nat.mod_mul]
    have e : c + (A.headD 0 + 2 ^ 64 * mag (A.tail.take k)) +
        (B.headD 0 + 2 ^ 64 * mag (B.tail.take k)) =
        (c + (A.headD 0 + B.headD 0)) + 2 ^ 64 * (mag (A.tail.take k) + mag (B.tail.take k)) := by
      ring
    rw [e, Nat.add_mul_mod_self_left, Nat.add_mul_div_left _ _ (by positivity)]
    congr 3
    ring

theorem addLimbs_wf : ∀ (k : Nat) (A B : List Nat) (c : Nat), ∀ x ∈ addLimbs k A B c, x < 2 ^ 64 := by
  intro k
  induction k with
  | zero => intro A B c x hx; simp [addLimbs] at hx
  | succ k ih =>
    intro A B c x hx
    simp only [addLimbs, List.mem_cons] at hx
    rcases hx with h | h
    · rw [h]; exact Nat.mod_lt _ (by positivity)
    · exact ih _ _ _ x h

/-- A list of `n + 1` limbs is its first `n` limbs and its top limb. -/
theorem list_split_last (L : List Nat) (d : Nat) (hd : L.length = d) (h1 : 1 ≤ d) :
    L = L.take (d - 1) ++ [L.getD (d - 1) 0] := by
  have hlt : d - 1 < L.length := by omega
  conv_lhs => rw [← List.take_append_drop (d - 1) L]
  congr 1
  rw [List.drop_eq_getElem_cons hlt, List.drop_of_length_le (by omega)]
  simp [List.getD_eq_getElem?_getD, List.getElem?_eq_getElem hlt]

/-- For 64-bit limbs, the top limb is non-zero exactly when the magnitude
reaches the weight of the top limb. -/
theorem top_ne_zero_iff (l : List Nat) (x : Nat) (hl : ∀ y ∈ l, y < 2 ^ 64) :
    x ≠ 0 ↔ 2 ^ (64 * l.length) ≤ mag (l ++ [x]) := by
  rw [mag_append, mag_cons, mag_nil]
  have hm := mag_lt l hl
  constructor
  · intro hx
    have : 1 ≤ x := Nat.one_le_iff_ne_zero.mpr hx
    have : 2 ^ (64 * l.length) * 1 ≤ 2 ^ (64 * l.length) * x := Nat.mul_le_mul_left _ this
    simp only [Nat.mul_zero, Nat.add_zero]
    omega
  · intro h hx
    subst hx
    simp at h
    omega

theorem trimmed_iff_getLast (L : List Nat) (hl : ∀ y ∈ L, y < 2 ^ 64) (h1 : 1 ≤ L.length) :
    trimmed L ↔ (L.length = 1 ∨ L.getLast? ≠ some 0) := by
  have hs := list_split_last L L.length rfl h1
  have hlast : L.getLast? = some (L.getD (L.length - 1) 0) := by
    conv_lhs => rw [hs]
    simp
  have hw : ∀ y ∈ L.take (L.length - 1), y < 2 ^ 64 := wf_take hl _
  have key := top_ne_zero_iff (L.take (L.length - 1)) (L.getD (L.length - 1) 0) hw
  rw [← hs] at key
  have hlen : (L.take (L.length - 1)).length = L.length - 1 := by simp
  rw [hlen] at key
  unfold trimmed
  rw [hlast]
  constructor
  · rintro (h | ⟨_, h⟩)
    · exact Or.inl h
    · right; intro hc; exact (key.mpr h) (by simpa using hc)
  · rintro (h | h)
    · exact Or.inl h
    · right; refine ⟨h1, key.mp ?_⟩; intro hc; exact h (by rw [hc])

theorem do_add_res_spec (a b : bn) (ha : a.wf) (hb : b.wf) :
    mag (do_add_res a b) = mag a.number + mag b.number ∧
    (∀ x ∈ do_add_res a b, x < 2 ^ 64) ∧ trimmed (do_add_res a b) ∧
    1 ≤ (do_add_res a b).length := by
  have hma := msb_lt a ha
  have hmb := msb_lt b hb
  obtain ⟨hd1, hd2, hd3⟩ := limbs_for_spec (max (bn_msb a) (bn_msb b) + 1)
  set d := limbs_for (max (bn_msb a) (bn_msb b) + 1) with hd
  have hpa : mag a.number < 2 ^ (max (bn_msb a) (bn_msb b)) :=
    lt_of_lt_of_le hma (Nat.pow_le_pow_right (by norm_num) (le_max_left _ _))
  have hpb : mag b.number < 2 ^ (max (bn_msb a) (bn_msb b)) :=
    lt_of_lt_of_le hmb (Nat.pow_le_pow_right (by norm_num) (le_max_right _ _))
  have hsum : mag a.number + mag b.number < 2 ^ (64 * d) := by
    have : 2 ^ (max (bn_msb a) (bn_msb b) + 1) ≤ 2 ^ (64 * d) :=
      Nat.pow_le_pow_right (by norm_num) hd2
    rw [pow_succ] at this
    omega
  have hL : mag (addLimbs d a.number b.number 0) = mag a.number + mag b.number := by
    rw [addLimbs_mag, mag_take_of_lt _ _ (by omega), mag_take_of_lt _ _ (by omega),
      Nat.zero_add, Nat.mod_eq_of_lt hsum]
  have hwf := addLimbs_wf d a.number b.number 0
  have hlen := addLimbs_length d a.number b.number 0
  have hsplit := list_split_last _ d hlen hd1
  unfold do_add_res
  simp only [← hd]
  split
  · next hc =>
    obtain ⟨htop, hgt⟩ := hc
    have hmag : mag ((addLimbs d a.number b.number 0).take (d - 1)) =
        mag a.number + mag b.number := by
      rw [← hL]; conv_rhs => rw [hsplit, htop]
      rw [mag_append, mag_cons, mag_nil]; simp
    refine ⟨hmag, wf_take hwf _, ?_, by simp [hlen]; omega⟩
    unfold trimmed
    simp only [List.length_take, hlen, hmag]
    by_cases h2 : d = 2
    · left; omega
    · right
      refine ⟨by omega, ?_⟩
      have hmax : 64 * (d - 1) ≤ max (bn_msb a) (bn_msb b) := by
        have := hd3 (by omega); omega
      rw [show min (d - 1) d - 1 = d - 2 by omega]
      rcases le_total (bn_msb a) (bn_msb b) with hab | hab
      · rw [max_eq_right hab] at hmax
        have := msb_le b hb (by omega)
        have : 2 ^ (64 * (d - 2)) ≤ 2 ^ (bn_msb b - 1) :=
          Nat.pow_le_pow_right (by norm_num) (by omega)
        omega
      · rw [max_eq_left hab] at hmax
        have := msb_le a ha (by omega)
        have : 2 ^ (64 * (d - 2)) ≤ 2 ^ (bn_msb a - 1) :=
          Nat.pow_le_pow_right (by norm_num) (by omega)
        omega
  · next hc =>
    refine ⟨hL, hwf, ?_, by omega⟩
    unfold trimmed
    rw [hlen]
    by_cases h1 : d = 1
    · left; exact h1
    · right
      refine ⟨hd1, ?_⟩
      have hne : (addLimbs d a.number b.number 0).getD (d - 1) 0 ≠ 0 := by
        intro h0; exact hc ⟨h0, by omega⟩
      have := (top_ne_zero_iff _ _ (wf_take hwf (d - 1))).mp hne
      rw [← hsplit] at this
      simpa [hlen] using this

theorem headD_lt (A : List Nat) (hA : ∀ x ∈ A, x < 2 ^ 64) : A.headD 0 < 2 ^ 64 := by
  cases A with
  | nil => simp
  | cons a A => simpa using hA a (by simp)

theorem wf_tail {A : List Nat} (hA : ∀ x ∈ A, x < 2 ^ 64) : ∀ x ∈ A.tail, x < 2 ^ 64 :=
  fun x hx => hA x (List.mem_of_mem_tail hx)

theorem subLimbs_wf : ∀ (k : Nat) (A B : List Nat) (c : Int), ∀ x ∈ subLimbs k A B c, x < 2 ^ 64 := by
  intro k
  induction k with
  | zero => intro A B c x hx; simp [subLimbs] at hx
  | succ k ih =>
    intro A B c x hx
    simp only [subLimbs] at hx
    split at hx
    · simp only [List.mem_cons] at hx
      rcases hx with h | h
      · rw [h]; exact Nat.mod_lt _ (by positivity)
      · exact ih _ _ _ x h
    · simp only [List.mem_cons] at hx
      rcases hx with h | h
      · rw [h]; exact Nat.mod_lt _ (by positivity)
      · exact ih _ _ _ x h

theorem subLimbs_mag : ∀ (k : Nat) (A B : List Nat) (c : Int),
    (∀ x ∈ A, x < 2 ^ 64) → (∀ x ∈ B, x < 2 ^ 64) → (c = 0 ∨ c = 1) →
    ∃ bout : Int, (bout = 0 ∨ bout = 1) ∧
      (mag (subLimbs k A B c) : Int) =
        (mag (A.take k) : Int) - (mag (B.take k) : Int) - c + 2 ^ (64 * k) * bout := by
  intro k
  induction k with
  | zero => intro A B c _ _ hc; exact ⟨c, hc, by simp [subLimbs, mag_nil]⟩
  | succ k ih =>
    intro A B c hA hB hc
    have ha := headD_lt A hA
    have hb := headD_lt B hB
    simp only [subLimbs]
    rw [mag_take_succ, mag_take_succ]
    have hpow : (2 : Int) ^ (64 * (k + 1)) = 2 ^ 64 * 2 ^ (64 * k) := by
      rw [show 64 * (k + 1) = 64 + 64 * k by ring, pow_add]
    have ha' : A.headD 0 < 18446744073709551616 := ha
    have hb' : B.headD 0 < 18446744073709551616 := hb
    split
    · next hneg =>
      obtain ⟨bout, hbo, hm⟩ := ih A.tail B.tail 1 (wf_tail hA) (wf_tail hB) (Or.inr rfl)
      refine ⟨bout, hbo, ?_⟩
      rw [mag_cons]
      push_cast
      rw [hm, hpow]
      have e : (((((A.headD 0 : Nat) : Int) - ((B.headD 0 : Nat) : Int) - c + 18446744073709551616).toNat : Nat) : Int) % 18446744073709551616 =
          ((A.headD 0 : Nat) : Int) - ((B.headD 0 : Nat) : Int) - c + 18446744073709551616 := by
        rcases hc with rfl | rfl <;> omega
      linear_combination e
    · next hneg =>
      obtain ⟨bout, hbo, hm⟩ := ih A.tail B.tail 0 (wf_tail hA) (wf_tail hB) (Or.inl rfl)
      refine ⟨bout, hbo, ?_⟩
      rw [mag_cons]
      push_cast
      rw [hm, hpow]
      have e : (((((A.headD 0 : Nat) : Int) - ((B.headD 0 : Nat) : Int) - c).toNat : Nat) : Int) % 18446744073709551616 =
          ((A.headD 0 : Nat) : Int) - ((B.headD 0 : Nat) : Int) - c := by
        rcases hc with rfl | rfl <;> omega
      linear_combination e

theorem do_sub_res_spec (a b : bn) (ha : a.wf) (hb : b.wf) (hle : mag b.number ≤ mag a.number)
    (hsz : 1 ≤ a.size ∨ 1 ≤ b.size) :
    mag (do_sub_res a b) + mag b.number = mag a.number ∧
    (∀ x ∈ do_sub_res a b, x < 2 ^ 64) ∧ trimmed (do_sub_res a b) ∧
    1 ≤ (do_sub_res a b).length := by
  set d := max a.size b.size with hd
  have hda : a.number.length ≤ d := le_max_left _ _
  have hdb : b.number.length ≤ d := le_max_right _ _
  have hd1 : 1 ≤ d := by rcases hsz with h | h <;> omega
  set L := subLimbs d a.number b.number 0 with hLdef
  have hwf : ∀ x ∈ L, x < 2 ^ 64 := subLimbs_wf _ _ _ _
  have hlen : L.length = d := subLimbs_length _ _ _ _
  have hLlt := mag_lt L hwf
  rw [hlen] at hLlt
  have hL : mag L + mag b.number = mag a.number := by
    obtain ⟨bout, hbo, hm⟩ := subLimbs_mag d a.number b.number 0 ha hb (Or.inl rfl)
    rw [List.take_of_length_le hda, List.take_of_length_le hdb, ← hLdef] at hm
    have hp : (0 : Int) < 2 ^ (64 * d) := by positivity
    have hLlt' : (mag L : Int) < 2 ^ (64 * d) := by exact_mod_cast hLlt
    rcases hbo with rfl | rfl
    · simp at hm; omega
    · exfalso
      have : (mag b.number : Int) ≤ mag a.number := by exact_mod_cast hle
      simp at hm; omega
  have hmsb := msb_spec L hwf
  have hclz := clz_le L
  rw [hlen] at hmsb hclz
  set z := bn_clz_loop L.reverse 0 / 64 with hz
  have hz1 : 64 * z ≤ bn_clz_loop L.reverse 0 := by omega
  have hz2 : bn_clz_loop L.reverse 0 < 64 * (z + 1) := by omega
  have hzd : z ≤ d := by omega
  have hres : do_sub_res a b = L.take (d - (if z = d then z - 1 else z)) := rfl
  rw [hres]
  have hbound : ∀ z', z' ≤ z → mag L < 2 ^ (64 * (d - z')) := by
    intro z' hz'
    refine lt_of_lt_of_le hmsb.1 (Nat.pow_le_pow_right (by norm_num) ?_)
    omega
  split
  · next hzeq =>
    have hm := mag_take_of_lt L _ (hbound (z - 1) (by omega))
    refine ⟨by rw [hm]; exact hL, wf_take hwf _, Or.inl ?_, ?_⟩ <;>
      simp only [List.length_take, hlen] <;> omega
  · next hzne =>
    have hm := mag_take_of_lt L _ (hbound z (le_refl _))
    refine ⟨by rw [hm]; exact hL, wf_take hwf _, Or.inr ⟨?_, ?_⟩, ?_⟩
    · simp only [List.length_take, hlen]; omega
    · rw [hm]
      simp only [List.length_take, hlen]
      have h1 := hmsb.2 (by omega)
      refine le_trans (Nat.pow_le_pow_right (by norm_num) ?_) h1
      omega
    · simp only [List.length_take, hlen]; omega

theorem bn_cmp_loop_spec : ∀ (A B : List Nat), A.length = B.length →
    (∀ x ∈ A, x < 2 ^ 64) → (∀ x ∈ B, x < 2 ^ 64) →
    bn_cmp_loop A.reverse B.reverse =
      if mag A > mag B then 1 else if mag A < mag B then -1 else 0 := by
  intro A
  induction A using List.reverseRecOn with
  | nil =>
    intro B hlen _ _
    have : B = [] := List.length_eq_zero.mp hlen.symm
    subst this
    simp [bn_cmp_loop]
  | append_singleton A x ih =>
    intro B hlen hA hB
    rcases List.eq_nil_or_concat B with rfl | ⟨B', y, rfl⟩
    · simp at hlen
    · rw [List.concat_eq_append] at hlen hB ⊢
      have hlen' : A.length = B'.length := by simpa using hlen
      have hA' : ∀ z ∈ A, z < 2 ^ 64 := fun z hz => hA z (by simp [hz])
      have hB' : ∀ z ∈ B', z < 2 ^ 64 := fun z hz => hB z (by simp [hz])
      have hmA := mag_lt A hA'
      have hmB := mag_lt B' hB'
      rw [← hlen'] at hmB
      simp only [List.reverse_append, List.reverse_cons, List.reverse_nil, List.nil_append,
        List.singleton_append, bn_cmp_loop, mag_append, mag_cons, mag_nil, Nat.mul_zero,
        Nat.add_zero, ← hlen']
      rw [ih B' hlen' hA' hB']
      set p := 2 ^ (64 * A.length) with hp
      by_cases hxy : x > y
      · have : p * (y + 1) ≤ p * x := Nat.mul_le_mul_left _ hxy
        have h1 : mag A + p * x > mag B' + p * y := by linarith
        simp [hxy, h1]
      · by_cases hyx : x < y
        · have : p * (x + 1) ≤ p * y := Nat.mul_le_mul_left _ hyx
          have h1 : mag A + p * x < mag B' + p * y := by linarith
          have h2 : ¬ (mag A + p * x > mag B' + p * y) := by omega
          simp [hxy, hyx, h1, h2]
        · have : x = y := by omega
          subst this
          simp

theorem bn_cmp_eq_size (a b : bn) (ha : a.wf) (hb : b.wf) (hs : a.size = b.size) :
    bn_cmp a b = if mag a.number > mag b.number then 1
      else if mag a.number < mag b.number then -1 else 0 := by
  unfold bn_cmp
  rw [if_neg (by omega), if_neg (by omega)]
  exact bn_cmp_loop_spec _ _ hs ha hb

theorem bn_cmp_size_gt (a b : bn) (hs : a.size > b.size) : bn_cmp a b = 1 := by
  unfold bn_cmp; rw [if_pos hs]

theorem bn_cmp_size_lt (a b : bn) (hs : a.size < b.size) : bn_cmp a b = -1 := by
  unfold bn_cmp; rw [if_neg (by omega), if_pos hs]

/-- A trimmed number with more limbs has the larger magnitude. -/
theorem mag_lt_of_size_lt (a b : bn) (ha : a.wf) (hb : trimmed b.number) (ha1 : 1 ≤ a.size)
    (hs : a.size < b.size) : mag a.number < mag b.number := by
  have h1 := mag_lt a.number ha
  rcases hb with h | ⟨_, h⟩
  · unfold bn.size at hs ha1; omega
  · refine lt_of_lt_of_le h1 (le_trans (Nat.pow_le_pow_right (by norm_num) ?_) h)
    unfold bn.size at hs; omega

theorem bn_cmp_trimmed (a b : bn) (ha : a.wf) (hb : b.wf) (hta : trimmed a.number)
    (htb : trimmed b.number) (ha1 : 1 ≤ a.size) (hb1 : 1 ≤ b.size) :
    bn_cmp a b = if mag a.number > mag b.number then 1
      else if mag a.number < mag b.number then -1 else 0 := by
  rcases Nat.lt_trichotomy a.size b.size with h | h | h
  · have := mag_lt_of_size_lt a b ha htb ha1 h
    rw [bn_cmp_size_lt _ _ h, if_neg (by omega), if_pos this]
  · exact bn_cmp_eq_size a b ha hb h
  · have := mag_lt_of_size_lt b a hb hta hb1 h
    rw [bn_cmp_size_gt _ _ h, if_pos this]

theorem canonical_trimmed (a : bn) (ha : a.canonical) : trimmed a.number :=
  (trimmed_iff_getLast a.number ha.1 ha.2.1).mpr ha.2.2.1

theorem canonical_of (L : List Nat) (s : Bool) (hwf : ∀ x ∈ L, x < 2 ^ 64) (h1 : 1 ≤ L.length)
    (ht : trimmed L) (hs : mag L = 0 → s = false) : bn.canonical ⟨L, s⟩ :=
  ⟨hwf, h1, (trimmed_iff_getLast L hwf h1).mp ht, hs⟩

theorem add_mixed_spec (p m : bn) (hp : p.wf) (hm : m.wf) (htp : trimmed p.number)
    (htm : trimmed m.number) (hp1 : 1 ≤ p.size) (hm1 : 1 ≤ m.size) :
    (add_mixed p m).value = (mag p.number : Int) - (mag m.number : Int) ∧
    (add_mixed p m).canonical := by
  have hc := bn_cmp_trimmed p m hp hm htp htm hp1 hm1
  unfold add_mixed
  rcases Nat.lt_trichotomy (mag p.number) (mag m.number) with h | h | h
  · rw [if_neg (by omega), if_pos h] at hc
    rw [hc, if_neg (by norm_num), if_pos (by norm_num)]
    obtain ⟨h1, h2, h3, h4⟩ := do_sub_res_spec m p hm hp (le_of_lt h) (Or.inl hm1)
    refine ⟨?_, canonical_of _ _ h2 h4 h3 (fun h0 => by omega)⟩
    simp only [bn.value, if_true]
    omega
  · rw [if_neg (by omega), if_neg (by omega)] at hc
    rw [hc, if_neg (by norm_num), if_neg (by norm_num)]
    refine ⟨?_, canonical_of _ _ (by simp) (by simp) (Or.inl rfl) (fun _ => rfl)⟩
    simp [bn.value, mag_cons, mag_nil, h]
  · rw [if_pos h] at hc
    rw [hc, if_pos (by norm_num)]
    obtain ⟨h1, h2, h3, h4⟩ := do_sub_res_spec p m hp hm (le_of_lt h) (Or.inl hp1)
    refine ⟨?_, canonical_of _ _ h2 h4 h3 (fun _ => rfl)⟩
    simp only [bn.value, Bool.false_eq_true, if_false]
    omega

theorem add_res_spec_gen (a b : bn) (hwa : a.wf) (hwb : b.wf) (hta : trimmed a.number)
    (htb : trimmed b.number) (ha1 : 1 ≤ a.size) (hb1 : 1 ≤ b.size) :
    (add_res a b).value = a.value + b.value ∧
    ((mag a.number = 0 → a.sign = false) → (add_res a b).canonical) := by
  unfold add_res
  by_cases hs : a.sign = b.sign
  · rw [if_pos hs]
    obtain ⟨h1, h2, h3, h4⟩ := do_add_res_spec a b hwa hwb
    refine ⟨?_, fun hza => canonical_of _ _ h2 h4 h3 (fun h0 => hza (by omega))⟩
    simp only [bn.value, ← hs, h1]
    split <;> push_cast <;> ring
  · rw [if_neg hs]
    cases hsa : a.sign
    · have hsb : b.sign = true := by
        cases hb' : b.sign
        · exact absurd (hsa.trans hb'.symm) hs
        · rfl
      simp only [Bool.false_eq_true, if_false]
      have := add_mixed_spec a b hwa hwb hta htb ha1 hb1
      unfold add_mixed at this
      refine ⟨?_, fun _ => this.2⟩
      rw [this.1]
      simp [bn.value, hsa, hsb]
      ring
    · have hsb : b.sign = false := by
        cases hb' : b.sign
        · rfl
        · exact absurd (hsa.trans hb'.symm) hs
      simp only [if_true]
      have := add_mixed_spec b a hwb hwa htb hta hb1 ha1
      unfold add_mixed at this
      refine ⟨?_, fun _ => this.2⟩
      rw [this.1]
      simp [bn.value, hsa, hsb]
      ring

theorem add_res_spec (a b : bn) (ha : a.canonical) (hb : b.canonical) :
    (add_res a b).value = a.value + b.value ∧ (add_res a b).canonical := by
  have h := add_res_spec_gen a b ha.1 hb.1 (canonical_trimmed a ha) (canonical_trimmed b hb)
    ha.2.1 hb.2.1
  exact ⟨h.1, h.2 ha.2.2.2⟩

theorem value_neg (b : bn) : bn.value { b with sign := xor b.sign true } = - b.value := by
  unfold bn.value
  cases b.sign <;> simp

theorem sub_res_spec (a b : bn) (ha : a.canonical) (hb : b.canonical) :
    (sub_res a b).value = a.value - b.value ∧ (sub_res a b).canonical := by
  have h := add_res_spec_gen a { b with sign := xor b.sign true } ha.1 hb.1
    (canonical_trimmed a ha) (canonical_trimmed b hb) ha.2.1 hb.2.1
  unfold sub_res
  refine ⟨?_, h.2 ha.2.2.2⟩
  rw [h.1, value_neg]
  ring

theorem maddLimbs_length : ∀ (L : List Nat) (carry x : Nat), (maddLimbs L carry x).length = L.length := by
  intro L
  induction L with
  | nil => intros; rfl
  | cons c rest ih =>
    intro carry x
    simp only [maddLimbs, List.length_cons]
    split <;> simp [ih]

theorem maddLimbs_wf : ∀ (L : List Nat) (carry x : Nat), (∀ y ∈ L, y < 2 ^ 64) →
    ∀ y ∈ maddLimbs L carry x, y < 2 ^ 64 := by
  intro L
  induction L with
  | nil => intro carry x _ y hy; simp [maddLimbs] at hy
  | cons c rest ih =>
    intro carry x hL y hy
    have hrest : ∀ y ∈ rest, y < 2 ^ 64 := fun y hy => hL y (by simp [hy])
    simp only [maddLimbs, List.mem_cons] at hy
    rcases hy with h | h
    · rw [h]; exact Nat.mod_lt _ (by positivity)
    · split at h
      · exact hrest y h
      · exact ih _ _ hrest y h

theorem maddLimbs_mag : ∀ (L : List Nat) (carry x : Nat), (∀ y ∈ L, y < 2 ^ 64) →
    mag (maddLimbs L carry x) = (mag L + carry + x) % 2 ^ (64 * L.length) := by
  intro L
  induction L with
  | nil => intro carry x _; simp [maddLimbs, mag_nil, Nat.mod_one]
  | cons c rest ih =>
    intro carry x hL
    have hrest : ∀ y ∈ rest, y < 2 ^ 64 := fun y hy => hL y (by simp [hy])
    have hx : x = x % 2 ^ 64 + 2 ^ 64 * (x / 2 ^ 64) := (Nat.mod_add_div x _).symm
    have hpow : 2 ^ (64 * (rest.length + 1)) = 2 ^ 64 * 2 ^ (64 * rest.length) := by
      rw [show 64 * (rest.length + 1) = 64 + 64 * rest.length by ring, pow_add]
    have e : mag (c :: rest) + carry + x =
        (carry + (c + x % 2 ^ 64)) + 2 ^ 64 * (mag rest + x / 2 ^ 64) := by
      rw [mag_cons]; conv_lhs => rw [hx]
      ring
    rw [e, List.length_cons, hpow, Nat.mod_mul, Nat.add_mul_mod_self_left,
      Nat.add_mul_div_left _ _ (by positivity)]
    simp only [maddLimbs]
    rw [mag_cons]
    refine congrArg (fun t => (carry + (c + x % 2 ^ 64)) % 2 ^ 64 + 2 ^ 64 * t) ?_
    split
    · next hc =>
      obtain ⟨h1, h2⟩ := hc
      rw [h1, h2, Nat.zero_add, Nat.add_zero, Nat.mod_eq_of_lt (mag_lt rest hrest)]
    · rw [ih _ _ hrest]
      exact congrArg (fun t => t % 2 ^ (64 * rest.length)) (by ring)

theorem maddAt_length (L : List Nat) (off x : Nat) : (maddAt L off x).length = L.length := by
  unfold maddAt
  rw [List.length_append, maddLimbs_length, ← List.length_append, List.take_append_drop]

theorem maddAt_wf (L : List Nat) (off x : Nat) (hL : ∀ y ∈ L, y < 2 ^ 64) :
    ∀ y ∈ maddAt L off x, y < 2 ^ 64 := by
  unfold maddAt
  intro y hy
  rcases List.mem_append.mp hy with h | h
  · exact wf_take hL _ y h
  · exact maddLimbs_wf _ _ _ (wf_drop hL _) y h

theorem maddAt_mag (L : List Nat) (off x : Nat) (hL : ∀ y ∈ L, y < 2 ^ 64) :
    mag (maddAt L off x) = (mag L + 2 ^ (64 * off) * x) % 2 ^ (64 * L.length) := by
  unfold maddAt
  by_cases ho : off ≤ L.length
  · have hlt : (L.take off).length = off := by simp [ho]
    have hld : (L.drop off).length = L.length - off := by simp
    have hsplit := mag_take_add_drop L off
    rw [hlt] at hsplit
    have hmt := mag_lt _ (wf_take hL off)
    rw [hlt] at hmt
    rw [mag_append, maddLimbs_mag _ _ _ (wf_drop hL _), hlt, hld, hsplit]
    have hpow : 2 ^ (64 * L.length) = 2 ^ (64 * off) * 2 ^ (64 * (L.length - off)) := by
      rw [← pow_add]; congr 1; omega
    rw [hpow, Nat.mod_mul,
      show mag (L.take off) + 2 ^ (64 * off) * mag (L.drop off) + 2 ^ (64 * off) * x =
        mag (L.take off) + 2 ^ (64 * off) * (mag (L.drop off) + x) by ring,
      Nat.add_mul_mod_self_left, Nat.add_mul_div_left _ _ (by positivity),
      Nat.mod_eq_of_lt hmt, Nat.div_eq_of_lt hmt]
    simp
  · have hpow : 2 ^ (64 * off) = 2 ^ (64 * L.length) * 2 ^ (64 * (off - L.length)) := by
      rw [← pow_add]; congr 1; omega
    rw [List.take_of_length_le (by omega), List.drop_of_length_le (by omega)]
    simp only [maddLimbs, List.append_nil]
    rw [hpow, Nat.mul_assoc, Nat.add_mul_mod_self_left, Nat.mod_eq_of_lt (mag_lt L hL)]

theorem multInner_spec (ai i : Nat) : ∀ (B : List Nat) (j : Nat) (C : List Nat),
    (∀ y ∈ C, y < 2 ^ 64) →
    (multInner ai i B j C).length = C.length ∧ (∀ y ∈ multInner ai i B j C, y < 2 ^ 64) ∧
    mag (multInner ai i B j C) =
      (mag C + 2 ^ (64 * (i + j)) * (ai * mag B)) % 2 ^ (64 * C.length) := by
  intro B
  induction B with
  | nil =>
    intro j C hC
    simp only [multInner, mag_nil, Nat.mul_zero, Nat.add_zero]
    exact ⟨trivial, hC, (Nat.mod_eq_of_lt (mag_lt C hC)).symm⟩
  | cons b rest ih =>
    intro j C hC
    simp only [multInner]
    obtain ⟨h1, h2, h3⟩ := ih (j + 1) (maddAt C (i + j) (ai * b)) (maddAt_wf _ _ _ hC)
    rw [maddAt_length] at h1 h3
    refine ⟨h1, h2, ?_⟩
    rw [h3, maddAt_mag _ _ _ hC, Nat.mod_add_mod, mag_cons]
    congr 1
    rw [show 64 * (i + (j + 1)) = 64 * (i + j) + 64 by ring, pow_add]
    ring

theorem multOuter_spec : ∀ (A : List Nat) (i : Nat) (B C : List Nat),
    (∀ y ∈ C, y < 2 ^ 64) →
    (multOuter A i B C).length = C.length ∧ (∀ y ∈ multOuter A i B C, y < 2 ^ 64) ∧
    mag (multOuter A i B C) =
      (mag C + 2 ^ (64 * i) * (mag A * mag B)) % 2 ^ (64 * C.length) := by
  intro A
  induction A with
  | nil =>
    intro i B C hC
    simp only [multOuter, mag_nil, Nat.zero_mul, Nat.mul_zero, Nat.add_zero]
    exact ⟨trivial, hC, (Nat.mod_eq_of_lt (mag_lt C hC)).symm⟩
  | cons a rest ih =>
    intro i B C hC
    simp only [multOuter]
    obtain ⟨g1, g2, g3⟩ := multInner_spec a i B 0 C hC
    obtain ⟨h1, h2, h3⟩ := ih (i + 1) B (multInner a i B 0 C) g2
    rw [g1] at h1 h3
    refine ⟨h1, h2, ?_⟩
    rw [h3, g3, Nat.mod_add_mod, mag_cons]
    congr 1
    rw [show 64 * (i + 1) = 64 * i + 64 by ring, pow_add, Nat.add_zero]
    ring

theorem mult_res_spec (a b : bn) (ha : a.wf) (hb : b.wf) :
    mag (mult_res a b).number = mag a.number * mag b.number ∧ (mult_res a b).wf ∧
    (mult_res a b).size = limbs_for (bn_msb a + bn_msb b) ∧
    (mult_res a b).sign = xor a.sign b.sign := by
  have hC : ∀ y ∈ List.replicate (limbs_for (bn_msb a + bn_msb b)) 0, y < 2 ^ 64 := by
    intro y hy; rw [(List.mem_replicate.mp hy).2]; positivity
  obtain ⟨h1, h2, h3⟩ := multOuter_spec a.number 0 b.number _ hC
  obtain ⟨hd1, hd2, hd3⟩ := limbs_for_spec (bn_msb a + bn_msb b)
  rw [List.length_replicate] at h1 h3
  refine ⟨?_, h2, h1, rfl⟩
  unfold mult_res
  simp only []
  rw [h3, mag_replicate_zero]
  simp only [Nat.mul_zero, pow_zero, Nat.one_mul, Nat.zero_add]
  apply Nat.mod_eq_of_lt
  have h4 := msb_lt a ha
  have h5 := msb_lt b hb
  calc mag a.number * mag b.number < 2 ^ bn_msb a * 2 ^ bn_msb b :=
        Nat.mul_lt_mul'' h4 h5
    _ = 2 ^ (bn_msb a + bn_msb b) := (pow_add _ _ _).symm
    _ ≤ _ := Nat.pow_le_pow_right (by norm_num) hd2

theorem getD_eq_head_drop (L : List Nat) (i : Nat) (hi : i < L.length) :
    L.drop i = L.getD i 0 :: L.drop (i + 1) := by
  rw [List.drop_eq_getElem_cons hi]
  simp [List.getD_eq_getElem?_getD, List.getElem?_eq_getElem hi]

theorem bn_mult_add_loop_eq : ∀ (k i carry x : Nat) (c : bn), i + k = c.size →
    bn_mult_add_loop k i carry x c =
      { c with number := c.number.take i ++ maddLimbs (c.number.drop i) carry x } := by
  intro k
  induction k with
  | zero =>
    intro i carry x c hi
    unfold bn.size at hi
    simp only [bn_mult_add_loop]
    rw [List.take_of_length_le (by omega), List.drop_of_length_le (by omega)]
    simp [maddLimbs]
  | succ k ih =>
    intro i carry x c hi
    unfold bn.size at hi
    have hlt : i < c.number.length := by omega
    simp only [bn_mult_add_loop]
    rw [getD_eq_head_drop _ _ hlt]
    simp only [maddLimbs, limb]
    split
    · rw [List.set_eq_take_append_cons_drop, if_pos hlt]
    · rw [ih _ _ _ _ (by simp [bn.size]; omega)]
      simp only [List.drop_set_of_lt _ _ (Nat.lt_succ_self i)]
      rw [take_succ_set _ _ _ hlt]
      simp

theorem bn_mult_add_eq (c : bn) (off x : Nat) :
    bn_mult_add c off x = { c with number := maddAt c.number off x } := by
  unfold bn_mult_add maddAt
  by_cases ho : off ≤ c.size
  · rw [bn_mult_add_loop_eq _ _ _ _ _ (by omega)]
  · rw [show c.size - off = 0 by omega]
    unfold bn.size at ho
    simp only [bn_mult_add_loop]
    rw [List.take_of_length_le (by omega), List.drop_of_length_le (by omega)]
    simp [maddLimbs]

section heap
variable {P : Type} [DecidableEq P]

theorem bn_mult_inner_eq (a b c : P) (hca : c ≠ a) (hcb : c ≠ b) (i : Nat) :
    ∀ (k j : Nat) (h : Heap P), j + k = (h.get b).size →
    bn_mult_inner a b c i k j h =
      h.set c { h.get c with number :=
        (multInner (limb (h.get a) i) i ((h.get b).number.drop j) j (h.get c).number) } := by
  intro k
  induction k with
  | zero =>
    intro j h hj
    unfold bn.size at hj
    simp only [bn_mult_inner]
    rw [List.drop_of_length_le (by omega)]
    simp only [multInner]
    exact (Heap.set_get_self h c).symm
  | succ k ih =>
    intro j h hj
    have hlt : j < (h.get b).number.length := by unfold bn.size at hj; omega
    simp only [bn_mult_inner]
    rw [if_pos (by unfold bn.size; exact hlt), ih _ _ (by
      rw [Heap.get_set_ne _ _ (Ne.symm hcb)]; omega)]
    rw [Heap.get_set_ne _ _ (Ne.symm hcb), Heap.get_set_ne _ _ (Ne.symm hca), Heap.get_set_same,
      Heap.set_set, bn_mult_add_eq]
    conv_rhs => rw [getD_eq_head_drop _ _ hlt]
    simp only [multInner, limb]

theorem bn_mult_outer_eq (a b c : P) (hca : c ≠ a) (hcb : c ≠ b) :
    ∀ (k i : Nat) (h : Heap P), i + k = (h.get a).size →
    bn_mult_outer a b c k i h =
      h.set c { h.get c with number :=
        (multOuter ((h.get a).number.drop i) i (h.get b).number (h.get c).number) } := by
  intro k
  induction k with
  | zero =>
    intro i h hi
    unfold bn.size at hi
    simp only [bn_mult_outer]
    rw [List.drop_of_length_le (by omega)]
    simp only [multOuter]
    exact (Heap.set_get_self h c).symm
  | succ k ih =>
    intro i h hi
    have hlt : i < (h.get a).number.length := by unfold bn.size at hi; omega
    simp only [bn_mult_outer]
    rw [if_pos (by unfold bn.size; exact hlt), bn_mult_inner_eq a b c hca hcb i _ _ _ (by simp),
      ih _ _ (by rw [Heap.get_set_ne _ _ (Ne.symm hca)]; omega)]
    rw [Heap.get_set_ne _ _ (Ne.symm hcb), Heap.get_set_ne _ _ (Ne.symm hca), Heap.get_set_same,
      Heap.set_set]
    conv_rhs => rw [getD_eq_head_drop _ _ hlt]
    simp only [multOuter, limb, List.drop_zero]

theorem bn_mult_loops_eq (a b c : P) (hca : c ≠ a) (hcb : c ≠ b) (h : Heap P) :
    bn_mult_loops a b c h =
      h.set c ⟨multOuter (h.get a).number 0 (h.get b).number (h.get c).number,
        xor (h.get a).sign (h.get b).sign⟩ := by
  unfold bn_mult_loops
  simp only []
  rw [bn_mult_outer_eq a b c hca hcb _ _ _ (by simp), setSign_set,
    Heap.get_set_ne _ _ (Ne.symm hcb), Heap.get_set_ne _ _ (Ne.symm hca)]
  simp

theorem bn_mult_eq (a b c : P) (h : Heap P) :
    bn_mult a b c h = h.set c (mult_res (h.get a) (h.get b)) := by
  unfold bn_mult mult_res
  simp only []
  split
  · apply Heap.ext_get
    intro p
    rw [bn_mult_loops_eq _ _ _ (by simp) (by simp)]
    simp only [bn_swap, Heap.pop, Heap.push, bn_alloc, Heap.get_set]
    by_cases hp : p = c
    · subst hp; simp
    · simp [hp]
  · next hc =>
    have hca : c ≠ a := fun e => hc (Or.inl e)
    have hcb : c ≠ b := fun e => hc (Or.inr e)
    rw [bn_mult_loops_eq _ _ _ hca hcb]
    simp only [Heap.set_set, Heap.get_set_same, Heap.get_set_ne _ _ (Ne.symm hca),
      Heap.get_set_ne _ _ (Ne.symm hcb)]
    congr 2
    rw [resize_number]
    simp only [List.length_replicate, List.take_replicate, ← List.replicate_add]
    congr 2
    unfold bn.size
    omega

end heap

/-- One limb of the shifted number: the low bits of `x` moved up, the high
bits of the limb below moved in; the two parts do not overlap. -/
theorem shl_limb (s x prev : Nat) (hs1 : 1 ≤ s) (hs : s ≤ 63) (hp : prev < 2 ^ 64) :
    (x * 2 ^ s) % 2 ^ 64 ||| prev / 2 ^ (64 - s) =
      (x * 2 ^ s + prev / 2 ^ (64 - s)) % 2 ^ 64 ∧
    (x * 2 ^ s + prev / 2 ^ (64 - s)) / 2 ^ 64 = x / 2 ^ (64 - s) := by
  have hB : (2 : Nat) ^ 64 = 2 ^ (64 - s) * 2 ^ s := by
    rw [← pow_add]; congr 1; omega
  have hq : prev / 2 ^ (64 - s) < 2 ^ s := by
    rw [Nat.div_lt_iff_lt_mul (by positivity), Nat.mul_comm, ← hB]; exact hp
  have h1 : (x * 2 ^ s) % 2 ^ 64 = 2 ^ s * (x % 2 ^ (64 - s)) := by
    rw [hB, Nat.mul_mod_mul_right, Nat.mul_comm]
  have hmod := Nat.mod_lt x (show 0 < 2 ^ (64 - s) by positivity)
  have hlt : 2 ^ s * (x % 2 ^ (64 - s)) + prev / 2 ^ (64 - s) < 2 ^ 64 := by
    have : 2 ^ s * (x % 2 ^ (64 - s) + 1) ≤ 2 ^ s * 2 ^ (64 - s) := Nat.mul_le_mul_left _ hmod
    rw [Nat.mul_comm (2 ^ s) (2 ^ (64 - s)), ← hB] at this
    linarith
  have hx : x * 2 ^ s = 2 ^ s * (x % 2 ^ (64 - s)) + 2 ^ 64 * (x / 2 ^ (64 - s)) := by
    conv_lhs => rw [← Nat.mod_add_div x (2 ^ (64 - s))]
    rw [hB]; ring
  constructor
  · rw [h1, ← Nat.mul_add_lt_is_or hq]
    conv_rhs => rw [hx]
    rw [show 2 ^ s * (x % 2 ^ (64 - s)) + 2 ^ 64 * (x / 2 ^ (64 - s)) + prev / 2 ^ (64 - s) =
      (2 ^ s * (x % 2 ^ (64 - s)) + prev / 2 ^ (64 - s)) + 2 ^ 64 * (x / 2 ^ (64 - s)) by ring,
      Nat.add_mul_mod_self_left, Nat.mod_eq_of_lt hlt]
  · conv_lhs => rw [hx]
    rw [show 2 ^ s * (x % 2 ^ (64 - s)) + 2 ^ 64 * (x / 2 ^ (64 - s)) + prev / 2 ^ (64 - s) =
      (2 ^ s * (x % 2 ^ (64 - s)) + prev / 2 ^ (64 - s)) + 2 ^ 64 * (x / 2 ^ (64 - s)) by ring,
      Nat.add_mul_div_left _ _ (by positivity), Nat.div_eq_of_lt hlt, Nat.zero_add]

theorem shlLimbs_length (s : Nat) : ∀ (L : List Nat) (prev : Nat), (shlLimbs s prev L).length = L.length := by
  intro L
  induction L with
  | nil => intro prev; rfl
  | cons x xs ih => intro prev; simp [shlLimbs, ih]

theorem shlLimbs_spec (s : Nat) (hs1 : 1 ≤ s) (hs : s ≤ 63) : ∀ (L : List Nat) (prev : Nat),
    (∀ y ∈ L, y < 2 ^ 64) → prev < 2 ^ 64 →
    (∀ y ∈ shlLimbs s prev L, y < 2 ^ 64) ∧
    mag (shlLimbs s prev L) = (mag L * 2 ^ s + prev / 2 ^ (64 - s)) % 2 ^ (64 * L.length) := by
  intro L
  induction L with
  | nil => intro prev _ _; simp [shlLimbs, mag_nil, Nat.mod_one]
  | cons x xs ih =>
    intro prev hL hp
    have hx : x < 2 ^ 64 := hL x (by simp)
    have hxs : ∀ y ∈ xs, y < 2 ^ 64 := fun y hy => hL y (by simp [hy])
    obtain ⟨ih1, ih2⟩ := ih x hxs hx
    obtain ⟨e1, e2⟩ := shl_limb s x prev hs1 hs hp
    simp only [shlLimbs]
    constructor
    · intro y hy
      simp only [List.mem_cons] at hy
      rcases hy with h | h
      · rw [h]; exact Nat.mod_lt _ (by positivity)
      · exact ih1 y h
    · rw [mag_cons, ih2, e1, Nat.mod_mod, mag_cons, List.length_cons,
        show 64 * (xs.length + 1) = 64 + 64 * xs.length by ring, pow_add, Nat.mod_mul,
        show (x + 2 ^ 64 * mag xs) * 2 ^ s + prev / 2 ^ (64 - s) =
          (x * 2 ^ s + prev / 2 ^ (64 - s)) + 2 ^ 64 * (mag xs * 2 ^ s) by ring,
        Nat.add_mul_mod_self_left, Nat.add_mul_div_left _ _ (by positivity), e2]
      exact congrArg (fun t => (x * 2 ^ s + prev / 2 ^ (64 - s)) % 2 ^ 64 +
        2 ^ 64 * (t % 2 ^ (64 * xs.length))) (by ring)

theorem shl_getD_succ (s : Nat) : ∀ (L : List Nat) (prev j : Nat), j + 1 < L.length →
    (shlLimbs s prev L).getD (j + 1) 0 =
      ((L.getD (j + 1) 0 * 2 ^ s) % 2 ^ 64 ||| L.getD j 0 / 2 ^ (64 - s)) % 2 ^ 64 := by
  intro L
  induction L with
  | nil => intro prev j hj; simp at hj
  | cons x xs ih =>
    intro prev j hj
    cases j with
    | zero =>
      cases xs with
      | nil => simp at hj
      | cons y ys => simp [shlLimbs]
    | succ j =>
      have := ih x j (by simpa using hj)
      simpa [shlLimbs] using this

theorem take_set_le (l : List Nat) (m n a : Nat) (h : m ≤ n) : (l.set n a).take m = l.take m := by
  induction l generalizing m n with
  | nil => simp
  | cons x xs ih =>
    cases n with
    | zero => simp [show m = 0 by omega]
    | succ n =>
      cases m with
      | zero => simp
      | succ m => simp [ih m n (by omega)]

section heap
variable {P : Type} [DecidableEq P]

theorem bn_lshift2_loop_eq (src dest : P) (hne : src ≠ dest) (s : Nat) :
    ∀ (i : Nat) (h : Heap P), i < (h.get src).number.length → i < (h.get dest).number.length →
    bn_lshift2_loop src dest s i h =
      h.set dest { h.get dest with number :=
        ((h.get dest).number.take 1 ++ (shlLimbs s 0 (h.get src).number).tail.take i ++
          (h.get dest).number.drop (i + 1)) } := by
  intro i
  induction i with
  | zero =>
    intro h _ _
    simp only [bn_lshift2_loop, List.take_zero, List.append_nil, List.take_append_drop]
    exact (Heap.set_get_self h dest).symm
  | succ i ih =>
    intro h hS hD
    simp only [bn_lshift2_loop]
    have hsrc : (setLimb h dest (i + 1)
        ((limb (h.get src) (i + 1) * 2 ^ s) % 2 ^ 64 ||| limb (h.get src) i / 2 ^ (64 - s))).get src
        = h.get src := by
      rw [setLimb_get, if_neg hne]
    rw [ih _ (by rw [hsrc]; omega) (by
      have := setLimb_size h dest dest (i + 1)
        ((limb (h.get src) (i + 1) * 2 ^ s) % 2 ^ 64 ||| limb (h.get src) i / 2 ^ (64 - s))
      unfold bn.size at this; omega), hsrc, setLimb_set, setLimb_get, if_pos rfl]
    congr 2
    simp only []
    rw [take_set_le _ _ _ _ (by omega), List.set_eq_take_append_cons_drop, if_pos hD,
      List.drop_append_of_le_length (by simp; omega)]
    have hW : (shlLimbs s 0 (h.get src).number).tail.take (i + 1) =
        (shlLimbs s 0 (h.get src).number).tail.take i ++
          [((limb (h.get src) (i + 1) * 2 ^ s) % 2 ^ 64 |||
            limb (h.get src) i / 2 ^ (64 - s)) % 2 ^ 64] := by
      have hlen : i < (shlLimbs s 0 (h.get src).number).tail.length := by
        simp [shlLimbs_length]; omega
      rw [List.take_succ, List.getElem?_eq_getElem hlen]
      congr 1
      have := shl_getD_succ s (h.get src).number 0 i hS
      rw [List.getD_eq_getElem?_getD, List.getElem?_eq_getElem (by
        simp [shlLimbs_length]; omega)] at this
      simp only [Option.getD_some] at this
      simp only [Option.toList, List.getElem_tail, limb]
      rw [this]
    rw [hW]
    have hdrop : List.drop (i + 1) (List.take (i + 1) (h.get dest).number) = [] := by
      simp
    rw [hdrop]
    simp

end heap

theorem shl_head (s : Nat) (L : List Nat) (d : List Nat) (hL : 1 ≤ L.length) (hd : d.length = 1) :
    (d ++ (shlLimbs s 0 L).tail).set 0 ((L.getD 0 0 * 2 ^ s) % 2 ^ 64) = shlLimbs s 0 L := by
  cases L with
  | nil => simp at hL
  | cons x xs =>
    cases d with
    | nil => simp at hd
    | cons y ys =>
      have : ys = [] := by simpa using hd
      subst this
      simp [shlLimbs]

section heap
variable {P : Type} [DecidableEq P]

theorem bn_lshift2_eq (src dest : P) (hne : src ≠ dest) (shift : Nat) (h : Heap P)
    (hs : shift % 64 ≠ 0) (h1 : 1 ≤ (h.get src).size) :
    bn_lshift2 src shift dest h =
      (h.set src (lshift2_src (h.get src) shift)).set dest
        ⟨shlLimbs (shift % 64) 0 (lshift2_src (h.get src) shift).number, (h.get dest).sign⟩ := by
  unfold bn_lshift2
  simp only [if_neg hs]
  have hsize : 1 ≤ (lshift2_src (h.get src) shift).size := by
    unfold lshift2_src; split
    · rw [resize_size]; omega
    · exact h1
  have key : (if shift % 64 > bn_clz (h.get src) then
        (h.set dest (bn_resize (h.get dest) ((h.get src).size + 1))).set src
          (bn_resize ((h.set dest (bn_resize (h.get dest) ((h.get src).size + 1))).get src)
            (((h.set dest (bn_resize (h.get dest) ((h.get src).size + 1))).get src).size + 1))
      else h.set dest (bn_resize (h.get dest) (h.get src).size)) =
      (h.set src (lshift2_src (h.get src) shift)).set dest
        (bn_resize (h.get dest) (lshift2_src (h.get src) shift).size) := by
    unfold lshift2_src
    apply Heap.ext_get
    intro p
    split
    · rw [Heap.get_set_ne _ _ hne, resize_size]
      simp only [Heap.get_set]
      by_cases hp : p = dest
      · have : p ≠ src := fun e => hne (e.symm.trans hp)
        simp [hp, this, Ne.symm hne]
      · simp [hp]
    · simp only [Heap.get_set]
      by_cases hp : p = dest
      · simp [hp]
      · by_cases hp2 : p = src
        · simp [hp2, hne]
        · simp [hp, hp2]
  rw [key]
  obtain ⟨S, hS⟩ : ∃ S, S = lshift2_src (h.get src) shift := ⟨_, rfl⟩
  rw [← hS] at hsize ⊢
  obtain ⟨R, hR⟩ : ∃ R, R = bn_resize (h.get dest) S.size := ⟨_, rfl⟩
  have hRlen : R.number.length = S.number.length := by
    rw [hR]; exact resize_size (h.get dest) S.size
  have hRsign : R.sign = (h.get dest).sign := by rw [hR]; exact resize_sign _ _
  rw [← hR]
  have hS1 : 1 ≤ S.number.length := hsize
  have gsrc : ((h.set src S).set dest R).get src = S := by
    rw [Heap.get_set_ne _ _ hne, Heap.get_set_same]
  rw [gsrc, bn_lshift2_loop_eq src dest hne _ _ _ (by rw [gsrc]; unfold bn.size; omega)
    (by rw [Heap.get_set_same, hRlen]; unfold bn.size; omega)]
  simp only [setLimb_set_same, Heap.get_set_ne _ _ hne, Heap.get_set_same, Heap.set_set, limb]
  have e1 : List.drop (S.size - 1 + 1) R.number = [] := by
    apply List.drop_of_length_le
    unfold bn.size; omega
  have e2 : List.take (S.size - 1) (shlLimbs (shift % 64) 0 S.number).tail =
      (shlLimbs (shift % 64) 0 S.number).tail := by
    apply List.take_of_length_le
    simp [shlLimbs_length, bn.size]
  rw [e1, e2, List.append_nil, hRsign,
    shl_head _ _ _ hS1 (by simp only [List.length_take]; omega)]

end heap

theorem lshift2_spec (b : bn) (shift : Nat) (hb : b.wf) (h1 : 1 ≤ b.size)
    (hs : shift % 64 ≠ 0) :
    (lshift2_src b shift).wf ∧ mag (lshift2_src b shift).number = mag b.number ∧
    1 ≤ (lshift2_src b shift).size ∧ (lshift2_src b shift).sign = b.sign ∧
    (∀ y ∈ shlLimbs (shift % 64) 0 (lshift2_src b shift).number, y < 2 ^ 64) ∧
    1 ≤ (shlLimbs (shift % 64) 0 (lshift2_src b shift).number).length ∧
    mag (shlLimbs (shift % 64) 0 (lshift2_src b shift).number) =
      mag b.number * 2 ^ (shift % 64) ∧
    (trimmed b.number → trimmed (shlLimbs (shift % 64) 0 (lshift2_src b shift).number)) := by
  have hs63 : shift % 64 ≤ 63 := by omega
  have hs1 : 1 ≤ shift % 64 := by omega
  have hmsb := msb_spec b.number hb
  have hclz := clz_le b.number
  have hn : 1 ≤ b.number.length := h1
  unfold lshift2_src
  split
  · next hgt =>
    have hgt' : shift % 64 > bn_clz_loop b.number.reverse 0 := hgt
    have hwf := resize_wf b (b.size + 1) hb
    have hnum : (bn_resize b (b.size + 1)).number = b.number ++ [0] := by
      rw [resize_number]; unfold bn.size
      rw [List.take_of_length_le (by omega)]
      simp [List.replicate_succ]
    have hmag : mag (bn_resize b (b.size + 1)).number = mag b.number := by
      rw [hnum, mag_append, mag_cons, mag_nil]; simp
    obtain ⟨g1, g2⟩ := shlLimbs_spec (shift % 64) hs1 hs63 _ 0 hwf (by positivity)
    have hlen : (bn_resize b (b.size + 1)).number.length = b.number.length + 1 :=
      resize_size b _
    have hmlt := mag_lt b.number hb
    have hlow : 2 ^ (64 * b.number.length) ≤ mag b.number * 2 ^ (shift % 64) := by
      have h2 := hmsb.2 (by omega)
      have h3 : 2 ^ (64 * b.number.length - shift % 64) ≤ mag b.number :=
        le_trans (Nat.pow_le_pow_right (by norm_num) (by omega)) h2
      calc 2 ^ (64 * b.number.length)
          = 2 ^ (64 * b.number.length - shift % 64) * 2 ^ (shift % 64) := by
            rw [← pow_add]; congr 1; omega
        _ ≤ _ := Nat.mul_le_mul_right _ h3
    have hval : mag (shlLimbs (shift % 64) 0 (bn_resize b (b.size + 1)).number) =
        mag b.number * 2 ^ (shift % 64) := by
      rw [g2, hmag, hlen, Nat.zero_div, Nat.add_zero]
      apply Nat.mod_eq_of_lt
      calc mag b.number * 2 ^ (shift % 64) < 2 ^ (64 * b.number.length) * 2 ^ 64 := by
            apply Nat.mul_lt_mul'' hmlt
            exact Nat.pow_lt_pow_right (by norm_num) (by omega)
        _ = _ := by rw [← pow_add]; congr 1
    refine ⟨hwf, hmag, by rw [resize_size]; omega, resize_sign _ _, g1,
      by rw [shlLimbs_length, hlen]; omega, hval, fun _ => Or.inr ⟨?_, ?_⟩⟩
    · rw [shlLimbs_length, hlen]; omega
    · rw [shlLimbs_length, hlen, hval]; simpa using hlow
  · next hle =>
    have hle' : shift % 64 ≤ bn_clz_loop b.number.reverse 0 := by
      have : ¬ shift % 64 > bn_clz_loop b.number.reverse 0 := hle
      omega
    obtain ⟨g1, g2⟩ := shlLimbs_spec (shift % 64) hs1 hs63 _ 0 hb (by positivity)
    have hval : mag (shlLimbs (shift % 64) 0 b.number) = mag b.number * 2 ^ (shift % 64) := by
      rw [g2, Nat.zero_div, Nat.add_zero]
      apply Nat.mod_eq_of_lt
      calc mag b.number * 2 ^ (shift % 64)
          < 2 ^ (b.number.length * 64 - bn_clz_loop b.number.reverse 0) * 2 ^ (shift % 64) :=
            Nat.mul_lt_mul_of_pos_right hmsb.1 (by positivity)
        _ = 2 ^ (b.number.length * 64 - bn_clz_loop b.number.reverse 0 + shift % 64) :=
            (pow_add _ _ _).symm
        _ ≤ _ := Nat.pow_le_pow_right (by norm_num) (by omega)
    refine ⟨hb, rfl, h1, rfl, g1, by rw [shlLimbs_length]; exact hn, hval, fun ht => ?_⟩
    unfold trimmed
    rw [shlLimbs_length, hval]
    rcases ht with h | ⟨h, h'⟩
    · exact Or.inl h
    · refine Or.inr ⟨h, le_trans h' ?_⟩
      exact Nat.le_mul_of_pos_right _ (by positivity)

theorem trim_loose (b : bn) (v : Nat) (h : holds_trim b v) : holds_loose b v := by
  obtain ⟨h1, h2, h3, h4, h5⟩ := h
  refine ⟨h1, h2, h3, h4, ?_⟩
  rcases h5 with h | ⟨_, h⟩
  · exact Or.inl h
  · right; rw [h4] at h; unfold bn.size; omega

theorem fibT_spec (B K : bn) (v : Nat) (hB : holds_trim B v) (hK : K.sign = false) :
    holds_trim (fibT B K) (2 * v) ∧ (lshift2_src B 1).wf ∧
      mag (lshift2_src B 1).number = v ∧ (lshift2_src B 1).sign = false := by
  obtain ⟨h1, h2, h3, h4, h5⟩ := hB
  obtain ⟨g1, g2, g3, g4, g5, g6, g7, g8⟩ := lshift2_spec B 1 h1 h2 (by norm_num)
  refine ⟨⟨g5, g6, hK, ?_, g8 h5⟩, g1, g2.trans h4, g4.trans h3⟩
  show mag (shlLimbs (1 % 64) 0 (lshift2_src B 1).number) = 2 * v
  rw [g7, h4]; norm_num; ring

theorem fibU_spec (A B K : bn) (k : Nat) (hA : holds_loose A (Nat.fib k))
    (hB : holds_trim B (Nat.fib (k + 1))) (hK : K.sign = false) :
    holds_trim (fibU A B K) (2 * Nat.fib (k + 1) - Nat.fib k) := by
  obtain ⟨⟨t1, t2, t3, t4, t5⟩, -⟩ := fibT_spec B K _ hB hK
  obtain ⟨a1, a2, a3, a4, a5⟩ := hA
  have hle : Nat.fib k ≤ Nat.fib (k + 1) := Nat.fib_le_fib_succ
  have hpos : 0 < Nat.fib (k + 1) := Nat.fib_pos.mpr (by omega)
  have hlt : mag A.number < mag (fibT B K).number := by rw [a4, t4]; omega
  have hsz : A.size ≤ (fibT B K).size := by
    rcases a5 with h | h
    · omega
    · have h1 := mag_lt (fibT B K).number t1
      rw [t4] at h1
      have h2 : 2 ^ (64 * (A.size - 1)) < 2 ^ (64 * (fibT B K).number.length) := by omega
      have := (Nat.pow_lt_pow_iff_right (by norm_num : 1 < 2)).mp h2
      simp only [bn.size] at *; omega
  have hcmp : bn_cmp (fibT B K) { A with sign := xor A.sign true } = 1 := by
    rcases Nat.lt_or_ge A.size (fibT B K).size with h | h
    · exact bn_cmp_size_gt _ _ h
    · rw [bn_cmp_eq_size (fibT B K) ⟨A.number, xor A.sign true⟩ t1 a1
        (by simp only [bn.size] at *; omega), if_pos hlt]
  have hres : fibU A B K = ⟨do_sub_res (fibT B K) { A with sign := xor A.sign true }, false⟩ := by
    unfold fibU sub_res add_res
    rw [if_neg (by rw [t3, a3]; simp)]
    simp only [t3, Bool.false_eq_true, if_false]
    rw [hcmp, if_pos (by norm_num)]
  obtain ⟨s1, s2, s3, s4⟩ := do_sub_res_spec (fibT B K) { A with sign := xor A.sign true }
    t1 a1 (le_of_lt hlt) (Or.inl t2)
  rw [hres]
  refine ⟨s2, s4, rfl, ?_, s3⟩
  simp only [] at s1 ⊢
  rw [a4, t4] at s1
  omega

theorem mult_loose (a b : bn) (x y : Nat) (ha : a.wf) (hb : b.wf) (hx : mag a.number = x)
    (hy : mag b.number = y) (hsa : a.sign = false) (hsb : b.sign = false)
    (h0 : y = 0 → x < 2 ^ 64) (h0x : x = 0 → y = 0) :
    holds_loose (mult_res a b) (x * y) := by
  obtain ⟨m1, m2, m3, m4⟩ := mult_res_spec a b ha hb
  obtain ⟨d1, d2, d3⟩ := limbs_for_spec (bn_msb a + bn_msb b)
  refine ⟨m2, by rw [m3]; exact d1, by rw [m4, hsa, hsb]; rfl, by rw [m1, hx, hy], ?_⟩
  rw [m3]
  by_cases hy0 : y = 0
  · left
    have h1 : bn_msb b = 0 := (msb_eq_zero b hb).mpr (hy.trans hy0)
    have h2 : bn_msb a ≤ 64 := msb_le_of_lt a ha 64 (by rw [hx]; exact h0 hy0)
    rw [h1, Nat.add_zero]
    unfold limbs_for
    split <;> omega
  · by_cases hx0 : x = 0
    · exact absurd (h0x hx0) hy0
    · right
      have ha0 : bn_msb a ≠ 0 := fun h => hx0 (hx ▸ (msb_eq_zero a ha).mp h)
      have hb0 : bn_msb b ≠ 0 := fun h => hy0 (hy ▸ (msb_eq_zero b hb).mp h)
      have h1 := msb_le a ha ha0
      have h2 := msb_le b hb hb0
      rw [hx] at h1; rw [hy] at h2
      have h3 := d3 (by omega)
      have h4 : 2 ^ (bn_msb a - 1) * 2 ^ (bn_msb b - 1) ≤ x * y := Nat.mul_le_mul h1 h2
      rw [← pow_add] at h4
      have h5 : 2 ^ (64 * (limbs_for (bn_msb a + bn_msb b) - 1)) ≤
          2 ^ (bn_msb a - 1 + (bn_msb b - 1) + 1) :=
        Nat.pow_le_pow_right (by norm_num) (by omega)
      rw [pow_succ] at h5
      omega

theorem add_trim (a b : bn) (x y : Nat) (ha : a.wf) (hb : b.wf) (hx : mag a.number = x)
    (hy : mag b.number = y) (hsa : a.sign = false) (hsb : b.sign = false) :
    holds_trim (add_res a b) (x + y) := by
  obtain ⟨h1, h2, h3, h4⟩ := do_add_res_spec a b ha hb
  have hres : add_res a b = ⟨do_add_res a b, false⟩ := by
    unfold add_res; rw [if_pos (hsa.trans hsb.symm), hsa]
  rw [hres]
  exact ⟨h2, h4, rfl, by rw [← hx, ← hy]; exact h1, h3⟩

theorem fib_step (A B K : bn) (k : Nat) (hA : holds_loose A (Nat.fib k))
    (hB : holds_trim B (Nat.fib (k + 1))) (hK : K.sign = false) :
    holds_loose (fibV A B K) (Nat.fib (2 * k)) ∧
    holds_trim (fibY A B) (Nat.fib (2 * k + 1)) ∧
    (fibW A).sign = false ∧
    holds_trim (fibZ A B K) (Nat.fib (2 * k + 1 + 1)) := by
  have hU := fibU_spec A B K k hA hB hK
  obtain ⟨-, b1, b2, b3⟩ := fibT_spec B K _ hB hK
  obtain ⟨a1, a2, a3, a4, a5⟩ := hA
  obtain ⟨u1, u2, u3, u4, u5⟩ := hU
  have hle : Nat.fib k ≤ Nat.fib (k + 1) := Nat.fib_le_fib_succ
  have hpos : 0 < Nat.fib (k + 1) := Nat.fib_pos.mpr (by omega)
  have hV : holds_loose (fibV A B K) (Nat.fib (2 * k)) := by
    rw [Nat.fib_two_mul, Nat.mul_comm]
    refine mult_loose _ _ _ _ u1 a1 u4 a4 u3 a3 (fun h0 => ?_) (fun h0 => ?_)
    · have : Nat.fib (k + 1) ≤ 1 := by
        rcases Nat.eq_zero_or_pos k with hk | hk
        · subst hk; simp
        · exact absurd h0 (Nat.pos_iff_ne_zero.mp (Nat.fib_pos.mpr hk))
      have : 2 * Nat.fib (k + 1) - Nat.fib k ≤ 2 := by omega
      exact lt_of_le_of_lt this (by norm_num)
    · omega
  have hW := mult_loose A A _ _ a1 a1 a4 a4 a3 a3 (fun h0 => by rw [h0]; positivity) id
  have hX := mult_loose _ _ _ _ b1 b1 b2 b2 b3 b3 (fun h0 => by omega) id
  have hY : holds_trim (fibY A B) (Nat.fib (2 * k + 1)) := by
    rw [Nat.fib_two_mul_add_one, Nat.add_comm, pow_two, pow_two]
    exact add_trim _ _ _ _ hW.1 hX.1 hW.2.2.2.1 hX.2.2.2.1 hW.2.2.1 hX.2.2.1
  refine ⟨hV, hY, hW.2.2.1, ?_⟩
  have : Nat.fib (2 * k + 1 + 1) = Nat.fib (2 * k + 1) + Nat.fib (2 * k) := by
    rw [Nat.fib_add_two, Nat.add_comm]
  rw [this]
  exact add_trim _ _ _ _ hY.1 hV.1 hY.2.2.2.1 hV.2.2.2.1 hY.2.2.1 hV.2.2.1

theorem fib_body_eq (bit : Bool) (h : Heap FibVar) (h1 : 1 ≤ (h.get FibVar.f2).size) :
    fib_nocpy_body bit h = ⟨fun p => match p with
      | FibVar.f1 => if bit then fibY (h.get FibVar.f1) (h.get FibVar.f2)
          else fibV (h.get FibVar.f1) (h.get FibVar.f2) (h.get FibVar.k1)
      | FibVar.f2 => if bit then fibZ (h.get FibVar.f1) (h.get FibVar.f2) (h.get FibVar.k1)
          else fibY (h.get FibVar.f1) (h.get FibVar.f2)
      | FibVar.k1 => fibW (h.get FibVar.f1)
      | FibVar.k2 => fibX (h.get FibVar.f2)⟩ := by
  unfold fib_nocpy_body
  simp only []
  rw [bn_lshift2_eq _ _ (by decide) _ _ (by norm_num) h1]
  simp only [bn_sub_eq, bn_mult_eq, bn_add_eq, bn_swap]
  apply Heap.ext_get
  intro p
  cases bit <;> cases p <;>
    simp [Heap.get_set, fibT, fibU, fibV, fibW, fibX, fibY, fibZ]

theorem fib_body_inv (bit : Bool) (k : Nat) (h : Heap FibVar) (hi : fib_inv k h) :
    fib_inv (2 * k + (if bit then 1 else 0)) (fib_nocpy_body bit h) := by
  obtain ⟨hA, hB, hK⟩ := hi
  rw [fib_body_eq bit h hB.2.1]
  obtain ⟨s1, s2, s3, s4⟩ := fib_step _ _ _ k hA hB hK
  cases bit
  · exact ⟨s1, s2, s3⟩
  · exact ⟨trim_loose _ _ s2, s4, s3⟩

theorem bit_step (n j : Nat) :
    2 * (n / 2 ^ (j + 1)) + (if decide (n &&& 2 ^ j ≠ 0) = true then 1 else 0) = n / 2 ^ j := by
  have h1 : n / 2 ^ (j + 1) = n / 2 ^ j / 2 := by
    rw [pow_succ, Nat.div_div_eq_div_mul]
  have h2 : n &&& 2 ^ j = 2 ^ j * (n.testBit j).toNat := by
    rw [Nat.and_comm, Nat.two_pow_and]
  have h3 := @Nat.testBit_to_div_mod j n
  rw [h1, h2]
  have hp : 0 < 2 ^ j := by positivity
  by_cases hb : n / 2 ^ j % 2 = 1
  · have : n.testBit j = true := by rw [h3]; simpa using hb
    simp [this, Nat.pos_iff_ne_zero.mp hp]
    omega
  · have : n.testBit j = false := by rw [h3]; simpa using hb
    simp [this]
    omega

theorem fib_loop_inv (n : Nat) : ∀ (j fuel : Nat) (h : Heap FibVar), j + 1 ≤ fuel →
    fib_inv (n / 2 ^ (j + 1)) h → fib_inv n (fib_nocpy_loop n fuel (2 ^ j) h) := by
  intro j
  induction j with
  | zero =>
    intro fuel h hf hi
    obtain ⟨fuel, rfl⟩ : ∃ f, fuel = f + 1 := ⟨fuel - 1, by omega⟩
    have hb := fib_body_inv (decide (n &&& 2 ^ 0 ≠ 0)) _ h hi
    rw [bit_step n 0] at hb
    simp only [fib_nocpy_loop, pow_zero, ne_eq, one_ne_zero, not_false_eq_true, if_true,
      Nat.reduceDiv]
    simp only [pow_zero, Nat.div_one] at hb
    cases fuel with
    | zero => simpa [fib_nocpy_loop] using hb
    | succ f => simpa [fib_nocpy_loop] using hb
  | succ j ih =>
    intro fuel h hf hi
    obtain ⟨fuel, rfl⟩ : ∃ f, fuel = f + 1 := ⟨fuel - 1, by omega⟩
    have hb := fib_body_inv (decide (n &&& 2 ^ (j + 1) ≠ 0)) _ h hi
    rw [bit_step n (j + 1)] at hb
    have hne : (2 : Nat) ^ (j + 1) ≠ 0 := by positivity
    have hdiv : (2 : Nat) ^ (j + 1) / 2 = 2 ^ j := by
      rw [pow_succ, Nat.mul_div_cancel _ (by norm_num)]
    simp only [fib_nocpy_loop, if_pos hne, hdiv]
    exact ih fuel _ (by omega) hb

theorem F_eq_fib : ∀ n, F n = Nat.fib n
  | 0 => rfl
  | 1 => rfl
  | n + 2 => by
    rw [F, F_eq_fib (n + 1), F_eq_fib n, Nat.fib_add_two, Nat.add_comm]

theorem resize_one (dest : bn) : ∃ x, (bn_resize dest 1).number = [x] := by
  rw [resize_number]
  cases h : dest.number with
  | nil => exact ⟨0, by simp⟩
  | cons y ys => exact ⟨y, by simp⟩

theorem fib_init_inv (dest : bn) (hs : dest.sign = false) :
    fib_inv 0 (fib_nocpy_init (bn_resize dest 1)) := by
  obtain ⟨x, hx⟩ := resize_one dest
  have hsg : (bn_resize dest 1).sign = false := (resize_sign dest 1).trans hs
  refine ⟨⟨?_, ?_, ?_, ?_, ?_⟩, ⟨?_, ?_, ?_, ?_, ?_⟩, ?_⟩ <;>
    simp [fib_nocpy_init, bn.wf, bn.size, hx, hsg, bn_alloc, mag_cons, mag_nil, trimmed]

theorem fib_top_bit (n : Nat) (h2 : 2 ≤ n) (h32 : n < 2 ^ 32) :
    2 ^ (31 - clz32 n) % 2 ^ 32 = 2 ^ Nat.log2 n ∧ n / 2 ^ (Nat.log2 n + 1) = 0 ∧
      Nat.log2 n + 1 ≤ 32 := by
  have h0 : n ≠ 0 := by omega
  have hlog : Nat.log2 n < 32 := (Nat.log2_lt h0).mpr h32
  unfold clz32
  rw [show 31 - (31 - Nat.log2 n) = Nat.log2 n by omega]
  refine ⟨Nat.mod_eq_of_lt (Nat.pow_lt_pow_right (by norm_num) hlog), ?_, by omega⟩
  exact Nat.div_eq_of_lt Nat.lt_log2_self

/-- The object left in `dest` by `bn_fib_fdoubling_nocpy` is non-negative, has
64-bit limbs and magnitude `fib n`. -/
theorem fib_nocpy_loose (dest : bn) (n : Nat) (hs : dest.sign = false) (h32 : n < 2 ^ 32) :
    holds_loose (bn_fib_fdoubling_nocpy dest n) (Nat.fib n) := by
  unfold bn_fib_fdoubling_nocpy
  simp only []
  split
  · next hlt =>
    obtain ⟨x, hx⟩ := resize_one dest
    have hsg : (bn_resize dest 1).sign = false := (resize_sign dest 1).trans hs
    have hn : n = 0 ∨ n = 1 := by omega
    rcases hn with rfl | rfl <;>
      refine ⟨?_, ?_, ?_, ?_, ?_⟩ <;>
      simp [bn.wf, bn.size, hx, hsg, mag_cons, mag_nil]
  · next hge =>
    obtain ⟨e1, e2, e3⟩ := fib_top_bit n (by omega) h32
    rw [e1]
    have h0 := fib_init_inv dest hs
    rw [← e2] at h0
    exact (fib_loop_inv n (Nat.log2 n) 32 _ e3 h0).1

/-- C1. For every 32-bit index `n` and every freshly allocated `dest` (`+0`, any
number of limbs), `bn_fib_fdoubling_nocpy(dest, n)` leaves in `dest` the signed
value `F(n)`, the Fibonacci number defined by `F(0) = 0`, `F(1) = 1`,
`F(n) = F(n-1) + F(n-2)`. -/
theorem C1_fib_fdoubling_nocpy_value (size n : Nat) (h32 : n < 2 ^ 32) :
    (bn_fib_fdoubling_nocpy (bn_alloc size) n).value = (F n : Int) := by
  obtain ⟨-, -, h3, h4, -⟩ := fib_nocpy_loose (bn_alloc size) n rfl h32
  rw [F_eq_fib]
  unfold bn.value
  rw [h3, h4]
  simp

theorem C1_fib_fdoubling_nocpy_value_witness :
    (2000 < 2 ^ 32) ∧ (bn_fib_fdoubling_nocpy (bn_alloc 1) 2000).value = (F 2000 : Int) :=
  ⟨by norm_num, C1_fib_fdoubling_nocpy_value 1 2000 (by norm_num)⟩

theorem bn_cmp_loop_self : ∀ (L : List Nat), bn_cmp_loop L L = 0 := by
  intro L
  induction L with
  | nil => rfl
  | cons x xs ih => simp [bn_cmp_loop, ih]

theorem sub_res_self (a : bn) : sub_res a a = ⟨[0], false⟩ := by
  have hc : ∀ s t : Bool, bn_cmp ⟨a.number, s⟩ ⟨a.number, t⟩ = 0 := by
    intro s t
    unfold bn_cmp
    simp [bn.size, bn_cmp_loop_self]
  unfold sub_res add_res
  cases a with
  | mk n s =>
    cases s
    · simp [hc]
    · simp [hc]

theorem do_add_res_comm (a b : bn) : do_add_res a b = do_add_res b a := by
  unfold do_add_res
  simp only [max_comm (bn_msb a) (bn_msb b), addLimbs_comm _ a.number b.number]

theorem add_res_comm (a b : bn) : add_res a b = add_res b a := by
  unfold add_res
  cases ha : a.sign <;> cases hb : b.sign <;> simp [do_add_res_comm a b, ha, hb]

/-- Limb lists of the same length with 64-bit limbs and the same magnitude are
equal. -/
theorem mag_inj : ∀ (L M : List Nat), L.length = M.length → (∀ x ∈ L, x < 2 ^ 64) →
    (∀ x ∈ M, x < 2 ^ 64) → mag L = mag M → L = M := by
  intro L
  induction L with
  | nil => intro M hl _ _ _; exact (List.length_eq_zero.mp hl.symm).symm
  | cons x xs ih =>
    intro M hl hL hM hm
    cases M with
    | nil => simp at hl
    | cons y ys =>
      have hx := hL x (by simp)
      have hy := hM y (by simp)
      rw [mag_cons, mag_cons] at hm
      have h1 : x = y := by omega
      have h2 : mag xs = mag ys := by omega
      rw [h1, ih ys (by simpa using hl) (fun z hz => hL z (by simp [hz]))
        (fun z hz => hM z (by simp [hz])) h2]

theorem trimmed_length_le (L M : List Nat) (hL : ∀ x ∈ L, x < 2 ^ 64) (h1 : 1 ≤ L.length)
    (hM : trimmed M) (hm : mag L = mag M) : M.length ≤ L.length := by
  rcases hM with h | ⟨h, h'⟩
  · omega
  · have := mag_lt L hL
    rw [hm] at this
    have h2 : 2 ^ (64 * (M.length - 1)) < 2 ^ (64 * L.length) := lt_of_le_of_lt h' this
    have := (Nat.pow_lt_pow_iff_right (by norm_num : 1 < 2)).mp h2
    omega

/-- A value has one canonical representation. -/
theorem canonical_unique (a b : bn) (ha : a.canonical) (hb : b.canonical)
    (hv : a.value = b.value) : a = b := by
  have hta := canonical_trimmed a ha
  have htb := canonical_trimmed b hb
  obtain ⟨wa, sa, -, za⟩ := ha
  obtain ⟨wb, sb, -, zb⟩ := hb
  have hmag : mag a.number = mag b.number ∧ a.sign = b.sign := by
    unfold bn.value at hv
    cases hsa : a.sign <;> cases hsb : b.sign <;>
      simp only [hsa, hsb, Bool.false_eq_true, if_false, if_true] at hv za zb
    · exact ⟨by exact_mod_cast hv, rfl⟩
    · have h0 : mag b.number = 0 := by omega
      exact absurd (zb h0) (by simp)
    · have h0 : mag a.number = 0 := by omega
      exact absurd (za h0) (by simp)
    · exact ⟨by omega, rfl⟩
  have hlen : a.number.length = b.number.length :=
    le_antisymm (trimmed_length_le b.number a.number wb sb hta hmag.1.symm)
      (trimmed_length_le a.number b.number wa sa htb hmag.1)
  have hnum := mag_inj a.number b.number hlen wa wb hmag.1
  cases a; cases b
  simp only at hnum hmag
  rw [hnum, hmag.2]

theorem add_res_assoc (a b c : bn) (ha : a.canonical) (hb : b.canonical) (hc : c.canonical) :
    add_res (add_res a b) c = add_res (add_res b c) a := by
  obtain ⟨v1, c1⟩ := add_res_spec a b ha hb
  obtain ⟨v2, c2⟩ := add_res_spec b c hb hc
  obtain ⟨v3, c3⟩ := add_res_spec _ c c1 hc
  obtain ⟨v4, c4⟩ := add_res_spec _ a c2 ha
  apply canonical_unique _ _ c3 c4
  rw [v3, v4, v1, v2]
  ring

theorem mag_zero_replicate : ∀ (L : List Nat), mag L = 0 → L = List.replicate L.length 0 := by
  intro L
  induction L with
  | nil => intro _; rfl
  | cons x xs ih =>
    intro h
    rw [mag_cons] at h
    have hx : x = 0 := by omega
    have hxs : mag xs = 0 := by
      have : 2 ^ 64 * mag xs = 0 := by omega
      simpa using this
    rw [List.length_cons, List.replicate_succ, ← ih hxs, hx]

theorem canonical_limbs_for (a : bn) (ha : a.canonical) : limbs_for (bn_msb a) = a.size := by
  have ht := canonical_trimmed a ha
  obtain ⟨wa, sa, -, -⟩ := ha
  have h1 := msb_le_size a
  obtain ⟨d1, d2, d3⟩ := limbs_for_spec (bn_msb a)
  rcases ht with h | ⟨_, h⟩
  · have : bn_msb a ≤ 64 := by unfold bn.size at h1; omega
    unfold limbs_for bn.size
    split <;> omega
  · have hlt := msb_lt a wa
    have h2 : 2 ^ (64 * (a.number.length - 1)) < 2 ^ bn_msb a := lt_of_le_of_lt h hlt
    have h3 := (Nat.pow_lt_pow_iff_right (by norm_num : 1 < 2)).mp h2
    unfold bn.size at *
    have := d3 (by omega)
    unfold limbs_for at *
    split at this <;> split <;> omega

theorem mult_res_zero (a : bn) (ha : a.canonical) :
    mult_res a ⟨[0], false⟩ = ⟨List.replicate a.size 0, a.sign⟩ := by
  have hz : bn.wf ⟨[0], false⟩ := by simp [bn.wf]
  obtain ⟨m1, m2, m3, m4⟩ := mult_res_spec a ⟨[0], false⟩ ha.1 hz
  have hmsb0 : bn_msb ⟨[0], false⟩ = 0 := (msb_eq_zero _ hz).mpr (by simp [mag_cons, mag_nil])
  rw [hmsb0, Nat.add_zero, canonical_limbs_for a ha] at m3
  have hm0 : mag (mult_res a ⟨[0], false⟩).number = 0 := by
    rw [m1]; simp [mag_cons, mag_nil]
  have hnum := mag_zero_replicate _ hm0
  cases hr : mult_res a ⟨[0], false⟩ with
  | mk n s =>
    rw [hr] at hnum m3 m4
    simp only [bn.size] at hnum m3 m4
    rw [m3] at hnum
    simp only [Bool.xor_false] at m4
    rw [hnum, m4]
    rfl

theorem dv_lt : ∀ (s : List Nat), isDigits s → dv s < 10 ^ s.length := by
  intro s
  induction s with
  | nil => intro _; simp [dv]
  | cons c rest ih =>
    intro hs
    have hc := hs c (by simp)
    have hr := ih (fun x hx => hs x (by simp [hx]))
    simp only [dv, List.length_cons, pow_succ]
    have : (c - 48) * 10 ^ rest.length ≤ 9 * 10 ^ rest.length :=
      Nat.mul_le_mul_right _ (by omega)
    omega

theorem dbl_loop_spec : ∀ (s : List Nat) (carry : Nat), isDigits s → carry ≤ 1 →
    isDigits (dbl_loop s carry).1 ∧ (dbl_loop s carry).1.length = s.length ∧
    (dbl_loop s carry).2 ≤ 1 ∧
    dv (dbl_loop s carry).1 + 10 ^ s.length * (dbl_loop s carry).2 = 2 * dv s + carry := by
  intro s
  induction s with
  | nil => intro carry _ hc; simp [dbl_loop, dv, isDigits, hc]
  | cons c rest ih =>
    intro carry hs hcar
    have hc := hs c (by simp)
    obtain ⟨h1, h2, h3, h4⟩ := ih carry (fun x hx => hs x (by simp [hx])) hcar
    simp only [dbl_loop]
    split
    · next hv =>
      refine ⟨?_, by simp [h2], le_refl _, ?_⟩
      · intro x hx
        simp only [List.mem_cons] at hx
        rcases hx with rfl | hx
        · omega
        · exact h1 x hx
      · simp only [dv, h2, List.length_cons, pow_succ]
        have e : c + (c - 48 + (dbl_loop rest carry).2) - 10 - 48 + 10 =
            2 * (c - 48) + (dbl_loop rest carry).2 := by omega
        have e2 : (c + (c - 48 + (dbl_loop rest carry).2) - 10 - 48) * 10 ^ rest.length +
            10 ^ rest.length * 10 =
            (2 * (c - 48) + (dbl_loop rest carry).2) * 10 ^ rest.length := by
          rw [← e]; ring
        have e3 : (2 * (c - 48) + (dbl_loop rest carry).2) * 10 ^ rest.length =
            2 * ((c - 48) * 10 ^ rest.length) + 10 ^ rest.length * (dbl_loop rest carry).2 := by
          ring
        omega
    · next hv =>
      refine ⟨?_, by simp [h2], by omega, ?_⟩
      · intro x hx
        simp only [List.mem_cons] at hx
        rcases hx with rfl | hx
        · omega
        · exact h1 x hx
      · simp only [dv, h2, List.length_cons, pow_succ]
        have e : c + (c - 48 + (dbl_loop rest carry).2) - 48 =
            2 * (c - 48) + (dbl_loop rest carry).2 := by omega
        have e3 : (2 * (c - 48) + (dbl_loop rest carry).2) * 10 ^ rest.length =
            2 * ((c - 48) * 10 ^ rest.length) + 10 ^ rest.length * (dbl_loop rest carry).2 := by
          ring
        rw [e]
        omega

theorem dbl_loop_mod (s : List Nat) (carry : Nat) (hs : isDigits s) (hc : carry ≤ 1) :
    dv (dbl_loop s carry).1 = (2 * dv s + carry) % 10 ^ s.length := by
  obtain ⟨h1, h2, h3, h4⟩ := dbl_loop_spec s carry hs hc
  have hlt := dv_lt _ h1
  rw [h2] at hlt
  rw [← h4, Nat.add_mul_mod_self_left, Nat.mod_eq_of_lt hlt]

theorem mod_mul_add (a b c n : Nat) : (a % n * b + c) % n = (a * b + c) % n :=
  Nat.ModEq.add_right c (Nat.ModEq.mul_right b (Nat.mod_modEq a n))

theorem bit_value (x k : Nat) : (if 2 ^ k &&& x ≠ 0 then 1 else 0) = x / 2 ^ k % 2 := by
  rw [Nat.two_pow_and]
  have h3 := @Nat.testBit_to_div_mod k x
  have hp : (2 : Nat) ^ k ≠ 0 := by positivity
  by_cases hb : x / 2 ^ k % 2 = 1
  · have : x.testBit k = true := by rw [h3]; simpa using hb
    simp [this, hp, hb]
  · have : x.testBit k = false := by rw [h3]; simpa using hb
    simp [this]
    omega

theorem bit_loop_spec (x : Nat) : ∀ (k : Nat) (s : List Nat), isDigits s →
    isDigits (bit_loop x k s) ∧ (bit_loop x k s).length = s.length ∧
    dv (bit_loop x k s) = (dv s * 2 ^ k + x % 2 ^ k) % 10 ^ s.length := by
  intro k
  induction k with
  | zero =>
    intro s hs
    simp only [bit_loop, pow_zero, Nat.mul_one, Nat.mod_one, Nat.add_zero]
    exact ⟨hs, trivial, (Nat.mod_eq_of_lt (dv_lt s hs)).symm⟩
  | succ k ih =>
    intro s hs
    have hb : (if 2 ^ k &&& x ≠ 0 then 1 else 0) ≤ 1 := by split <;> omega
    obtain ⟨d1, d2, -, -⟩ := dbl_loop_spec s _ hs hb
    have d3 := dbl_loop_mod s _ hs hb
    obtain ⟨i1, i2, i3⟩ := ih _ d1
    simp only [bit_loop]
    rw [d2] at i2 i3
    refine ⟨i1, i2, ?_⟩
    rw [i3, d3, bit_value, mod_mul_add]
    have e : x % 2 ^ (k + 1) = 2 ^ k * (x / 2 ^ k % 2) + x % 2 ^ k := by
      rw [pow_succ, Nat.mod_mul, Nat.add_comm]
    rw [e]
    exact congrArg (fun t => t % 10 ^ s.length) (by rw [pow_succ]; ring)

theorem limb_loop_spec : ∀ (l : List Nat), (∀ x ∈ l, x < 2 ^ 64) → ∀ (s : List Nat), isDigits s →
    isDigits (limb_loop l.reverse s) ∧ (limb_loop l.reverse s).length = s.length ∧
    dv (limb_loop l.reverse s) = (dv s * 2 ^ (64 * l.length) + mag l) % 10 ^ s.length := by
  intro l
  induction l using List.reverseRecOn with
  | nil =>
    intro _ s hs
    simp only [List.reverse_nil, limb_loop, List.length_nil, Nat.mul_zero, pow_zero, Nat.mul_one,
      mag_nil, Nat.add_zero]
    exact ⟨hs, trivial, (Nat.mod_eq_of_lt (dv_lt s hs)).symm⟩
  | append_singleton l x ih =>
    intro hl s hs
    have hx : x < 2 ^ 64 := hl x (by simp)
    obtain ⟨b1, b2, b3⟩ := bit_loop_spec x 64 s hs
    obtain ⟨i1, i2, i3⟩ := ih (fun y hy => hl y (by simp [hy])) _ b1
    simp only [List.reverse_append, List.reverse_cons, List.reverse_nil, List.nil_append,
      List.singleton_append, limb_loop]
    rw [b2] at i2 i3
    refine ⟨i1, i2, ?_⟩
    rw [i3, b3, Nat.mod_eq_of_lt hx, mod_mul_add, mag_append, mag_cons,
      mag_nil, List.length_append, List.length_singleton]
    exact congrArg (fun t => t % 10 ^ s.length) (by
      rw [show 64 * (l.length + 1) = 64 + 64 * l.length by ring, pow_add]; ring)

theorem dv_zeros (n : Nat) : dv (List.replicate n 48) = 0 := by
  induction n with
  | zero => rfl
  | succ n ih => simp [List.replicate_succ, dv, ih]

theorem isDigits_zeros (n : Nat) : isDigits (List.replicate n 48) := by
  intro c hc
  rw [(List.mem_replicate.mp hc).2]
  omega

theorem two_pow_le_ten_pow (t : Nat) : 2 ^ t ≤ 10 ^ (t / 3 + 1) := by
  have ht : t = 3 * (t / 3) + t % 3 := (Nat.div_add_mod t 3).symm
  have h1 : (2 : Nat) ^ (3 * (t / 3)) ≤ 10 ^ (t / 3) := by
    rw [pow_mul]
    exact Nat.pow_le_pow_left (by norm_num) _
  have h2 : (2 : Nat) ^ (t % 3) ≤ 10 := by
    have : t % 3 < 3 := Nat.mod_lt _ (by norm_num)
    have : (2 : Nat) ^ (t % 3) ≤ 2 ^ 2 := Nat.pow_le_pow_right (by norm_num) (by omega)
    omega
  calc 2 ^ t = 2 ^ (3 * (t / 3)) * 2 ^ (t % 3) := by rw [← pow_add, ← ht]
    _ ≤ 10 ^ (t / 3) * 10 := Nat.mul_le_mul h1 h2
    _ = 10 ^ (t / 3 + 1) := by rw [pow_succ]

/-- The digit buffer of `bn_to_string` after the conversion: only digits, the
length it was allocated with, and the magnitude of `src` as its decimal value. -/
theorem to_string_buf_spec (b : bn) (hb : b.wf) :
    isDigits (to_string_buf b) ∧
    (to_string_buf b).length = 64 * b.size / 3 + 1 + (if b.sign then 1 else 0) ∧
    dv (to_string_buf b) = mag b.number ∧
    mag b.number < 10 ^ (64 * b.size / 3 + 1) := by
  have hlt : mag b.number < 10 ^ (64 * b.size / 3 + 1) :=
    lt_of_lt_of_le (mag_lt b.number hb) (two_pow_le_ten_pow _)
  obtain ⟨h1, h2, h3⟩ := limb_loop_spec b.number hb _
    (isDigits_zeros (64 * b.size / 3 + 1 + (if b.sign then 1 else 0)))
  have hbuf : to_string_buf b = limb_loop b.number.reverse
      (List.replicate (64 * b.size / 3 + 1 + (if b.sign then 1 else 0)) 48) := by
    unfold to_string_buf
    simp only []
    congr 2
    omega
  rw [hbuf]
  rw [List.length_replicate] at h2 h3
  refine ⟨h1, h2, ?_, hlt⟩
  rw [h3, dv_zeros, Nat.zero_mul, Nat.zero_add]
  apply Nat.mod_eq_of_lt
  refine lt_of_lt_of_le hlt (Nat.pow_le_pow_right (by norm_num) (by omega))

theorem skip_zeros_spec : ∀ (s : List Nat), s ≠ [] →
    ∃ c t, s.drop (skip_zeros s) = c :: t ∧ (c ≠ 48 ∨ t = []) ∧ dv (c :: t) = dv s := by
  intro s
  induction s with
  | nil => intro h; exact absurd rfl h
  | cons c0 rest ih =>
    intro _
    cases rest with
    | nil => exact ⟨c0, [], by simp [skip_zeros], Or.inr rfl, rfl⟩
    | cons c1 rest =>
      simp only [skip_zeros]
      split
      · next h0 =>
        obtain ⟨c, t, e1, e2, e3⟩ := ih (by simp)
        refine ⟨c, t, by simpa using e1, e2, ?_⟩
        rw [e3, h0]
        simp [dv]
      · next h0 => exact ⟨c0, c1 :: rest, by simp, Or.inl h0, rfl⟩

theorem dv_eq_ofDigits : ∀ (s : List Nat),
    dv s = Nat.ofDigits 10 ((s.map (fun c => c - 48)).reverse) := by
  intro s
  induction s with
  | nil => simp [dv]
  | cons c rest ih =>
    simp only [dv, List.map_cons, List.reverse_cons, Nat.ofDigits_append, ih, List.length_reverse,
      List.length_map, Nat.ofDigits_singleton]
    ring

theorem decimal_unique (c : Nat) (t : List Nat) (hs : isDigits (c :: t))
    (hc : c ≠ 48 ∨ t = []) :
    (c :: t).map Char.ofNat = decimal (dv (c :: t)) := by
  have hc1 := hs c (by simp)
  by_cases h48 : c = 48
  · have ht : t = [] := by
      rcases hc with h | h
      · exact absurd h48 h
      · exact h
    subst ht; subst h48
    rfl
  · have hpos : dv (c :: t) ≠ 0 := by
      simp only [dv]
      have : 0 < (c - 48) * 10 ^ t.length := Nat.mul_pos (by omega) (by positivity)
      omega
    unfold decimal
    rw [if_neg hpos, dv_eq_ofDigits, Nat.digits_ofDigits 10 (by norm_num)]
    · rw [List.reverse_reverse, List.map_map]
      apply List.map_congr_left
      intro x hx
      have := hs x hx
      simp only [Function.comp]
      congr 1
      omega
    · intro l hl
      simp only [List.mem_reverse, List.mem_map] at hl
      obtain ⟨x, hx, rfl⟩ := hl
      have := hs x hx
      omega
    · intro hne
      simp only [List.map_cons, List.reverse_cons, List.getLast_append_singleton]
      omega

theorem head_zero (c0 : Nat) (rest : List Nat) (hs : isDigits (c0 :: rest))
    (h : dv (c0 :: rest) < 10 ^ rest.length) : c0 = 48 := by
  have hc := hs c0 (by simp)
  by_contra hne
  simp only [dv] at h
  have : 1 * 10 ^ rest.length ≤ (c0 - 48) * 10 ^ rest.length :=
    Nat.mul_le_mul_right _ (by omega)
  omega

/-- The string built by `bn_to_string` is the rendering the specification asks
for, and the `'-'` is stored inside the buffer. -/
theorem bn_to_string_spec (b : bn) (hb : b.wf) : bn_to_string b = some (render b) := by
  obtain ⟨h1, h2, h3, h4⟩ := to_string_buf_spec b hb
  have hne : to_string_buf b ≠ [] := by
    intro h; rw [h] at h2; simp only [List.length_nil] at h2; omega
  obtain ⟨c, t, e1, e2, e3⟩ := skip_zeros_spec _ hne
  have hct : isDigits (c :: t) := by
    intro x hx
    rw [← e1] at hx
    exact h1 x (List.mem_of_mem_drop hx)
  have hdec := decimal_unique c t hct e2
  rw [e3, h3] at hdec
  unfold bn_to_string render
  simp only []
  cases hsg : b.sign
  · simp only [Bool.false_eq_true, if_false, List.nil_append]
    rw [e1, hdec]
  · simp only [if_true]
    rw [hsg] at h2
    have hp : skip_zeros (to_string_buf b) ≠ 0 := by
      cases hbuf : to_string_buf b with
      | nil => exact absurd hbuf hne
      | cons c0 rest =>
        cases rest with
        | nil => rw [hbuf] at h2; simp at h2
        | cons c1 rest =>
          have h0 : c0 = 48 := by
            apply head_zero c0 (c1 :: rest) (hbuf ▸ h1)
            rw [← hbuf, h3]
            rw [hbuf] at h2
            simp only [List.length_cons] at h2 ⊢
            have : rest.length + 1 = 64 * b.size / 3 + 1 := by
              simp only [if_true] at h2; omega
            rw [this]; exact h4
          simp [skip_zeros, h0]
    rw [if_neg hp]
    have hlt : skip_zeros (to_string_buf b) - 1 < (to_string_buf b).length := by
      have hl : ((to_string_buf b).drop (skip_zeros (to_string_buf b))).length = t.length + 1 := by
        rw [e1]; rfl
      rw [List.length_drop] at hl
      omega
    rw [List.set_eq_take_append_cons_drop, if_pos hlt,
      List.drop_append_of_le_length (by simp; omega),
      show skip_zeros (to_string_buf b) - 1 + 1 = skip_zeros (to_string_buf b) by omega, e1]
    have hd : List.drop (skip_zeros (to_string_buf b) - 1)
        (List.take (skip_zeros (to_string_buf b) - 1) (to_string_buf b)) = [] := by simp
    rw [hd, List.nil_append, List.map_cons, hdec]
    rfl

theorem digitChar_eq (d : Nat) (hd : d < 10) : Nat.digitChar d = Char.ofNat (48 + d) := by
  interval_cases d <;> rfl

theorem decimal_step (n : Nat) (hn : n / 10 ≠ 0) :
    decimal n = decimal (n / 10) ++ [Nat.digitChar (n % 10)] := by
  have hpos : 0 < n := by
    rcases Nat.eq_zero_or_pos n with h | h
    · subst h; simp at hn
    · exact h
  unfold decimal
  rw [if_neg (by omega), if_neg hn, Nat.digits_def' (by norm_num) hpos, List.reverse_cons,
    List.map_append, List.map_singleton, digitChar_eq _ (Nat.mod_lt _ (by norm_num))]

theorem decimal_small (n : Nat) (hn : n / 10 = 0) : decimal n = [Nat.digitChar (n % 10)] := by
  have hlt : n < 10 := by
    rcases Nat.lt_or_ge n 10 with h | h
    · exact h
    · have := Nat.div_pos h (by norm_num : 0 < 10); omega
  interval_cases n <;> simp [decimal] <;> rfl

theorem toDigitsCore_eq : ∀ (fuel n : Nat) (acc : List Char), n < fuel →
    Nat.toDigitsCore 10 fuel n acc = decimal n ++ acc := by
  intro fuel
  induction fuel with
  | zero => intro n acc h; omega
  | succ fuel ih =>
    intro n acc h
    simp only [Nat.toDigitsCore]
    split
    · next h0 => rw [decimal_small n h0]; rfl
    · next h0 =>
      have hlt : n / 10 < fuel := by
        have : n / 10 < n := Nat.div_lt_self (by
          rcases Nat.eq_zero_or_pos n with hz | hz
          · subst hz; simp at h0
          · exact hz) (by norm_num)
        omega
      rw [ih _ _ hlt, decimal_step n h0]
      simp

/-- The digits of `decimal` are the standard rendering `Nat.repr` of a natural
number. -/
theorem repr_eq_decimal (n : Nat) : Nat.repr n = String.mk (decimal n) := by
  unfold Nat.repr Nat.toDigits
  rw [toDigitsCore_eq _ _ _ (Nat.lt_succ_self n)]
  simp [List.asString]

theorem render_eq (b : bn) :
    render b = (if b.sign then "-" else "") ++ Nat.repr (mag b.number) := by
  unfold render
  rw [repr_eq_decimal]
  cases b.sign <;> rfl

/-- C2. For every object with 64-bit limbs (of any size, trimmed or not),
`bn_to_string` returns the base-10 digits of the magnitude
`sum of number[i] * 2 ^ (64 * i)` without leading zeros (`"0"` for zero), as
`Nat.repr` writes them, after one `'-'` exactly when the sign is set. -/
theorem C2_bn_to_string_decimal (b : bn) (hb : b.wf) :
    bn_to_string b = some ((if b.sign then "-" else "") ++ Nat.repr (mag b.number)) := by
  rw [bn_to_string_spec b hb, render_eq]

theorem C2_bn_to_string_decimal_witness :
    bn.wf ⟨[2 ^ 64 - 1, 2 ^ 64 - 1, 0], true⟩ ∧
    bn_to_string ⟨[2 ^ 64 - 1, 2 ^ 64 - 1, 0], true⟩ =
      some ((if (bn.mk [2 ^ 64 - 1, 2 ^ 64 - 1, 0] true).sign then "-" else "") ++
        Nat.repr (mag (bn.mk [2 ^ 64 - 1, 2 ^ 64 - 1, 0] true).number)) :=
  ⟨by decide, C2_bn_to_string_decimal ⟨[2 ^ 64 - 1, 2 ^ 64 - 1, 0], true⟩ (by decide)⟩

theorem to_string_fib (size n : Nat) (h32 : n < 2 ^ 32) :
    bn_to_string (bn_fib_fdoubling_nocpy (bn_alloc size) n) =
      some (String.mk (decimal (Nat.fib n))) := by
  obtain ⟨h1, -, h3, h4, -⟩ := fib_nocpy_loose (bn_alloc size) n rfl h32
  rw [bn_to_string_spec _ h1]
  unfold render
  rw [h3, h4]
  rfl

/-- C3. On a freshly allocated `dest`, `bn_to_string` of the result of
`bn_fib_fdoubling_nocpy` is `"55"` for `n = 10`, `"0"` for `n = 0` and
`"12200160415121876738"` for `n = 93`. -/
theorem C3_render_known_values (size : Nat) :
    bn_to_string (bn_fib_fdoubling_nocpy (bn_alloc size) 10) = some "55" ∧
    bn_to_string (bn_fib_fdoubling_nocpy (bn_alloc size) 0) = some "0" ∧
    bn_to_string (bn_fib_fdoubling_nocpy (bn_alloc size) 93) = some "12200160415121876738" := by
  refine ⟨?_, ?_, ?_⟩
  · rw [to_string_fib size 10 (by norm_num)]
    exact congrArg some (show String.mk (decimal (Nat.fib 10)) = "55" by decide!)
  · rw [to_string_fib size 0 (by norm_num)]
    exact congrArg some (show String.mk (decimal (Nat.fib 0)) = "0" by decide!)
  · rw [to_string_fib size 93 (by norm_num)]
    have h93 : Nat.fib 93 = 12200160415121876738 := by norm_num
    have hd : decimal 12200160415121876738 = "12200160415121876738".data := by
      unfold decimal
      rw [if_neg (by norm_num)]
      norm_num
    rw [h93, hd]

/-- C4. For canonical `a` and `b` and any output `c` (in particular one distinct
from both), `bn_add(a, b, c)` leaves in `c` the signed value
`value(a) + value(b)`, whatever the two signs are. -/
theorem C4_bn_add_value {P : Type} [DecidableEq P] (a b c : P) (h : Heap P)
    (ha : (h.get a).canonical) (hb : (h.get b).canonical) :
    ((bn_add a b c h).get c).value = (h.get a).value + (h.get b).value := by
  rw [bn_add_eq, Heap.get_set_same]
  exact (add_res_spec _ _ ha hb).1

theorem C4_bn_add_value_witness :
    (bn.canonical ⟨[5, 1], true⟩ ∧ bn.canonical ⟨[7], false⟩) ∧
    ((bn_add 0 1 2 (heap3 ⟨[5, 1], true⟩ ⟨[7], false⟩ ⟨[0], false⟩)).get 2).value =
      ((heap3 ⟨[5, 1], true⟩ ⟨[7], false⟩ ⟨[0], false⟩).get 0).value +
      ((heap3 ⟨[5, 1], true⟩ ⟨[7], false⟩ ⟨[0], false⟩).get 1).value :=
  ⟨⟨by decide, by decide⟩,
    C4_bn_add_value 0 1 2 (heap3 ⟨[5, 1], true⟩ ⟨[7], false⟩ ⟨[0], false⟩)
      (by decide) (by decide)⟩

/-- C5. For canonical `a` and `b` and an output `c` that is not `b`,
`bn_sub(a, b, c)` leaves in `c` the signed value `value(a) - value(b)`, and `b`
keeps its sign, size and limbs. -/
theorem C5_bn_sub_value {P : Type} [DecidableEq P] (a b c : P) (h : Heap P) (hcb : c ≠ b)
    (ha : (h.get a).canonical) (hb : (h.get b).canonical) :
    ((bn_sub a b c h).get c).value = (h.get a).value - (h.get b).value ∧
    (bn_sub a b c h).get b = h.get b := by
  rw [bn_sub_eq, Heap.get_set_same, Heap.get_set_ne _ _ (Ne.symm hcb)]
  exact ⟨(sub_res_spec _ _ ha hb).1, rfl⟩

theorem C5_bn_sub_value_witness :
    ((2 : Nat) ≠ 1 ∧ bn.canonical ⟨[5, 1], true⟩ ∧ bn.canonical ⟨[7], false⟩) ∧
    (((bn_sub 0 1 2 (heap3 ⟨[5, 1], true⟩ ⟨[7], false⟩ ⟨[0], false⟩)).get 2).value =
      ((heap3 ⟨[5, 1], true⟩ ⟨[7], false⟩ ⟨[0], false⟩).get 0).value -
      ((heap3 ⟨[5, 1], true⟩ ⟨[7], false⟩ ⟨[0], false⟩).get 1).value ∧
    (bn_sub 0 1 2 (heap3 ⟨[5, 1], true⟩ ⟨[7], false⟩ ⟨[0], false⟩)).get 1 =
      (heap3 ⟨[5, 1], true⟩ ⟨[7], false⟩ ⟨[0], false⟩).get 1) :=
  ⟨⟨by decide, by decide, by decide⟩,
    C5_bn_sub_value 0 1 2 (heap3 ⟨[5, 1], true⟩ ⟨[7], false⟩ ⟨[0], false⟩)
      (by decide) (by decide) (by decide)⟩

/-- C6. For `a` and `b` with 64-bit limbs and any output `c` (also `a` or `b`
itself), `bn_mult(a, b, c)` leaves in `c` the magnitude
`magnitude(a) * magnitude(b)` exactly, with sign `a.sign XOR b.sign`. -/
theorem C6_bn_mult_exact {P : Type} [DecidableEq P] (a b c : P) (h : Heap P)
    (ha : (h.get a).wf) (hb : (h.get b).wf) :
    mag ((bn_mult a b c h).get c).number = mag (h.get a).number * mag (h.get b).number ∧
    ((bn_mult a b c h).get c).sign = xor (h.get a).sign (h.get b).sign := by
  rw [bn_mult_eq, Heap.get_set_same]
  obtain ⟨m1, -, -, m4⟩ := mult_res_spec _ _ ha hb
  exact ⟨m1, m4⟩

theorem C6_bn_mult_exact_witness :
    (bn.wf ⟨[2 ^ 64 - 1, 2 ^ 64 - 1, 0], true⟩ ∧ bn.wf ⟨[2 ^ 64 - 1], false⟩) ∧
    (mag ((bn_mult 0 1 2 (heap3 ⟨[2 ^ 64 - 1, 2 ^ 64 - 1, 0], true⟩ ⟨[2 ^ 64 - 1], false⟩
        ⟨[3], true⟩)).get 2).number =
      mag ((heap3 ⟨[2 ^ 64 - 1, 2 ^ 64 - 1, 0], true⟩ ⟨[2 ^ 64 - 1], false⟩
        ⟨[3], true⟩).get 0).number *
      mag ((heap3 ⟨[2 ^ 64 - 1, 2 ^ 64 - 1, 0], true⟩ ⟨[2 ^ 64 - 1], false⟩
        ⟨[3], true⟩).get 1).number ∧
    ((bn_mult 0 1 2 (heap3 ⟨[2 ^ 64 - 1, 2 ^ 64 - 1, 0], true⟩ ⟨[2 ^ 64 - 1], false⟩
        ⟨[3], true⟩)).get 2).sign =
      xor ((heap3 ⟨[2 ^ 64 - 1, 2 ^ 64 - 1, 0], true⟩ ⟨[2 ^ 64 - 1], false⟩
        ⟨[3], true⟩).get 0).sign
      ((heap3 ⟨[2 ^ 64 - 1, 2 ^ 64 - 1, 0], true⟩ ⟨[2 ^ 64 - 1], false⟩
        ⟨[3], true⟩).get 1).sign) :=
  ⟨⟨by decide, by decide⟩,
    C6_bn_mult_exact 0 1 2 (heap3 ⟨[2 ^ 64 - 1, 2 ^ 64 - 1, 0], true⟩ ⟨[2 ^ 64 - 1], false⟩
      ⟨[3], true⟩) (by decide) (by decide)⟩

/-- C7. At the input `a = -5` (one limb `5`, sign set; canonical) and canonical
zero, `bn_mult(a, zero, c)` leaves a zero with the sign set in `c`, and at
`a = 2 ^ 64` (limbs `0, 1`; canonical) it leaves two zero limbs: in neither case
is `c` the canonical zero (one limb `0`, sign clear) that the claim states. -/
theorem C7_bn_mult_zero_failing_input :
    (bn.canonical ⟨[5], true⟩ ∧
      (bn_mult 0 1 2 (heap3 ⟨[5], true⟩ ⟨[0], false⟩ ⟨[0], false⟩)).get 2 = ⟨[0], true⟩ ∧
      (bn_mult 0 1 2 (heap3 ⟨[5], true⟩ ⟨[0], false⟩ ⟨[0], false⟩)).get 2 ≠ ⟨[0], false⟩) ∧
    (bn.canonical ⟨[0, 1], false⟩ ∧
      (bn_mult 0 1 2 (heap3 ⟨[0, 1], false⟩ ⟨[0], false⟩ ⟨[0], false⟩)).get 2 =
        ⟨[0, 0], false⟩ ∧
      (bn_mult 0 1 2 (heap3 ⟨[0, 1], false⟩ ⟨[0], false⟩ ⟨[0], false⟩)).get 2 ≠
        ⟨[0], false⟩) := by
  decide!

/-- What `bn_mult(a, zero, c)` leaves in `c` for a canonical `a` and canonical
zero: as many zero limbs as `a` has limbs, with the sign of `a`. -/
theorem bn_mult_zero_result {P : Type} [DecidableEq P] (a z c : P) (h : Heap P)
    (ha : (h.get a).canonical) (hz : h.get z = ⟨[0], false⟩) :
    (bn_mult a z c h).get c = ⟨List.replicate (h.get a).size 0, (h.get a).sign⟩ := by
  rw [bn_mult_eq, Heap.get_set_same, hz]
  exact mult_res_zero _ ha

/-- C8. For every `a` (any sign, any limbs, trimmed or not) and an output `c`
that is not `a`, `bn_sub(a, a, c)` leaves canonical zero in `c`: one limb `0`,
sign clear. -/
theorem C8_bn_sub_self {P : Type} [DecidableEq P] (a c : P) (h : Heap P) (_hca : c ≠ a) :
    (bn_sub a a c h).get c = ⟨[0], false⟩ := by
  rw [bn_sub_eq, Heap.get_set_same]
  exact sub_res_self _

theorem C8_bn_sub_self_witness :
    ((2 : Nat) ≠ 0) ∧
    (bn_sub 0 0 2 (heap3 ⟨[7, 0, 0], true⟩ ⟨[1], false⟩ ⟨[3, 4], true⟩)).get 2 = ⟨[0], false⟩ :=
  ⟨by decide, C8_bn_sub_self 0 2 (heap3 ⟨[7, 0, 0], true⟩ ⟨[1], false⟩ ⟨[3, 4], true⟩)
    (by decide)⟩

/-- C9. `bn_add` is commutative on all objects: `bn_add(a, b, c)` and
`bn_add(b, a, c')` leave the same sign, size and limbs in their outputs. -/
theorem C9_bn_add_comm {P : Type} [DecidableEq P] (a b c c' : P) (h : Heap P) :
    (bn_add a b c h).get c = (bn_add b a c' h).get c' := by
  rw [bn_add_eq, bn_add_eq, Heap.get_set_same, Heap.get_set_same]
  exact add_res_comm _ _

/-- C10. `bn_add` is associative on canonical objects: adding `c` to the result
`t` of `bn_add(a, b, t)` and adding `a` to the result `t` of `bn_add(b, c, t)`
leave the same sign, size and limbs in the output `r` (`t` being neither `a`
nor `c`, which are read after `t` is written). -/
theorem C10_bn_add_assoc {P : Type} [DecidableEq P] (a b c t r : P) (h : Heap P)
    (hta : t ≠ a) (htc : t ≠ c)
    (ha : (h.get a).canonical) (hb : (h.get b).canonical) (hc : (h.get c).canonical) :
    (bn_add t c r (bn_add a b t h)).get r = (bn_add t a r (bn_add b c t h)).get r := by
  simp only [bn_add_eq, Heap.get_set_same, Heap.get_set_ne _ _ (Ne.symm hta),
    Heap.get_set_ne _ _ (Ne.symm htc)]
  exact add_res_assoc _ _ _ ha hb hc

theorem C10_bn_add_assoc_witness :
    (((3 : Nat) ≠ 0 ∧ (3 : Nat) ≠ 2) ∧ bn.canonical ⟨[2 ^ 64 - 1], false⟩ ∧
      bn.canonical ⟨[1], false⟩ ∧ bn.canonical ⟨[0, 1], true⟩) ∧
    (bn_add 3 2 4 (bn_add 0 1 3
        ⟨fun p => if p = 0 then ⟨[2 ^ 64 - 1], false⟩ else if p = 1 then ⟨[1], false⟩
          else ⟨[0, 1], true⟩⟩)).get 4 =
      (bn_add 3 0 4 (bn_add 1 2 3
        ⟨fun p => if p = 0 then ⟨[2 ^ 64 - 1], false⟩ else if p = 1 then ⟨[1], false⟩
          else ⟨[0, 1], true⟩⟩)).get 4 :=
  ⟨⟨⟨by decide, by decide⟩, by decide, by decide, by decide⟩,
    C10_bn_add_assoc 0 1 2 3 4
      ⟨fun p => if p = 0 then ⟨[2 ^ 64 - 1], false⟩ else if p = 1 then ⟨[1], false⟩
        else ⟨[0, 1], true⟩⟩
      (by decide) (by decide) (by decide) (by decide) (by decide)⟩

theorem tail_take (l : List Nat) (n : Nat) : l.tail.take n = (l.take (n + 1)).tail := by
  cases l <;> simp

theorem shlLimbs_take (s : Nat) : ∀ (L : List Nat) (prev k : Nat),
    (shlLimbs s prev L).take k = shlLimbs s prev (L.take k) := by
  intro L
  induction L with
  | nil => intro prev k; simp [shlLimbs]
  | cons x xs ih =>
    intro prev k
    cases k with
    | zero => simp [shlLimbs]
    | succ k => simp [shlLimbs, ih]

/-- The in-place loop of `bn_lshift` computes the same limbs as the loop of
`bn_lshift2`: each step reads only limbs that have not been written yet. -/
theorem bn_lshift_loop_eq (s : Nat) :
    ∀ (i : Nat) (b : bn), i < b.number.length →
    bn_lshift_loop s i b =
      { b with number :=
        (b.number.take 1 ++ (shlLimbs s 0 b.number).tail.take i ++ b.number.drop (i + 1)) } := by
  intro i
  induction i with
  | zero =>
    intro b _
    simp only [bn_lshift_loop, List.take_zero, List.append_nil, List.take_append_drop]
  | succ i ih =>
    intro b hb
    simp only [bn_lshift_loop]
    rw [ih _ (by simp only [List.length_set]; omega)]
    congr 1
    simp only []
    rw [take_set_le _ _ _ _ (by omega)]
    have hpre : (shlLimbs s 0 (b.number.set (i + 1)
        (((limb b (i + 1) * 2 ^ s) % 2 ^ 64 ||| limb b i / 2 ^ (64 - s)) % 2 ^ 64))).tail.take i =
        (shlLimbs s 0 b.number).tail.take i := by
      rw [tail_take, tail_take, shlLimbs_take, shlLimbs_take, take_set_le _ _ _ _ (by omega)]
    rw [hpre, List.set_eq_take_append_cons_drop, if_pos hb,
      List.drop_append_of_le_length (by simp; omega)]
    have hW : (shlLimbs s 0 b.number).tail.take (i + 1) =
        (shlLimbs s 0 b.number).tail.take i ++
          [((limb b (i + 1) * 2 ^ s) % 2 ^ 64 ||| limb b i / 2 ^ (64 - s)) % 2 ^ 64] := by
      have hlen : i < (shlLimbs s 0 b.number).tail.length := by
        simp [shlLimbs_length]; omega
      rw [List.take_succ, List.getElem?_eq_getElem hlen]
      congr 1
      have := shl_getD_succ s b.number 0 i hb
      rw [List.getD_eq_getElem?_getD, List.getElem?_eq_getElem (by
        simp [shlLimbs_length]; omega)] at this
      simp only [Option.getD_some] at this
      simp only [Option.toList, List.getElem_tail, limb]
      rw [this]
    rw [hW]
    have hdrop : List.drop (i + 1) (List.take (i + 1) b.number) = [] := by
      simp
    rw [hdrop]
    simp

/-- `bn_lshift` stores in `src` what `bn_lshift2` stores in `dest`. -/
theorem bn_lshift_eq (b : bn) (shift : Nat) (hs : shift % 64 ≠ 0) (h1 : 1 ≤ b.size) :
    bn_lshift b shift =
      ⟨shlLimbs (shift % 64) 0 (lshift2_src b shift).number, b.sign⟩ := by
  unfold bn_lshift
  simp only [if_neg hs]
  have hsize : 1 ≤ (lshift2_src b shift).size := by
    unfold lshift2_src; split
    · rw [resize_size]; omega
    · exact h1
  have hsign : (lshift2_src b shift).sign = b.sign := by
    unfold lshift2_src; split
    · exact resize_sign _ _
    · rfl
  have key : (if shift % 64 > bn_clz b then bn_resize b (b.size + 1) else b) =
      lshift2_src b shift := rfl
  rw [key]
  obtain ⟨S, hS⟩ : ∃ S, S = lshift2_src b shift := ⟨_, rfl⟩
  rw [← hS] at hsize hsign ⊢
  have hS1 : 1 ≤ S.number.length := hsize
  rw [bn_lshift_loop_eq _ _ _ (by unfold bn.size; omega)]
  simp only [limb]
  have e1 : List.drop (S.size - 1 + 1) S.number = [] := by
    apply List.drop_of_length_le
    unfold bn.size; omega
  have e2 : List.take (S.size - 1) (shlLimbs (shift % 64) 0 S.number).tail =
      (shlLimbs (shift % 64) 0 S.number).tail := by
    apply List.take_of_length_le
    simp [shlLimbs_length, bn.size]
  rw [e1, e2, List.append_nil, hsign]
  have hh : (List.take 1 S.number ++ (shlLimbs (shift % 64) 0 S.number).tail).getD 0 0 =
      S.number.getD 0 0 := by
    cases hn : S.number with
    | nil => rw [hn] at hS1; simp at hS1
    | cons x xs => simp
  rw [hh, shl_head _ _ _ hS1 (by simp only [List.length_take]; omega)]

section heap
variable {P : Type} [DecidableEq P]

/-- `bn_cpy` makes `dest` an exact copy of `src`. -/
theorem bn_cpy_eq (dest src : P) (h : Heap P) (hne : dest ≠ src) :
    bn_cpy dest src h = h.set dest (h.get src) := by
  unfold bn_cpy setSign
  simp only [Heap.get_set_same, Heap.get_set_ne _ _ (Ne.symm hne), Heap.set_set]
  congr 1
  have hlen : (bn_resize (h.get dest) (h.get src).size).number.length = (h.get src).size :=
    resize_size _ _
  rw [List.drop_of_length_le (by omega), List.append_nil]

end heap

theorem val_of_loose (b : bn) (v : Nat) (h : holds_loose b v) : holds_val b v :=
  ⟨h.1, h.2.1, h.2.2.1, h.2.2.2.1⟩

theorem val_of_trim (b : bn) (v : Nat) (h : holds_trim b v) : holds_val b v :=
  ⟨h.1, h.2.1, h.2.2.1, h.2.2.2.1⟩

theorem mult_val (a b : bn) (x y : Nat) (ha : holds_val a x) (hb : holds_val b y) :
    holds_val (mult_res a b) (x * y) := by
  obtain ⟨m1, m2, m3, m4⟩ := mult_res_spec a b ha.1 hb.1
  obtain ⟨d1, -, -⟩ := limbs_for_spec (bn_msb a + bn_msb b)
  exact ⟨m2, by rw [m3]; exact d1, by rw [m4, ha.2.2.1, hb.2.2.1]; rfl,
    by rw [m1, ha.2.2.2, hb.2.2.2]⟩

theorem add_val (a b : bn) (x y : Nat) (ha : holds_val a x) (hb : holds_val b y) :
    holds_val (add_res a b) (x + y) :=
  val_of_trim _ _ (add_trim a b x y ha.1 hb.1 ha.2.2.2 hb.2.2.2 ha.2.2.1 hb.2.2.1)

/-! ### `bn_fib_fdoubling_Q_Matrix` -/

theorem fib_qm_body_eq (bit : Bool) (h : Heap FibVar) (h1 : 1 ≤ (h.get FibVar.f1).size) :
    fib_qm_body bit h = ⟨fun p => match p with
      | FibVar.f1 =>
        if bit then
          mult_res (add_res (fibT (h.get FibVar.f1) (h.get FibVar.k1)) (h.get FibVar.f2))
            (h.get FibVar.f2)
        else add_res (fibX (h.get FibVar.f1)) (fibW (h.get FibVar.f2))
      | FibVar.f2 =>
        if bit then
          add_res
            (mult_res (add_res (fibT (h.get FibVar.f1) (h.get FibVar.k1)) (h.get FibVar.f2))
              (h.get FibVar.f2))
            (add_res (fibX (h.get FibVar.f1)) (fibW (h.get FibVar.f2)))
        else
          mult_res (add_res (fibT (h.get FibVar.f1) (h.get FibVar.k1)) (h.get FibVar.f2))
            (h.get FibVar.f2)
      | FibVar.k1 => fibW (h.get FibVar.f2)
      | FibVar.k2 => fibX (h.get FibVar.f1)⟩ := by
  unfold fib_qm_body
  simp only []
  rw [bn_lshift2_eq _ _ (by decide) _ _ (by norm_num) h1]
  simp only [bn_mult_eq, bn_add_eq, bn_swap]
  apply Heap.ext_get
  intro p
  cases bit <;> cases p <;>
    simp [Heap.get_set, fibT, fibW, fibX]

theorem fib_qm_body_inv (bit : Bool) (k : Nat) (h : Heap FibVar) (hi : qm_inv k h) :
    qm_inv (2 * k + (if bit then 1 else 0)) (fib_qm_body bit h) := by
  obtain ⟨hk, hA, hB, hK⟩ := hi
  rw [fib_qm_body_eq bit h hA.2.1]
  obtain ⟨m, rfl⟩ : ∃ m, k = m + 1 := ⟨k - 1, by omega⟩
  simp only [Nat.add_sub_cancel] at hA
  obtain ⟨g1, g2, g3, g4, g5, g6, g7, -⟩ := lshift2_spec (h.get FibVar.f1) 1 hA.1 hA.2.1
    (by norm_num)
  have hA' : holds_val (lshift2_src (h.get FibVar.f1) 1) (Nat.fib m) :=
    ⟨g1, g3, g4.trans hA.2.2.1, g2.trans hA.2.2.2⟩
  have hT : holds_val (fibT (h.get FibVar.f1) (h.get FibVar.k1)) (2 * Nat.fib m) := by
    refine ⟨g5, g6, hK, ?_⟩
    show mag (shlLimbs (1 % 64) 0 (lshift2_src (h.get FibVar.f1) 1).number) = 2 * Nat.fib m
    rw [g7, hA.2.2.2]; norm_num; ring
  have hU := add_val _ _ _ _ hT hB
  have hV : holds_val
      (mult_res (add_res (fibT (h.get FibVar.f1) (h.get FibVar.k1)) (h.get FibVar.f2))
        (h.get FibVar.f2)) (Nat.fib (2 * m + 2)) := by
    have := mult_val _ _ _ _ hU hB
    have e : Nat.fib (2 * m + 2) = (2 * Nat.fib m + Nat.fib (m + 1)) * Nat.fib (m + 1) := by
      have e1 := Nat.fib_two_mul (m + 1)
      have e2 : Nat.fib (m + 1 + 1) = Nat.fib m + Nat.fib (m + 1) := Nat.fib_add_two
      have e3 : Nat.fib m ≤ Nat.fib (m + 1) := Nat.fib_le_fib_succ
      rw [show 2 * (m + 1) = 2 * m + 2 by ring, e2] at e1
      rw [e1, show 2 * (Nat.fib m + Nat.fib (m + 1)) - Nat.fib (m + 1) =
        2 * Nat.fib m + Nat.fib (m + 1) by omega]
      ring
    rw [e]; exact this
  have hW : holds_val (fibW (h.get FibVar.f2)) (Nat.fib (m + 1) * Nat.fib (m + 1)) :=
    mult_val _ _ _ _ hB hB
  have hX : holds_val (fibX (h.get FibVar.f1)) (Nat.fib m * Nat.fib m) :=
    mult_val _ _ _ _ hA' hA'
  have hY : holds_val (add_res (fibX (h.get FibVar.f1)) (fibW (h.get FibVar.f2)))
      (Nat.fib (2 * m + 1)) := by
    have := add_val _ _ _ _ hX hW
    rw [Nat.fib_two_mul_add_one, Nat.add_comm, pow_two, pow_two]
    exact this
  have hZ := add_val _ _ _ _ hV hY
  have e3 : Nat.fib (2 * m + 2) + Nat.fib (2 * m + 1) = Nat.fib (2 * m + 3) := by
    have h3 := @Nat.fib_add_two (2 * m + 1)
    rw [show 2 * m + 1 + 2 = 2 * m + 3 by ring, show 2 * m + 1 + 1 = 2 * m + 2 by ring] at h3
    omega
  rw [e3] at hZ
  cases bit
  · refine ⟨by split <;> omega, ?_, ?_, hW.2.2.1⟩
    · simpa [show 2 * (m + 1) - 1 = 2 * m + 1 by omega] using hY
    · simpa [show 2 * (m + 1) = 2 * m + 2 by ring] using hV
  · refine ⟨by split <;> omega, ?_, ?_, hW.2.2.1⟩
    · simpa [show 2 * (m + 1) + 1 - 1 = 2 * m + 2 by omega] using hV
    · simpa [show 2 * (m + 1) + 1 = 2 * m + 3 by ring] using hZ

theorem fib_qm_loop_inv (n : Nat) : ∀ (j fuel : Nat) (h : Heap FibVar), j + 1 ≤ fuel →
    qm_inv (n / 2 ^ (j + 1)) h → qm_inv n (fib_qm_loop n fuel (2 ^ j) h) := by
  intro j
  induction j with
  | zero =>
    intro fuel h hf hi
    obtain ⟨fuel, rfl⟩ : ∃ f, fuel = f + 1 := ⟨fuel - 1, by omega⟩
    have hb := fib_qm_body_inv (decide (n &&& 2 ^ 0 ≠ 0)) _ h hi
    rw [bit_step n 0] at hb
    simp only [fib_qm_loop, pow_zero, ne_eq, one_ne_zero, not_false_eq_true, if_true,
      Nat.reduceDiv]
    simp only [pow_zero, Nat.div_one] at hb
    cases fuel with
    | zero => simpa [fib_qm_loop] using hb
    | succ f => simpa [fib_qm_loop] using hb
  | succ j ih =>
    intro fuel h hf hi
    obtain ⟨fuel, rfl⟩ : ∃ f, fuel = f + 1 := ⟨fuel - 1, by omega⟩
    have hb := fib_qm_body_inv (decide (n &&& 2 ^ (j + 1) ≠ 0)) _ h hi
    rw [bit_step n (j + 1)] at hb
    have hne : (2 : Nat) ^ (j + 1) ≠ 0 := by positivity
    have hdiv : (2 : Nat) ^ (j + 1) / 2 = 2 ^ j := by
      rw [pow_succ, Nat.mul_div_cancel _ (by norm_num)]
    simp only [fib_qm_loop, if_pos hne, hdiv]
    exact ih fuel _ (by omega) hb

theorem fib_qm_init_inv (dest : bn) (hs : dest.sign = false) :
    qm_inv 1 (fib_qm_init (bn_resize dest 1)) := by
  obtain ⟨x, hx⟩ := resize_one dest
  have hsg : (bn_resize dest 1).sign = false := (resize_sign dest 1).trans hs
  refine ⟨le_refl 1, ⟨?_, ?_, ?_, ?_⟩, ⟨?_, ?_, ?_, ?_⟩, ?_⟩ <;>
    simp [fib_qm_init, bn.wf, bn.size, hx, hsg, bn_alloc, mag_cons, mag_nil]

theorem fib_qm_top_bit (n : Nat) (h2 : 2 ≤ n) (h32 : n < 2 ^ 32) :
    2 ^ (30 - clz32 n) % 2 ^ 32 = 2 ^ (Nat.log2 n - 1) ∧ n / 2 ^ (Nat.log2 n - 1 + 1) = 1 ∧
      Nat.log2 n - 1 + 1 ≤ 32 := by
  have h0 : n ≠ 0 := by omega
  have hlog : Nat.log2 n < 32 := (Nat.log2_lt h0).mpr h32
  have hlog1 : 1 ≤ Nat.log2 n := by
    by_contra hc
    have : Nat.log2 n = 0 := by omega
    have h3 := @Nat.lt_log2_self n
    rw [this] at h3
    norm_num at h3
    omega
  unfold clz32
  rw [show 30 - (31 - Nat.log2 n) = Nat.log2 n - 1 by omega,
    show Nat.log2 n - 1 + 1 = Nat.log2 n by omega]
  refine ⟨Nat.mod_eq_of_lt (Nat.pow_lt_pow_right (by norm_num) (by omega)), ?_, by omega⟩
  have hlo := Nat.log2_self_le h0
  have hhi := @Nat.lt_log2_self n
  rw [pow_succ] at hhi
  apply Nat.le_antisymm
  · have := (Nat.div_lt_iff_lt_mul (by positivity : 0 < 2 ^ Nat.log2 n)).mpr
      (by rw [Nat.mul_comm]; exact hhi : n < 2 * 2 ^ Nat.log2 n)
    omega
  · exact (Nat.le_div_iff_mul_le (by positivity)).mpr (by simpa using hlo)

/-- The object left in `dest` by `bn_fib_fdoubling_Q_Matrix` is non-negative,
has 64-bit limbs and magnitude `fib n`. -/
theorem fib_qm_val (dest : bn) (n : Nat) (hs : dest.sign = false) (h32 : n < 2 ^ 32) :
    holds_val (bn_fib_fdoubling_Q_Matrix dest n) (Nat.fib n) := by
  unfold bn_fib_fdoubling_Q_Matrix
  simp only []
  split
  · next hlt =>
    obtain ⟨x, hx⟩ := resize_one dest
    have hsg : (bn_resize dest 1).sign = false := (resize_sign dest 1).trans hs
    have hn : n = 0 ∨ n = 1 := by omega
    rcases hn with rfl | rfl <;>
      refine ⟨?_, ?_, ?_, ?_⟩ <;>
      simp [bn.wf, bn.size, hx, hsg, mag_cons, mag_nil]
  · next hge =>
    obtain ⟨e1, e2, e3⟩ := fib_qm_top_bit n (by omega) h32
    rw [e1]
    have h0 : qm_inv (n / 2 ^ (Nat.log2 n - 1 + 1)) (fib_qm_init (bn_resize dest 1)) := by
      rw [e2]; exact fib_qm_init_inv dest hs
    exact (fib_qm_loop_inv n (Nat.log2 n - 1) 32 _ e3 h0).2.2.1

/-! ### `bn_fib_fdoubling` -/

theorem fib_cpy_body_eq (bit : Bool) (h : Heap FibVar) (h1 : 1 ≤ (h.get FibVar.f2).size) :
    fib_cpy_body bit h = ⟨fun p => match p with
      | FibVar.f1 =>
        if bit then add_res (fibW (h.get FibVar.f1)) (fibW (h.get FibVar.f2))
        else fibV (h.get FibVar.f1) (h.get FibVar.f2) (h.get FibVar.f2)
      | FibVar.f2 =>
        if bit then
          add_res (fibV (h.get FibVar.f1) (h.get FibVar.f2) (h.get FibVar.f2))
            (add_res (fibW (h.get FibVar.f1)) (fibW (h.get FibVar.f2)))
        else add_res (fibW (h.get FibVar.f1)) (fibW (h.get FibVar.f2))
      | FibVar.k1 => fibV (h.get FibVar.f1) (h.get FibVar.f2) (h.get FibVar.f2)
      | FibVar.k2 => add_res (fibW (h.get FibVar.f1)) (fibW (h.get FibVar.f2))⟩ := by
  unfold fib_cpy_body
  simp only []
  rw [bn_cpy_eq FibVar.k1 FibVar.f2 h (by decide)]
  simp only [Heap.get_set_same]
  rw [bn_lshift_eq _ 1 (by norm_num) h1]
  simp only [bn_sub_eq, bn_mult_eq, bn_add_eq]
  simp only [bn_cpy_eq FibVar.k2 FibVar.f1 _ (by decide),
    bn_cpy_eq FibVar.f1 FibVar.k2 _ (by decide), bn_cpy_eq FibVar.f2 FibVar.k1 _ (by decide),
    bn_cpy_eq FibVar.f1 FibVar.k1 _ (by decide), bn_cpy_eq FibVar.f2 FibVar.k2 _ (by decide),
    bn_add_eq]
  apply Heap.ext_get
  intro p
  cases bit <;> cases p <;>
    simp [Heap.get_set, fibT, fibU, fibV, fibW]

theorem fib_cpy_body_inv (bit : Bool) (k : Nat) (h : Heap FibVar) (hi : fib_inv k h) :
    fib_inv (2 * k + (if bit then 1 else 0)) (fib_cpy_body bit h) := by
  obtain ⟨hA, hB, hK⟩ := hi
  rw [fib_cpy_body_eq bit h hB.2.1]
  obtain ⟨s1, -, -, -⟩ := fib_step _ _ _ k hA hB hB.2.2.1
  have hW := mult_val _ _ _ _ (val_of_loose _ _ hA) (val_of_loose _ _ hA)
  have hX := mult_val _ _ _ _ (val_of_trim _ _ hB) (val_of_trim _ _ hB)
  have hY : holds_trim (add_res (fibW (h.get FibVar.f1)) (fibW (h.get FibVar.f2)))
      (Nat.fib (2 * k + 1)) := by
    rw [Nat.fib_two_mul_add_one, Nat.add_comm, pow_two, pow_two]
    exact add_trim _ _ _ _ hW.1 hX.1 hW.2.2.2 hX.2.2.2 hW.2.2.1 hX.2.2.1
  have hZ : holds_trim
      (add_res (fibV (h.get FibVar.f1) (h.get FibVar.f2) (h.get FibVar.f2))
        (add_res (fibW (h.get FibVar.f1)) (fibW (h.get FibVar.f2))))
      (Nat.fib (2 * k + 1 + 1)) := by
    have : Nat.fib (2 * k + 1 + 1) = Nat.fib (2 * k) + Nat.fib (2 * k + 1) := Nat.fib_add_two
    rw [this]
    exact add_trim _ _ _ _ s1.1 hY.1 s1.2.2.2.1 hY.2.2.2.1 s1.2.2.1 hY.2.2.1
  cases bit
  · exact ⟨s1, hY, s1.2.2.1⟩
  · exact ⟨trim_loose _ _ hY, hZ, s1.2.2.1⟩

theorem fib_cpy_loop_inv (n : Nat) : ∀ (j fuel : Nat) (h : Heap FibVar), j + 1 ≤ fuel →
    fib_inv (n / 2 ^ (j + 1)) h → fib_inv n (fib_cpy_loop n fuel (2 ^ j) h) := by
  intro j
  induction j with
  | zero =>
    intro fuel h hf hi
    obtain ⟨fuel, rfl⟩ : ∃ f, fuel = f + 1 := ⟨fuel - 1, by omega⟩
    have hb := fib_cpy_body_inv (decide (n &&& 2 ^ 0 ≠ 0)) _ h hi
    rw [bit_step n 0] at hb
    simp only [fib_cpy_loop, pow_zero, ne_eq, one_ne_zero, not_false_eq_true, if_true,
      Nat.reduceDiv]
    simp only [pow_zero, Nat.div_one] at hb
    cases fuel with
    | zero => simpa [fib_cpy_loop] using hb
    | succ f => simpa [fib_cpy_loop] using hb
  | succ j ih =>
    intro fuel h hf hi
    obtain ⟨fuel, rfl⟩ : ∃ f, fuel = f + 1 := ⟨fuel - 1, by omega⟩
    have hb := fib_cpy_body_inv (decide (n &&& 2 ^ (j + 1) ≠ 0)) _ h hi
    rw [bit_step n (j + 1)] at hb
    have hne : (2 : Nat) ^ (j + 1) ≠ 0 := by positivity
    have hdiv : (2 : Nat) ^ (j + 1) / 2 = 2 ^ j := by
      rw [pow_succ, Nat.mul_div_cancel _ (by norm_num)]
    simp only [fib_cpy_loop, if_pos hne, hdiv]
    exact ih fuel _ (by omega) hb

/-- The object left in `dest` by `bn_fib_fdoubling` is non-negative, has 64-bit
limbs and magnitude `fib n`. -/
theorem fib_cpy_loose (dest : bn) (n : Nat) (hs : dest.sign = false) (h32 : n < 2 ^ 32) :
    holds_loose (bn_fib_fdoubling dest n) (Nat.fib n) := by
  unfold bn_fib_fdoubling
  simp only []
  split
  · next hlt =>
    obtain ⟨x, hx⟩ := resize_one dest
    have hsg : (bn_resize dest 1).sign = false := (resize_sign dest 1).trans hs
    have hn : n = 0 ∨ n = 1 := by omega
    rcases hn with rfl | rfl <;>
      refine ⟨?_, ?_, ?_, ?_, ?_⟩ <;>
      simp [bn.wf, bn.size, hx, hsg, mag_cons, mag_nil]
  · next hge =>
    have h0 := fib_init_inv dest hs
    have e2 : n / 2 ^ (31 + 1) = 0 := Nat.div_eq_of_lt (by simpa using h32)
    rw [← e2] at h0
    rw [show (2 : Nat) ^ 31 % 2 ^ 32 = 2 ^ 31 by norm_num]
    exact (fib_cpy_loop_inv n 31 32 _ (by norm_num) h0).1

/-! ### The last iteration of `bn_fib_fdoubling_nocpy` -/

/-- The loop of `bn_fib_fdoubling_nocpy` ends with one run of the body, for the
lowest bit of `n`, from a memory that satisfies the invariant at `n / 2`. -/
theorem fib_loop_last (n : Nat) : ∀ (j fuel : Nat) (h : Heap FibVar), j + 1 ≤ fuel →
    fib_inv (n / 2 ^ (j + 1)) h →
    ∃ g, fib_inv (n / 2) g ∧
      fib_nocpy_loop n fuel (2 ^ j) h = fib_nocpy_body (decide (n &&& 1 ≠ 0)) g := by
  intro j
  induction j with
  | zero =>
    intro fuel h hf hi
    obtain ⟨fuel, rfl⟩ : ∃ f, fuel = f + 1 := ⟨fuel - 1, by omega⟩
    refine ⟨h, by simpa using hi, ?_⟩
    cases fuel with
    | zero => simp [fib_nocpy_loop]
    | succ f => simp [fib_nocpy_loop]
  | succ j ih =>
    intro fuel h hf hi
    obtain ⟨fuel, rfl⟩ : ∃ f, fuel = f + 1 := ⟨fuel - 1, by omega⟩
    have hb := fib_body_inv (decide (n &&& 2 ^ (j + 1) ≠ 0)) _ h hi
    rw [bit_step n (j + 1)] at hb
    have hne : (2 : Nat) ^ (j + 1) ≠ 0 := by positivity
    have hdiv : (2 : Nat) ^ (j + 1) / 2 = 2 ^ j := by
      rw [pow_succ, Nat.mul_div_cancel _ (by norm_num)]
    simp only [fib_nocpy_loop, if_pos hne, hdiv]
    exact ih fuel _ (by omega) hb

/-- The bit length of an object is fixed by its magnitude. -/
theorem msb_of_range (b : bn) (hb : b.wf) (e : Nat) (h1 : 2 ^ e ≤ mag b.number)
    (h2 : mag b.number < 2 ^ (e + 1)) : bn_msb b = e + 1 := by
  have h3 := msb_lt b hb
  have h4 := msb_le_of_lt b hb (e + 1) h2
  have h5 : 2 ^ e < 2 ^ bn_msb b := lt_of_le_of_lt h1 h3
  have := (Nat.pow_lt_pow_iff_right (by norm_num : 1 < 2)).mp h5
  omega

/-- For an even index `n = 2 * k` the object left in `dest` is the product that
`bn_mult` stored in `f1` in the last iteration: its size is fixed by the bit
lengths of `2 * F(k + 1) - F(k)` and of `F(k)`. -/
theorem fib_nocpy_even_size (dest : bn) (n e1 e2 : Nat) (hs : dest.sign = false)
    (h32 : n < 2 ^ 32) (h2 : 2 ≤ n) (hev : n % 2 = 0)
    (hA1 : 2 ^ e1 ≤ Nat.fib (n / 2)) (hA2 : Nat.fib (n / 2) < 2 ^ (e1 + 1))
    (hU1 : 2 ^ e2 ≤ 2 * Nat.fib (n / 2 + 1) - Nat.fib (n / 2))
    (hU2 : 2 * Nat.fib (n / 2 + 1) - Nat.fib (n / 2) < 2 ^ (e2 + 1)) :
    (bn_fib_fdoubling_nocpy dest n).size = limbs_for (e2 + 1 + (e1 + 1)) := by
  unfold bn_fib_fdoubling_nocpy
  simp only []
  rw [if_neg (by omega)]
  obtain ⟨t1, t2, t3⟩ := fib_top_bit n h2 h32
  rw [t1]
  have h0 := fib_init_inv dest hs
  rw [← t2] at h0
  obtain ⟨g, hg, heq⟩ := fib_loop_last n (Nat.log2 n) 32 _ t3 h0
  have hbit : decide (n &&& 1 ≠ 0) = false := by
    rw [Nat.and_one_is_mod, hev]; rfl
  rw [heq, hbit, fib_body_eq false g hg.2.1.2.1]
  simp only [Bool.false_eq_true, if_false]
  obtain ⟨hA, hB, hK⟩ := hg
  have hU := fibU_spec _ _ _ _ hA hB hK
  obtain ⟨-, -, m3, -⟩ := mult_res_spec (fibU (g.get FibVar.f1) (g.get FibVar.f2)
    (g.get FibVar.k1)) (g.get FibVar.f1) hU.1 hA.1
  have e3 := msb_of_range _ hA.1 e1 (by rw [hA.2.2.2.1]; exact hA1) (by rw [hA.2.2.2.1]; exact hA2)
  have e4 := msb_of_range _ hU.1 e2 (by rw [hU.2.2.2.1]; exact hU1)
    (by rw [hU.2.2.2.1]; exact hU2)
  rw [e3, e4] at m3
  exact m3

/-- A limb list that is longer than its magnitude needs ends in a zero limb. -/
theorem top_zero_of_lt (L : List Nat) (hL : ∀ x ∈ L, x < 2 ^ 64) (h2 : 2 ≤ L.length)
    (hm : mag L < 2 ^ (64 * (L.length - 1))) : L.getLast? = some 0 := by
  have h := trimmed_iff_getLast L hL (by omega)
  have hnt : ¬ trimmed L := by
    intro ht
    rcases ht with h1 | ⟨-, h1⟩
    · omega
    · omega
  by_contra hc
  exact hnt (h.mpr (Or.inr hc))

/-! ### No carry leaves the buffer of `bn_to_string` -/

theorem bit_loop_carry_spec (x : Nat) : ∀ (k : Nat) (s : List Nat) (c : Nat), isDigits s →
    dv s * 2 ^ k + x % 2 ^ k < 10 ^ s.length →
    bit_loop_carry x k s c = (bit_loop x k s, c) ∧
    dv (bit_loop x k s) = dv s * 2 ^ k + x % 2 ^ k := by
  intro k
  induction k with
  | zero =>
    intro s c hs _
    simp [bit_loop_carry, bit_loop, Nat.mod_one]
  | succ k ih =>
    intro s c hs hlt
    have hb : (if 2 ^ k &&& x ≠ 0 then 1 else 0) ≤ 1 := by split <;> omega
    obtain ⟨d1, d2, d3, d4⟩ := dbl_loop_spec s _ hs hb
    have e : x % 2 ^ (k + 1) = 2 ^ k * (x / 2 ^ k % 2) + x % 2 ^ k := by
      rw [pow_succ, Nat.mod_mul, Nat.add_comm]
    have d4 : dv (dbl_loop s (if 2 ^ k &&& x ≠ 0 then 1 else 0)).1 +
        10 ^ s.length * (dbl_loop s (if 2 ^ k &&& x ≠ 0 then 1 else 0)).2 =
        2 * dv s + x / 2 ^ k % 2 := by
      rw [d4, bit_value]
    have hexp : dv s * 2 ^ (k + 1) + x % 2 ^ (k + 1) =
        (2 * dv s + x / 2 ^ k % 2) * 2 ^ k + x % 2 ^ k := by
      rw [e, pow_succ]; ring
    rw [hexp] at hlt
    have hp : 1 ≤ 2 ^ k := Nat.one_le_two_pow
    have hsmall : 2 * dv s + x / 2 ^ k % 2 < 10 ^ s.length := by
      have : (2 * dv s + x / 2 ^ k % 2) * 1 ≤ (2 * dv s + x / 2 ^ k % 2) * 2 ^ k :=
        Nat.mul_le_mul_left _ hp
      omega
    have hz : (dbl_loop s (if 2 ^ k &&& x ≠ 0 then 1 else 0)).2 = 0 := by
      by_contra hne
      have h1 : (dbl_loop s (if 2 ^ k &&& x ≠ 0 then 1 else 0)).2 = 1 := by omega
      rw [h1] at d4
      omega
    rw [hz] at d4
    simp only [Nat.mul_zero, Nat.add_zero] at d4
    obtain ⟨i1, i2⟩ := ih _ (c + 0) d1 (by rw [d2, d4]; exact hlt)
    simp only [bit_loop_carry, bit_loop, hz]
    refine ⟨by simpa using i1, ?_⟩
    rw [i2, d4, hexp]

theorem limb_loop_carry_spec : ∀ (l : List Nat), (∀ x ∈ l, x < 2 ^ 64) →
    ∀ (s : List Nat) (c : Nat), isDigits s →
    dv s * 2 ^ (64 * l.length) + mag l < 10 ^ s.length →
    limb_loop_carry l.reverse s c = (limb_loop l.reverse s, c) := by
  intro l
  induction l using List.reverseRecOn with
  | nil =>
    intro _ s c _ _
    simp [limb_loop_carry, limb_loop]
  | append_singleton l x ih =>
    intro hl s c hs hlt
    have hx : x < 2 ^ 64 := hl x (by simp)
    have hexp : dv s * 2 ^ (64 * (l ++ [x]).length) + mag (l ++ [x]) =
        (dv s * 2 ^ 64 + x) * 2 ^ (64 * l.length) + mag l := by
      rw [mag_append, mag_cons, mag_nil, List.length_append, List.length_singleton,
        show 64 * (l.length + 1) = 64 + 64 * l.length by ring, pow_add]
      ring
    rw [hexp] at hlt
    have hp : 1 ≤ 2 ^ (64 * l.length) := Nat.one_le_two_pow
    have hsmall : dv s * 2 ^ 64 + x % 2 ^ 64 < 10 ^ s.length := by
      rw [Nat.mod_eq_of_lt hx]
      have : (dv s * 2 ^ 64 + x) * 1 ≤ (dv s * 2 ^ 64 + x) * 2 ^ (64 * l.length) :=
        Nat.mul_le_mul_left _ hp
      omega
    obtain ⟨b1, b2⟩ := bit_loop_carry_spec x 64 s c hs hsmall
    obtain ⟨j1, j2, -⟩ := bit_loop_spec x 64 s hs
    rw [Nat.mod_eq_of_lt hx] at b2
    have i1 := ih (fun y hy => hl y (by simp [hy])) (bit_loop x 64 s) c j1
      (by rw [j2, b2]; exact hlt)
    simp only [List.reverse_append, List.reverse_cons, List.reverse_nil, List.nil_append,
      List.singleton_append, limb_loop_carry, limb_loop, b1]
    exact i1

/-- The conversion loops of `bn_to_string` never carry out of the leftmost
digit of the buffer. -/
theorem to_string_carry_spec (b : bn) (hb : b.wf) :
    to_string_carry b = (to_string_buf b, 0) := by
  obtain ⟨-, -, -, hlt⟩ := to_string_buf_spec b hb
  unfold to_string_carry to_string_buf
  simp only []
  apply limb_loop_carry_spec b.number hb _ 0 (isDigits_zeros _)
  rw [dv_zeros, Nat.zero_mul, Nat.zero_add, List.length_replicate]
  refine lt_of_lt_of_le hlt (Nat.pow_le_pow_right (by norm_num) ?_)
  unfold bn.size
  omega

/-- With the sign set the buffer of `bn_to_string` starts with a `'0'` that the
scan skips, so the `'-'` is stored at an index of the buffer. -/
theorem skip_zeros_pos (b : bn) (hb : b.wf) (hs : b.sign = true) :
    1 ≤ skip_zeros (to_string_buf b) := by
  have h := bn_to_string_spec b hb
  unfold bn_to_string at h
  simp only [hs, if_true] at h
  by_contra hc
  have h0 : skip_zeros (to_string_buf b) = 0 := by omega
  rw [if_pos h0] at h
  exact absurd h (by simp)

theorem value_of_val (b : bn) (v : Nat) (h : holds_val b v) : b.value = (v : Int) := by
  unfold bn.value
  rw [h.2.2.1, h.2.2.2]
  simp

/-- A shift by one of a trimmed non-negative object and the sum of the object
with itself are the same object. -/
theorem lshift_one_eq_add_res (x : bn) (hw : x.wf) (h1 : 1 ≤ x.size)
    (ht : trimmed x.number) (hs : x.sign = false) : bn_lshift x 1 = add_res x x := by
  rw [bn_lshift_eq x 1 (by norm_num) h1]
  obtain ⟨-, -, -, -, g5, g6, g7, g8⟩ := lshift2_spec x 1 hw h1 (by norm_num)
  obtain ⟨a1, a2, a3, a4, a5⟩ := add_trim x x _ _ hw hw rfl rfl hs hs
  have hmag : mag (shlLimbs (1 % 64) 0 (lshift2_src x 1).number) = mag (add_res x x).number := by
    rw [g7, a4]; norm_num; ring
  have hlen : (shlLimbs (1 % 64) 0 (lshift2_src x 1).number).length =
      (add_res x x).number.length :=
    le_antisymm (trimmed_length_le _ _ a1 a2 (g8 ht) hmag.symm)
      (trimmed_length_le _ _ g5 g6 a5 hmag)
  have hnum := mag_inj _ _ hlen g5 a1 hmag
  cases hr : add_res x x with
  | mk n s =>
    rw [hr] at hnum a3
    simp only at hnum a3
    rw [hnum, hs, a3]

section heap
variable {P : Type} [DecidableEq P]

/-- A shift count that is a multiple of 64 makes `bn_lshift2` return before it
writes anything: `dest` keeps what it held. -/
theorem bn_lshift2_zero (src dest : P) (shift : Nat) (h : Heap P) (hs : shift % 64 = 0) :
    bn_lshift2 src shift dest h = h := by
  unfold bn_lshift2
  simp only [if_pos hs]

/-- For a shift count from 1 to 63 and `dest` distinct from `src`,
`bn_lshift2` leaves the magnitude of `src` times `2 ^ shift` in `dest` and
keeps the magnitude of `src`. -/
theorem bn_lshift2_value (src dest : P) (shift : Nat) (h : Heap P) (hne : src ≠ dest)
    (hw : (h.get src).wf) (h1 : 1 ≤ (h.get src).size) (hs1 : 1 ≤ shift) (hs : shift < 64) :
    mag ((bn_lshift2 src shift dest h).get dest).number =
      mag (h.get src).number * 2 ^ shift ∧
    mag ((bn_lshift2 src shift dest h).get src).number = mag (h.get src).number := by
  have hm : shift % 64 = shift := Nat.mod_eq_of_lt hs
  rw [bn_lshift2_eq src dest hne shift h (by omega) h1, Heap.get_set_same,
    Heap.get_set_ne _ _ hne, Heap.get_set_same]
  obtain ⟨-, g2, -, -, -, -, g7, -⟩ := lshift2_spec (h.get src) shift hw h1 (by omega)
  rw [hm] at g7
  rw [hm]
  exact ⟨g7, g2⟩

end heap

theorem skip_zeros_head (s : List Nat) (h : 1 ≤ skip_zeros s) : s.head? = some 48 := by
  cases s with
  | nil => simp [skip_zeros] at h
  | cons c0 rest =>
    cases rest with
    | nil => simp [skip_zeros] at h
    | cons c1 rest =>
      simp only [skip_zeros] at h
      split at h
      · next h0 => simp [h0]
      · omega

/-- The zero bits above the highest set bit: for a number of exactly `e` bits,
counting down from position `k - 1` finds `k - e` zero bits. -/
theorem zero_bits_below_spec (m e : Nat) (hlt : m < 2 ^ e) (hge : e ≠ 0 → 2 ^ (e - 1) ≤ m) :
    ∀ k, e ≤ k → zero_bits_below m k = k - e := by
  intro k
  induction k with
  | zero => intro _; simp [zero_bits_below]
  | succ k ih =>
    intro hk
    have h3 := @Nat.testBit_to_div_mod k m
    simp only [zero_bits_below]
    rcases Nat.eq_or_lt_of_le hk with he | he
    · have hlo : 2 ^ k ≤ m := by
        have := hge (by omega)
        rwa [he, Nat.add_sub_cancel] at this
      have hhi : m < 2 * 2 ^ k := by
        rw [he, pow_succ] at hlt; omega
      have hdiv : m / 2 ^ k = 1 := by
        apply Nat.le_antisymm
        · have := (Nat.div_lt_iff_lt_mul (by positivity : 0 < 2 ^ k)).mpr hhi
          omega
        · exact (Nat.le_div_iff_mul_le (by positivity)).mpr (by simpa using hlo)
      have hb : m.testBit k = true := by rw [h3, hdiv]; rfl
      rw [if_pos hb, he]; simp
    · have hle : e ≤ k := by omega
      have hm : m < 2 ^ k := lt_of_lt_of_le hlt (Nat.pow_le_pow_right (by norm_num) hle)
      have hb : m.testBit k = false := by rw [h3, Nat.div_eq_of_lt hm]; rfl
      rw [hb, ih hle]
      simp only [Bool.false_eq_true, if_false]
      omega

/-- `bn_clz` returns the number of leading zero bits of the object. -/
theorem clz_eq_leading (b : bn) (hb : b.wf) : bn_clz b = leading_zero_bits b := by
  obtain ⟨h1, h2⟩ := msb_spec b.number hb
  have h3 := clz_le b.number
  unfold leading_zero_bits bn_clz bn.size
  rw [zero_bits_below_spec _ _ h1 h2 _ (by omega)]
  omega

/-- The shifted magnitude needs a limb more than the object has exactly when
the shift count exceeds the number of leading zero bits. -/
theorem overflow_iff_clz (b : bn) (hb : b.wf) (h1 : 1 ≤ b.size) (sh : Nat) (hsh : sh < 64) :
    sh > bn_clz b ↔ 2 ^ (64 * b.size) ≤ mag b.number * 2 ^ sh := by
  obtain ⟨m1, m2⟩ := msb_spec b.number hb
  have hc := clz_le b.number
  have hn : 1 ≤ b.number.length := h1
  unfold bn_clz bn.size
  constructor
  · intro hgt
    have h3 : 2 ^ (64 * b.number.length - sh) ≤ mag b.number :=
      le_trans (Nat.pow_le_pow_right (by norm_num) (by omega)) (m2 (by omega))
    calc 2 ^ (64 * b.number.length)
        = 2 ^ (64 * b.number.length - sh) * 2 ^ sh := by
          rw [← pow_add]; congr 1; omega
      _ ≤ _ := Nat.mul_le_mul_right _ h3
  · intro hov
    by_contra hle
    have hlt : mag b.number * 2 ^ sh < 2 ^ (64 * b.number.length) :=
      calc mag b.number * 2 ^ sh
          < 2 ^ (b.number.length * 64 - bn_clz_loop b.number.reverse 0) * 2 ^ sh :=
            Nat.mul_lt_mul_of_pos_right m1 (by positivity)
        _ = 2 ^ (b.number.length * 64 - bn_clz_loop b.number.reverse 0 + sh) :=
            (pow_add _ _ _).symm
        _ ≤ _ := Nat.pow_le_pow_right (by norm_num) (by omega)
    omega

/-- C11. For `a` and `b` with 64-bit limbs, at least one limb and a non-zero most
significant limb unless the size is one, `bn_cmp(a, b)` is `1` exactly when
`magnitude(a) > magnitude(b)`, `-1` exactly when `magnitude(a) < magnitude(b)`
and `0` exactly when the magnitudes are equal; the result is the same whatever
the signs of `a` and `b` are. -/
theorem C11_bn_cmp_magnitude (a b : bn) (ha : a.wf) (hb : b.wf)
    (ha1 : 1 ≤ a.size) (hb1 : 1 ≤ b.size)
    (hta : a.size = 1 ∨ a.number.getLast? ≠ some 0)
    (htb : b.size = 1 ∨ b.number.getLast? ≠ some 0) :
    (bn_cmp a b = 1 ↔ mag b.number < mag a.number) ∧
    (bn_cmp a b = -1 ↔ mag a.number < mag b.number) ∧
    (bn_cmp a b = 0 ↔ mag a.number = mag b.number) ∧
    (∀ sa sb : Bool, bn_cmp ⟨a.number, sa⟩ ⟨b.number, sb⟩ = bn_cmp a b) := by
  have h := bn_cmp_trimmed a b ha hb ((trimmed_iff_getLast a.number ha ha1).mpr hta)
    ((trimmed_iff_getLast b.number hb hb1).mpr htb) ha1 hb1
  refine ⟨?_, ?_, ?_, fun _ _ => rfl⟩
  all_goals
    rw [h]
    rcases Nat.lt_trichotomy (mag a.number) (mag b.number) with hlt | heq | hgt
    · rw [if_neg (by omega), if_pos hlt]
      constructor <;> intro h' <;> omega
    · rw [if_neg (by omega), if_neg (by omega)]
      constructor <;> intro h' <;> omega
    · rw [if_pos hgt]
      constructor <;> intro h' <;> omega

theorem C11_bn_cmp_magnitude_witness :
    (bn.wf ⟨[5, 1], true⟩ ∧ bn.wf ⟨[7, 2], false⟩ ∧
      1 ≤ bn.size ⟨[5, 1], true⟩ ∧ 1 ≤ bn.size ⟨[7, 2], false⟩ ∧
      (bn.size ⟨[5, 1], true⟩ = 1 ∨ (bn.mk [5, 1] true).number.getLast? ≠ some 0) ∧
      (bn.size ⟨[7, 2], false⟩ = 1 ∨ (bn.mk [7, 2] false).number.getLast? ≠ some 0)) ∧
    ((bn_cmp ⟨[5, 1], true⟩ ⟨[7, 2], false⟩ = 1 ↔
        mag (bn.mk [7, 2] false).number < mag (bn.mk [5, 1] true).number) ∧
      (bn_cmp ⟨[5, 1], true⟩ ⟨[7, 2], false⟩ = -1 ↔
        mag (bn.mk [5, 1] true).number < mag (bn.mk [7, 2] false).number) ∧
      (bn_cmp ⟨[5, 1], true⟩ ⟨[7, 2], false⟩ = 0 ↔
        mag (bn.mk [5, 1] true).number = mag (bn.mk [7, 2] false).number) ∧
      (∀ sa sb : Bool,
        bn_cmp ⟨(bn.mk [5, 1] true).number, sa⟩ ⟨(bn.mk [7, 2] false).number, sb⟩ =
          bn_cmp ⟨[5, 1], true⟩ ⟨[7, 2], false⟩)) :=
  ⟨⟨by decide, by decide, by decide, by decide, by decide, by decide⟩,
    C11_bn_cmp_magnitude ⟨[5, 1], true⟩ ⟨[7, 2], false⟩ (by decide) (by decide) (by decide)
      (by decide) (by decide) (by decide)⟩

/-- C12. For a non-negative `x` with 64-bit limbs, at least one limb and a
non-zero most significant limb unless the size is one, `bn_lshift(x, 1)` leaves
in `x` the sign, size and limbs that `bn_add(x, x, c)` leaves in `c`. -/
theorem C12_lshift_one_eq_add_self {P : Type} [DecidableEq P] (x c : P) (h : Heap P)
    (hw : (h.get x).wf) (h1 : 1 ≤ (h.get x).size)
    (ht : (h.get x).size = 1 ∨ (h.get x).number.getLast? ≠ some 0)
    (hs : (h.get x).sign = false) :
    bn_lshift (h.get x) 1 = (bn_add x x c h).get c := by
  rw [bn_add_eq, Heap.get_set_same]
  exact lshift_one_eq_add_res _ hw h1 ((trimmed_iff_getLast _ hw h1).mpr ht) hs

theorem C12_lshift_one_eq_add_self_witness :
    (bn.wf ((heap3 ⟨[5, 2 ^ 63], false⟩ ⟨[1], false⟩ ⟨[3], true⟩).get 0) ∧
      1 ≤ ((heap3 ⟨[5, 2 ^ 63], false⟩ ⟨[1], false⟩ ⟨[3], true⟩).get 0).size ∧
      (((heap3 ⟨[5, 2 ^ 63], false⟩ ⟨[1], false⟩ ⟨[3], true⟩).get 0).size = 1 ∨
        ((heap3 ⟨[5, 2 ^ 63], false⟩ ⟨[1], false⟩ ⟨[3], true⟩).get 0).number.getLast? ≠
          some 0) ∧
      ((heap3 ⟨[5, 2 ^ 63], false⟩ ⟨[1], false⟩ ⟨[3], true⟩).get 0).sign = false) ∧
    bn_lshift ((heap3 ⟨[5, 2 ^ 63], false⟩ ⟨[1], false⟩ ⟨[3], true⟩).get 0) 1 =
      (bn_add 0 0 2 (heap3 ⟨[5, 2 ^ 63], false⟩ ⟨[1], false⟩ ⟨[3], true⟩)).get 2 :=
  ⟨⟨by decide, by decide, by decide, by decide⟩,
    C12_lshift_one_eq_add_self 0 2 (heap3 ⟨[5, 2 ^ 63], false⟩ ⟨[1], false⟩ ⟨[3], true⟩)
      (by decide) (by decide) (by decide) (by decide)⟩

/-- C13. Aliasing safety: `bn_add(a, b, a)` and `bn_add(a, b, b)` leave in their
output the sign, size and limbs that `bn_add(a, b, c)` leaves in any other
output `c`, and so do `bn_mult(a, b, a)` and `bn_mult(a, b, b)` against
`bn_mult(a, b, c)`; this holds for all objects, canonical or not. -/
theorem C13_add_mult_aliasing {P : Type} [DecidableEq P] (a b c : P) (h : Heap P) :
    (bn_add a b a h).get a = (bn_add a b c h).get c ∧
    (bn_add a b b h).get b = (bn_add a b c h).get c ∧
    (bn_mult a b a h).get a = (bn_mult a b c h).get c ∧
    (bn_mult a b b h).get b = (bn_mult a b c h).get c := by
  simp only [bn_add_eq, bn_mult_eq, Heap.get_set_same, and_self]

/-- C14. For every 32-bit index `n` and freshly allocated `+0` objects `dest`
(of any sizes), `bn_fib_fdoubling_Q_Matrix`, `bn_fib_fdoubling_nocpy` and
`bn_fib_fdoubling` leave the same signed value in `dest`, the Fibonacci number
`F(n)`. -/
theorem C14_fib_variants_agree (s1 s2 s3 n : Nat) (h32 : n < 2 ^ 32) :
    (bn_fib_fdoubling_Q_Matrix (bn_alloc s1) n).value =
      (bn_fib_fdoubling_nocpy (bn_alloc s2) n).value ∧
    (bn_fib_fdoubling (bn_alloc s3) n).value =
      (bn_fib_fdoubling_nocpy (bn_alloc s2) n).value ∧
    (bn_fib_fdoubling_nocpy (bn_alloc s2) n).value = (F n : Int) := by
  have h1 := value_of_val _ _ (fib_qm_val (bn_alloc s1) n rfl h32)
  have h2 := value_of_val _ _ (val_of_loose _ _ (fib_nocpy_loose (bn_alloc s2) n rfl h32))
  have h3 := value_of_val _ _ (val_of_loose _ _ (fib_cpy_loose (bn_alloc s3) n rfl h32))
  rw [h1, h2, h3, F_eq_fib]
  exact ⟨rfl, rfl, rfl⟩

theorem C14_fib_variants_agree_witness :
    (186 < 2 ^ 32) ∧
    ((bn_fib_fdoubling_Q_Matrix (bn_alloc 1) 186).value =
      (bn_fib_fdoubling_nocpy (bn_alloc 1) 186).value ∧
    (bn_fib_fdoubling (bn_alloc 1) 186).value =
      (bn_fib_fdoubling_nocpy (bn_alloc 1) 186).value ∧
    (bn_fib_fdoubling_nocpy (bn_alloc 1) 186).value = (F 186 : Int)) :=
  ⟨by norm_num, C14_fib_variants_agree 1 1 1 186 (by norm_num)⟩

/-- C15. At the canonical inputs `a = 2 ^ 32` and `b = 2 ^ 31` (one limb each),
`bn_mult(a, b, c)` leaves in `c` the two limbs `2 ^ 63, 0`: the size is 2 and
the most significant limb is zero, so `c` is not trimmed as the claim states. -/
theorem C15_bn_mult_untrimmed_failing_input :
    bn.canonical ⟨[2 ^ 32], false⟩ ∧ bn.canonical ⟨[2 ^ 31], false⟩ ∧
    (bn_mult 0 1 2 (heap3 ⟨[2 ^ 32], false⟩ ⟨[2 ^ 31], false⟩ ⟨[0], false⟩)).get 2 =
      ⟨[2 ^ 63, 0], false⟩ ∧
    ¬ (((bn_mult 0 1 2 (heap3 ⟨[2 ^ 32], false⟩ ⟨[2 ^ 31], false⟩ ⟨[0], false⟩)).get 2).size = 1 ∨
      ((bn_mult 0 1 2 (heap3 ⟨[2 ^ 32], false⟩ ⟨[2 ^ 31], false⟩
        ⟨[0], false⟩)).get 2).number.getLast? ≠ some 0) := by
  have e1 : bn_msb ⟨[2 ^ 32], false⟩ = 32 + 1 :=
    msb_of_range _ (by decide) 32 (by norm_num [mag_cons, mag_nil])
      (by norm_num [mag_cons, mag_nil])
  have e2 : bn_msb ⟨[2 ^ 31], false⟩ = 31 + 1 :=
    msb_of_range _ (by decide) 31 (by norm_num [mag_cons, mag_nil])
      (by norm_num [mag_cons, mag_nil])
  have hm : mult_res ⟨[2 ^ 32], false⟩ ⟨[2 ^ 31], false⟩ = ⟨[2 ^ 63, 0], false⟩ := by
    unfold mult_res
    rw [e1, e2]
    decide
  have hr : (bn_mult 0 1 2 (heap3 ⟨[2 ^ 32], false⟩ ⟨[2 ^ 31], false⟩ ⟨[0], false⟩)).get 2 =
      ⟨[2 ^ 63, 0], false⟩ := by
    rw [bn_mult_eq, Heap.get_set_same]
    exact hm
  rw [hr]
  decide

/-- C16. For canonical `a` and `b`, `bn_add(a, b, c)` leaves a canonical object
in `c` (at least one limb, the most significant limb non-zero unless the size
is one, no negative zero), and so does `bn_sub(a, b, c)` for an output `c` that
is not `b`. -/
theorem C16_add_sub_canonical {P : Type} [DecidableEq P] (a b c : P) (h : Heap P)
    (hcb : c ≠ b) (ha : (h.get a).canonical) (hb : (h.get b).canonical) :
    (1 ≤ ((bn_add a b c h).get c).size ∧
      (((bn_add a b c h).get c).size = 1 ∨
        ((bn_add a b c h).get c).number.getLast? ≠ some 0) ∧
      (mag ((bn_add a b c h).get c).number = 0 → ((bn_add a b c h).get c).sign = false)) ∧
    (1 ≤ ((bn_sub a b c h).get c).size ∧
      (((bn_sub a b c h).get c).size = 1 ∨
        ((bn_sub a b c h).get c).number.getLast? ≠ some 0) ∧
      (mag ((bn_sub a b c h).get c).number = 0 → ((bn_sub a b c h).get c).sign = false)) := by
  have _ := hcb
  rw [bn_add_eq, bn_sub_eq, Heap.get_set_same, Heap.get_set_same]
  exact ⟨(add_res_spec _ _ ha hb).2.2, (sub_res_spec _ _ ha hb).2.2⟩

theorem C16_add_sub_canonical_witness :
    ((2 : Nat) ≠ 1 ∧ bn.canonical ((heap3 ⟨[5, 1], true⟩ ⟨[7, 1], false⟩ ⟨[0], false⟩).get 0) ∧
      bn.canonical ((heap3 ⟨[5, 1], true⟩ ⟨[7, 1], false⟩ ⟨[0], false⟩).get 1)) ∧
    ((1 ≤ ((bn_add 0 1 2 (heap3 ⟨[5, 1], true⟩ ⟨[7, 1], false⟩ ⟨[0], false⟩)).get 2).size ∧
      (((bn_add 0 1 2 (heap3 ⟨[5, 1], true⟩ ⟨[7, 1], false⟩ ⟨[0], false⟩)).get 2).size = 1 ∨
        ((bn_add 0 1 2 (heap3 ⟨[5, 1], true⟩ ⟨[7, 1], false⟩
          ⟨[0], false⟩)).get 2).number.getLast? ≠ some 0) ∧
      (mag ((bn_add 0 1 2 (heap3 ⟨[5, 1], true⟩ ⟨[7, 1], false⟩ ⟨[0], false⟩)).get 2).number = 0 →
        ((bn_add 0 1 2 (heap3 ⟨[5, 1], true⟩ ⟨[7, 1], false⟩ ⟨[0], false⟩)).get 2).sign =
          false)) ∧
    (1 ≤ ((bn_sub 0 1 2 (heap3 ⟨[5, 1], true⟩ ⟨[7, 1], false⟩ ⟨[0], false⟩)).get 2).size ∧
      (((bn_sub 0 1 2 (heap3 ⟨[5, 1], true⟩ ⟨[7, 1], false⟩ ⟨[0], false⟩)).get 2).size = 1 ∨
        ((bn_sub 0 1 2 (heap3 ⟨[5, 1], true⟩ ⟨[7, 1], false⟩
          ⟨[0], false⟩)).get 2).number.getLast? ≠ some 0) ∧
      (mag ((bn_sub 0 1 2 (heap3 ⟨[5, 1], true⟩ ⟨[7, 1], false⟩ ⟨[0], false⟩)).get 2).number = 0 →
        ((bn_sub 0 1 2 (heap3 ⟨[5, 1], true⟩ ⟨[7, 1], false⟩ ⟨[0], false⟩)).get 2).sign =
          false))) :=
  ⟨⟨by decide, by decide, by decide⟩,
    C16_add_sub_canonical 0 1 2 (heap3 ⟨[5, 1], true⟩ ⟨[7, 1], false⟩ ⟨[0], false⟩)
      (by decide) (by decide) (by decide)⟩

/-- C17. At the index `n = 186` and a fresh one-limb `dest`,
`bn_fib_fdoubling_nocpy` leaves in `dest` three limbs of which the most
significant is zero (with the sign clear and the magnitude `F(186)`, which fits
two limbs): the result is not trimmed as the claim states. -/
theorem C17_fib_untrimmed_failing_input :
    (bn_fib_fdoubling_nocpy (bn_alloc 1) 186).size = 3 ∧
    (bn_fib_fdoubling_nocpy (bn_alloc 1) 186).number.getLast? = some 0 ∧
    (bn_fib_fdoubling_nocpy (bn_alloc 1) 186).sign = false ∧
    mag (bn_fib_fdoubling_nocpy (bn_alloc 1) 186).number = F 186 ∧
    F 186 < 2 ^ 128 := by
  have h93 : Nat.fib 93 = 12200160415121876738 := by norm_num
  have h94 : Nat.fib 94 = 19740274219868223167 := by norm_num
  have h186 : Nat.fib 186 = 332825110087067562321196029789634457848 := by norm_num
  have hsz : (bn_fib_fdoubling_nocpy (bn_alloc 1) 186).size = 3 := by
    have := fib_nocpy_even_size (bn_alloc 1) 186 63 64 rfl (by norm_num) (by norm_num)
      (by norm_num)
      (by rw [show 186 / 2 = 93 by norm_num, h93]; norm_num)
      (by rw [show 186 / 2 = 93 by norm_num, h93]; norm_num)
      (by rw [show 186 / 2 + 1 = 94 by norm_num, show 186 / 2 = 93 by norm_num, h93, h94]
          norm_num)
      (by rw [show 186 / 2 + 1 = 94 by norm_num, show 186 / 2 = 93 by norm_num, h93, h94]
          norm_num)
    rw [this]
    decide
  obtain ⟨w1, -, w3, w4, -⟩ := fib_nocpy_loose (bn_alloc 1) 186 rfl (by norm_num)
  have hlt : Nat.fib 186 < 2 ^ 128 := by rw [h186]; norm_num
  refine ⟨hsz, ?_, w3, by rw [w4, F_eq_fib], by rw [F_eq_fib]; exact hlt⟩
  have hlen : (bn_fib_fdoubling_nocpy (bn_alloc 1) 186).number.length = 3 := hsz
  apply top_zero_of_lt _ w1 (by omega)
  rw [hlen, w4]
  exact hlt

/-- C18. For every `bn` with 64-bit limbs and at least one limb and every shift
count `s` (also `s ≥ 64`), `bn_lshift(bn, s)` leaves the magnitude times
`2 ^ (s mod 64)` in `bn` (no set bit is lost), keeps the sign, and makes the
size one larger when `s mod 64` exceeds the number of leading zero bits of `bn`,
keeping it otherwise.  The number of leading zero bits is `leading_zero_bits`,
counted on the binary digits of the magnitude; `bn_clz` returns this number,
and the size grows exactly when the shifted magnitude does not fit the limbs
`bn` has. -/
theorem C18_bn_lshift (b : bn) (s : Nat) (hb : b.wf) (h1 : 1 ≤ b.size) :
    mag (bn_lshift b s).number = mag b.number * 2 ^ (s % 64) ∧
    (bn_lshift b s).sign = b.sign ∧
    (bn_lshift b s).size =
      (if s % 64 > leading_zero_bits b then b.size + 1 else b.size) ∧
    ((bn_lshift b s).size = b.size + 1 ↔
      2 ^ (64 * b.size) ≤ mag b.number * 2 ^ (s % 64)) ∧
    bn_clz b = leading_zero_bits b ∧
    (bn_lshift b s).size = if s % 64 > bn_clz b then b.size + 1 else b.size := by
  have hclz := clz_eq_leading b hb
  have hov := overflow_iff_clz b hb h1 (s % 64) (Nat.mod_lt _ (by norm_num))
  have hsize : (bn_lshift b s).size = if s % 64 > bn_clz b then b.size + 1 else b.size := by
    by_cases hs : s % 64 = 0
    · have he : bn_lshift b s = b := by
        unfold bn_lshift
        simp only [if_pos hs]
      rw [he, hs, if_neg (by omega)]
    · rw [bn_lshift_eq b s hs h1]
      show (shlLimbs (s % 64) 0 (lshift2_src b s).number).length = _
      rw [shlLimbs_length]
      unfold lshift2_src
      split
      · exact resize_size _ _
      · rfl
  have hmag : mag (bn_lshift b s).number = mag b.number * 2 ^ (s % 64) ∧
      (bn_lshift b s).sign = b.sign := by
    by_cases hs : s % 64 = 0
    · have he : bn_lshift b s = b := by
        unfold bn_lshift
        simp only [if_pos hs]
      rw [he, hs]
      simp
    · rw [bn_lshift_eq b s hs h1]
      obtain ⟨-, -, -, -, -, -, g7, -⟩ := lshift2_spec b s hb h1 hs
      exact ⟨g7, rfl⟩
  refine ⟨hmag.1, hmag.2, by rw [← hclz]; exact hsize, ?_, hclz, hsize⟩
  rw [hsize, ← hov]
  split
  · next hgt => exact ⟨fun _ => hgt, fun _ => rfl⟩
  · next hle => exact ⟨fun h => by omega, fun h => absurd h hle⟩

theorem C18_bn_lshift_witness :
    (bn.wf ⟨[7, 2 ^ 63 + 1], true⟩ ∧ 1 ≤ bn.size ⟨[7, 2 ^ 63 + 1], true⟩) ∧
    (mag (bn_lshift ⟨[7, 2 ^ 63 + 1], true⟩ 67).number =
      mag (bn.mk [7, 2 ^ 63 + 1] true).number * 2 ^ (67 % 64) ∧
    (bn_lshift ⟨[7, 2 ^ 63 + 1], true⟩ 67).sign = (bn.mk [7, 2 ^ 63 + 1] true).sign ∧
    (bn_lshift ⟨[7, 2 ^ 63 + 1], true⟩ 67).size =
      (if 67 % 64 > leading_zero_bits ⟨[7, 2 ^ 63 + 1], true⟩ then
        bn.size ⟨[7, 2 ^ 63 + 1], true⟩ + 1
      else bn.size ⟨[7, 2 ^ 63 + 1], true⟩) ∧
    ((bn_lshift ⟨[7, 2 ^ 63 + 1], true⟩ 67).size = bn.size ⟨[7, 2 ^ 63 + 1], true⟩ + 1 ↔
      2 ^ (64 * bn.size ⟨[7, 2 ^ 63 + 1], true⟩) ≤
        mag (bn.mk [7, 2 ^ 63 + 1] true).number * 2 ^ (67 % 64)) ∧
    bn_clz ⟨[7, 2 ^ 63 + 1], true⟩ = leading_zero_bits ⟨[7, 2 ^ 63 + 1], true⟩ ∧
    (bn_lshift ⟨[7, 2 ^ 63 + 1], true⟩ 67).size =
      if 67 % 64 > bn_clz ⟨[7, 2 ^ 63 + 1], true⟩ then bn.size ⟨[7, 2 ^ 63 + 1], true⟩ + 1
      else bn.size ⟨[7, 2 ^ 63 + 1], true⟩) :=
  ⟨⟨by decide, by decide⟩, C18_bn_lshift ⟨[7, 2 ^ 63 + 1], true⟩ 67 (by decide) (by decide)⟩

/-- C19. At the shift count `s = 0`, with `src` holding 5 and a distinct `dest`
holding 7, `bn_lshift2(src, 0, dest)` leaves `dest` holding 7: the magnitude of
`dest` is not the magnitude of `src` times `2 ^ 0` as the claim states (`src`
is unchanged, as stated). -/
theorem C19_bn_lshift2_zero_failing_input :
    (0 : Nat) ≠ 1 ∧
    (bn_lshift2 0 0 1 (heap3 ⟨[5], false⟩ ⟨[7], false⟩ ⟨[0], false⟩)).get 1 = ⟨[7], false⟩ ∧
    mag ((bn_lshift2 0 0 1 (heap3 ⟨[5], false⟩ ⟨[7], false⟩ ⟨[0], false⟩)).get 1).number ≠
      mag ((heap3 ⟨[5], false⟩ ⟨[7], false⟩ ⟨[0], false⟩).get 0).number * 2 ^ 0 ∧
    (bn_lshift2 0 0 1 (heap3 ⟨[5], false⟩ ⟨[7], false⟩ ⟨[0], false⟩)).get 0 = ⟨[5], false⟩ := by
  decide!

/-- C20. For every object with 64-bit limbs, the conversion loops of
`bn_to_string` never carry out of the leftmost of the
`64 * size / 3 + 1 + sign` digit positions of the buffer, and when the sign is
set the buffer starts with a `'0'` that the scan skips, so that the `'-'` is
stored inside the buffer. -/
theorem C20_to_string_buffer (b : bn) (hb : b.wf) :
    (to_string_carry b).2 = 0 ∧ (to_string_carry b).1 = to_string_buf b ∧
    (to_string_buf b).length = 64 * b.size / 3 + 1 + (if b.sign then 1 else 0) ∧
    (b.sign = true →
      (to_string_buf b).head? = some 48 ∧ 1 ≤ skip_zeros (to_string_buf b)) ∧
    bn_to_string b ≠ none := by
  rw [to_string_carry_spec b hb]
  refine ⟨rfl, rfl, (to_string_buf_spec b hb).2.1, fun hs => ?_, ?_⟩
  · have hp := skip_zeros_pos b hb hs
    exact ⟨skip_zeros_head _ hp, hp⟩
  · rw [bn_to_string_spec b hb]
    simp

theorem C20_to_string_buffer_witness :
    bn.wf ⟨[2 ^ 64 - 1, 2 ^ 64 - 1], true⟩ ∧
    ((to_string_carry ⟨[2 ^ 64 - 1, 2 ^ 64 - 1], true⟩).2 = 0 ∧
    (to_string_carry ⟨[2 ^ 64 - 1, 2 ^ 64 - 1], true⟩).1 =
      to_string_buf ⟨[2 ^ 64 - 1, 2 ^ 64 - 1], true⟩ ∧
    (to_string_buf ⟨[2 ^ 64 - 1, 2 ^ 64 - 1], true⟩).length =
      64 * bn.size ⟨[2 ^ 64 - 1, 2 ^ 64 - 1], true⟩ / 3 + 1 +
        (if (bn.mk [2 ^ 64 - 1, 2 ^ 64 - 1] true).sign then 1 else 0) ∧
    ((bn.mk [2 ^ 64 - 1, 2 ^ 64 - 1] true).sign = true →
      (to_string_buf ⟨[2 ^ 64 - 1, 2 ^ 64 - 1], true⟩).head? = some 48 ∧
        1 ≤ skip_zeros (to_string_buf ⟨[2 ^ 64 - 1, 2 ^ 64 - 1], true⟩)) ∧
    bn_to_string ⟨[2 ^ 64 - 1, 2 ^ 64 - 1], true⟩ ≠ none) :=
  ⟨by decide, C20_to_string_buffer ⟨[2 ^ 64 - 1, 2 ^ 64 - 1], true⟩ (by decide)⟩

end Fibdrv
